import Mathlib

/-!
# Verification of the `graphviz-rust` data model, printer and parser

This development embeds the core of the `graphviz-rust` repository in Lean 4:

* the data model of `dot-structures/src/lib.rs` (`Id`, `Port`, `NodeId`,
  `Attribute`, `GraphAttributes`, `Node`, `Vertex`, `EdgeTy`, `Edge`,
  `Subgraph`, `Stmt`, `Graph`);
* the printer of `src/printer.rs` (`PrinterContext`, the `DotPrinter`
  implementations, `print_edge`), with the two panic sites (the
  `unreachable!` arm of `Port::print` and the `unwrap` on the first chain
  element in `print_edge`) modelled as `Option.none`;
* the parser of `src/parser.rs`.  The pest grammar file `grammar/dot.pest`
  is not part of the sources, so the lexical and grammatical layer is
  modelled from the specification (§4.1 of the spec); the tree-folding
  layer (`process_port`, `parse_compass_manually`, `process_edge_stmt`,
  anonymous-id generation, the statement tie-break order) follows
  `src/parser.rs`.

Machine integers: the only integer arithmetic in the embedded code is the
printer's indentation bookkeeping (`usize` counters far below overflow);
it is modelled with `Nat`.
-/

set_option maxHeartbeats 1000000

namespace Dot

/-- `Id` from `dot-structures/src/lib.rs`: the four string-representation
variants of an identifier.  `Escaped` and `Html` carry their own delimiters
as part of the stored string. -/
inductive Id where
  | Html (v : String)
  | Escaped (v : String)
  | Plain (v : String)
  | Anonymous (v : String)
  deriving DecidableEq, Repr

/-- `Port` from `dot-structures/src/lib.rs`: an optional id and an optional
compass direction. -/
structure Port where
  id : Option Id
  compass : Option String
  deriving DecidableEq, Repr

/-- `NodeId` from `dot-structures/src/lib.rs`: an id plus an optional port. -/
structure NodeId where
  id : Id
  port : Option Port
  deriving DecidableEq, Repr

/-- `Attribute` from `dot-structures/src/lib.rs`: a `key = value` pair. -/
structure Attribute where
  key : Id
  value : Id
  deriving DecidableEq, Repr

/-- `GraphAttributes` from `dot-structures/src/lib.rs`. -/
inductive GraphAttributes where
  | Graph (attrs : List Attribute)
  | Node (attrs : List Attribute)
  | Edge (attrs : List Attribute)
  deriving DecidableEq, Repr

/-- `Node` from `dot-structures/src/lib.rs`. -/
structure Node where
  id : NodeId
  attributes : List Attribute
  deriving DecidableEq, Repr

mutual
/-- `Vertex` from `dot-structures/src/lib.rs`: an edge endpoint. -/
inductive Vertex where
  | N (n : NodeId)
  | S (s : Subgraph)

/-- `EdgeTy` from `dot-structures/src/lib.rs`. -/
inductive EdgeTy where
  | Pair (l r : Vertex)
  | Chain (vs : List Vertex)

/-- `Edge` from `dot-structures/src/lib.rs`. -/
inductive Edge where
  | mk (ty : EdgeTy) (attributes : List Attribute)

/-- `Stmt` from `dot-structures/src/lib.rs`. -/
inductive Stmt where
  | Node (n : Node)
  | Subgraph (s : Subgraph)
  | Attribute (a : Attribute)
  | GAttribute (g : GraphAttributes)
  | Edge (e : Edge)

/-- `Subgraph` from `dot-structures/src/lib.rs`. -/
inductive Subgraph where
  | mk (id : Id) (stmts : List Stmt)
end

/-- The `ty` field of `Edge`. -/
def Edge.ty : Edge → EdgeTy
  | .mk t _ => t

/-- The `attributes` field of `Edge`. -/
def Edge.attributes : Edge → List Attribute
  | .mk _ a => a

/-- The `id` field of `Subgraph`. -/
def Subgraph.id : Subgraph → Id
  | .mk i _ => i

/-- The `stmts` field of `Subgraph`. -/
def Subgraph.stmts : Subgraph → List Stmt
  | .mk _ s => s

/-- `Graph` from `dot-structures/src/lib.rs`. -/
inductive Graph where
  | Graph (id : Id) (strict : Bool) (stmts : List Stmt)
  | DiGraph (id : Id) (strict : Bool) (stmts : List Stmt)


mutual

/-- Boolean equality for `Vertex` (structural, variant tags and fields). -/
def Vertex.beq : Vertex → Vertex → Bool
  | .N a, .N b => a = b
  | .S a, .S b => Subgraph.beq a b
  | _, _ => false
termination_by structural x => x

/-- Boolean equality for `EdgeTy`. -/
def EdgeTy.beq : EdgeTy → EdgeTy → Bool
  | .Pair l r, .Pair l' r' => Vertex.beq l l' && Vertex.beq r r'
  | .Chain vs, .Chain vs' => Vertex.beqList vs vs'
  | _, _ => false
termination_by structural x => x

/-- Boolean equality for lists of `Vertex`. -/
def Vertex.beqList : List Vertex → List Vertex → Bool
  | [], [] => true
  | a :: as, b :: bs => Vertex.beq a b && Vertex.beqList as bs
  | _, _ => false
termination_by structural x => x

/-- Boolean equality for `Edge`. -/
def Edge.beq : Edge → Edge → Bool
  | .mk t a, .mk t' a' => EdgeTy.beq t t' && a = a'
termination_by structural x => x

/-- Boolean equality for `Stmt`. -/
def Stmt.beq : Stmt → Stmt → Bool
  | .Node a, .Node b => a = b
  | .Subgraph a, .Subgraph b => Subgraph.beq a b
  | .Attribute a, .Attribute b => a = b
  | .GAttribute a, .GAttribute b => a = b
  | .Edge a, .Edge b => Edge.beq a b
  | _, _ => false
termination_by structural x => x

/-- Boolean equality for lists of `Stmt`. -/
def Stmt.beqList : List Stmt → List Stmt → Bool
  | [], [] => true
  | a :: as, b :: bs => Stmt.beq a b && Stmt.beqList as bs
  | _, _ => false
termination_by structural x => x

/-- Boolean equality for `Subgraph`. -/
def Subgraph.beq : Subgraph → Subgraph → Bool
  | .mk i s, .mk i' s' => i = i' && Stmt.beqList s s'
termination_by structural x => x
end

mutual

theorem vertex_beq_iff : ∀ a b : Vertex, Vertex.beq a b = true ↔ a = b
  | .N a, .N b => by
      simp [Vertex.beq]
  | .N _, .S _ => by simp [Vertex.beq]
  | .S _, .N _ => by simp [Vertex.beq]
  | .S a, .S b => by
      rw [Vertex.beq, subgraph_beq_iff a b]
      constructor
      · rintro rfl; rfl
      · intro h; cases h; rfl

theorem edgeTy_beq_iff : ∀ a b : EdgeTy, EdgeTy.beq a b = true ↔ a = b
  | .Pair l r, .Pair l' r' => by
      rw [EdgeTy.beq, Bool.and_eq_true, vertex_beq_iff l l', vertex_beq_iff r r']
      constructor
      · rintro ⟨rfl, rfl⟩; rfl
      · intro h; cases h; exact ⟨rfl, rfl⟩
  | .Pair _ _, .Chain _ => by simp [EdgeTy.beq]
  | .Chain _, .Pair _ _ => by simp [EdgeTy.beq]
  | .Chain vs, .Chain vs' => by
      rw [EdgeTy.beq, vertex_beqList_iff vs vs']
      constructor
      · rintro rfl; rfl
      · intro h; cases h; rfl

theorem vertex_beqList_iff : ∀ a b : List Vertex, Vertex.beqList a b = true ↔ a = b
  | [], [] => by simp [Vertex.beqList]
  | [], _ :: _ => by simp [Vertex.beqList]
  | _ :: _, [] => by simp [Vertex.beqList]
  | a :: as, b :: bs => by
      rw [Vertex.beqList, Bool.and_eq_true, vertex_beq_iff a b,
        vertex_beqList_iff as bs]
      constructor
      · rintro ⟨rfl, rfl⟩; rfl
      · intro h; cases h; exact ⟨rfl, rfl⟩

theorem edge_beq_iff : ∀ a b : Edge, Edge.beq a b = true ↔ a = b
  | .mk t a, .mk t' a' => by
      rw [Edge.beq, Bool.and_eq_true, edgeTy_beq_iff t t']
      simp only [decide_eq_true_eq]
      constructor
      · rintro ⟨rfl, rfl⟩; rfl
      · intro h; cases h; exact ⟨rfl, rfl⟩

theorem stmt_beq_iff : ∀ a b : Stmt, Stmt.beq a b = true ↔ a = b
  | .Node a, .Node b => by simp [Stmt.beq]
  | .Subgraph a, .Subgraph b => by
      rw [Stmt.beq, subgraph_beq_iff a b]
      constructor
      · rintro rfl; rfl
      · intro h; cases h; rfl
  | .Attribute a, .Attribute b => by simp [Stmt.beq]
  | .GAttribute a, .GAttribute b => by simp [Stmt.beq]
  | .Edge a, .Edge b => by
      rw [Stmt.beq, edge_beq_iff a b]
      constructor
      · rintro rfl; rfl
      · intro h; cases h; rfl
  | .Node _, .Subgraph _ => by simp [Stmt.beq]
  | .Node _, .Attribute _ => by simp [Stmt.beq]
  | .Node _, .GAttribute _ => by simp [Stmt.beq]
  | .Node _, .Edge _ => by simp [Stmt.beq]
  | .Subgraph _, .Node _ => by simp [Stmt.beq]
  | .Subgraph _, .Attribute _ => by simp [Stmt.beq]
  | .Subgraph _, .GAttribute _ => by simp [Stmt.beq]
  | .Subgraph _, .Edge _ => by simp [Stmt.beq]
  | .Attribute _, .Node _ => by simp [Stmt.beq]
  | .Attribute _, .Subgraph _ => by simp [Stmt.beq]
  | .Attribute _, .GAttribute _ => by simp [Stmt.beq]
  | .Attribute _, .Edge _ => by simp [Stmt.beq]
  | .GAttribute _, .Node _ => by simp [Stmt.beq]
  | .GAttribute _, .Subgraph _ => by simp [Stmt.beq]
  | .GAttribute _, .Attribute _ => by simp [Stmt.beq]
  | .GAttribute _, .Edge _ => by simp [Stmt.beq]
  | .Edge _, .Node _ => by simp [Stmt.beq]
  | .Edge _, .Subgraph _ => by simp [Stmt.beq]
  | .Edge _, .Attribute _ => by simp [Stmt.beq]
  | .Edge _, .GAttribute _ => by simp [Stmt.beq]

theorem stmt_beqList_iff : ∀ a b : List Stmt, Stmt.beqList a b = true ↔ a = b
  | [], [] => by simp [Stmt.beqList]
  | [], _ :: _ => by simp [Stmt.beqList]
  | _ :: _, [] => by simp [Stmt.beqList]
  | a :: as, b :: bs => by
      rw [Stmt.beqList, Bool.and_eq_true, stmt_beq_iff a b, stmt_beqList_iff as bs]
      constructor
      · rintro ⟨rfl, rfl⟩; rfl
      · intro h; cases h; exact ⟨rfl, rfl⟩

theorem subgraph_beq_iff : ∀ a b : Subgraph, Subgraph.beq a b = true ↔ a = b
  | .mk i s, .mk i' s' => by
      rw [Subgraph.beq, Bool.and_eq_true, stmt_beqList_iff s s']
      simp only [decide_eq_true_eq]
      constructor
      · rintro ⟨rfl, rfl⟩; rfl
      · intro h; cases h; exact ⟨rfl, rfl⟩

end

instance : DecidableEq Vertex := fun a b =>
  decidable_of_iff _ (vertex_beq_iff a b)

instance : DecidableEq EdgeTy := fun a b =>
  decidable_of_iff _ (edgeTy_beq_iff a b)

instance : DecidableEq Edge := fun a b =>
  decidable_of_iff _ (edge_beq_iff a b)

instance : DecidableEq Stmt := fun a b =>
  decidable_of_iff _ (stmt_beq_iff a b)

instance : DecidableEq Subgraph := fun a b =>
  decidable_of_iff _ (subgraph_beq_iff a b)

deriving instance DecidableEq for Dot.Graph

deriving instance DecidableEq for Except

/-! ## The printer (`src/printer.rs`) -/

/-- `AttributeValuePrinter` from `src/printer.rs`: a custom formatter for an
attribute value, receiving the rendered value, the current line separator,
the current indent string and the indent step. -/
def AttributeValuePrinter : Type := String → String → String → Nat → String

/-- `PrinterContext` from `src/printer.rs`.  The `HashMap` of custom
attribute-value printers is modelled as an association list. -/
structure PrinterContext where
  is_digraph : Bool
  semi : Bool
  mult_node_attr_on_s_l : Bool
  indent : Nat
  indent_step : Nat
  l_s : String
  inline_size : Nat
  l_s_i : String
  l_s_m : String
  attr_value_printers : List (Id × AttributeValuePrinter)

namespace PrinterContext

/-- `PrinterContext::always_inline`. -/
def always_inline (ctx : PrinterContext) : PrinterContext :=
  { ctx with l_s_m := ctx.l_s_i, l_s := ctx.l_s_i }

/-- `PrinterContext::with_semi`. -/
def with_semi (ctx : PrinterContext) : PrinterContext :=
  { ctx with semi := true }

/-- `PrinterContext::with_node_mult_attr_s_l`. -/
def with_node_mult_attr_s_l (ctx : PrinterContext) : PrinterContext :=
  { ctx with mult_node_attr_on_s_l := true }

/-- `PrinterContext::with_indent_step`. -/
def with_indent_step (ctx : PrinterContext) (step : Nat) : PrinterContext :=
  { ctx with indent_step := step }

/-- `PrinterContext::with_line_sep`. -/
def with_line_sep (ctx : PrinterContext) (sep : String) : PrinterContext :=
  { ctx with l_s := sep, l_s_m := sep }

/-- `PrinterContext::with_inline_size`. -/
def with_inline_size (ctx : PrinterContext) (inline_s : Nat) : PrinterContext :=
  { ctx with inline_size := inline_s }

/-- `PrinterContext::with_attr_value_printer` (HashMap insert modelled as
replace-or-append on the association list). -/
def with_attr_value_printer (ctx : PrinterContext) (attr_id : Id)
    (fmt : AttributeValuePrinter) : PrinterContext :=
  { ctx with attr_value_printers :=
      if (ctx.attr_value_printers.lookup attr_id).isSome then
        ctx.attr_value_printers.map fun p =>
          if p.1 = attr_id then (attr_id, fmt) else p
      else ctx.attr_value_printers ++ [(attr_id, fmt)] }

/-- `PrinterContext::new`. -/
def new (semi : Bool) (indent_step : Nat) (line_s : String)
    (inline_size : Nat) : PrinterContext where
  is_digraph := false
  semi := semi
  mult_node_attr_on_s_l := false
  indent := 0
  indent_step := indent_step
  inline_size := inline_size
  l_s := line_s
  l_s_i := line_s
  l_s_m := ""
  attr_value_printers := []

/-- `PrinterContext::is_inline_on`. -/
def is_inline_on (ctx : PrinterContext) : Bool :=
  ctx.l_s = ctx.l_s_i

/-- `PrinterContext::indent` (the method producing the indent string). -/
def indentStr (ctx : PrinterContext) : String :=
  if ctx.is_inline_on then "" else String.mk (List.replicate ctx.indent ' ')

/-- `PrinterContext::indent_grow`. -/
def indent_grow (ctx : PrinterContext) : PrinterContext :=
  if ctx.is_inline_on then ctx else { ctx with indent := ctx.indent + ctx.indent_step }

/-- `PrinterContext::indent_shrink` (`usize` subtraction modelled as
truncated `Nat` subtraction). -/
def indent_shrink (ctx : PrinterContext) : PrinterContext :=
  if ctx.is_inline_on then ctx else { ctx with indent := ctx.indent - ctx.indent_step }

/-- `PrinterContext::inline_mode`. -/
def inline_mode (ctx : PrinterContext) : PrinterContext :=
  { ctx with l_s := ctx.l_s_i }

/-- `PrinterContext::multiline_mode`. -/
def multiline_mode (ctx : PrinterContext) : PrinterContext :=
  { ctx with l_s := ctx.l_s_m }

/-- `impl Default for PrinterContext`. -/
def default : PrinterContext where
  is_digraph := false
  mult_node_attr_on_s_l := false
  semi := false
  indent := 0
  indent_step := 2
  l_s := "\n"
  inline_size := 90
  l_s_i := ""
  l_s_m := "\n"
  attr_value_printers := []

end PrinterContext

/-- `impl DotPrinter for Id` (`src/printer.rs`): the inner string for
`Html`/`Escaped`/`Plain`, the empty string for `Anonymous`.  It reads no
context state. -/
def Id.print : Id → String
  | .Html v | .Escaped v | .Plain v => v
  | .Anonymous _ => ""

/-- `impl Display for Id` (`dot-structures/src/lib.rs`): `to_string`
output of an `Id`. -/
def Id.fmtDisplay : Id → String
  | .Html v => "html " ++ v
  | .Escaped v => "esc " ++ v
  | .Plain v => v
  | .Anonymous v => "anon " ++ v

/-- `impl DotPrinter for Port` (`src/printer.rs`).  The `unreachable!` arm
(both components absent) is modelled as `none`. -/
def Port.print (p : Port) (ctx : PrinterContext) : Option String :=
  match p with
  | ⟨some id, some d⟩ => some (":" ++ id.print ++ ":" ++ d)
  | ⟨none, some d⟩ => some (":" ++ d)
  | ⟨some id, none⟩ => some (":" ++ id.print)
  | ⟨none, none⟩ => none

/-- `impl DotPrinter for NodeId` (`src/printer.rs`). -/
def NodeId.print (n : NodeId) (ctx : PrinterContext) : Option String :=
  match n with
  | ⟨id, none⟩ => some id.print
  | ⟨id, some port⟩ => (port.print ctx).map fun p => id.print ++ p

/-- `impl DotPrinter for Attribute` (`src/printer.rs`).  Reads the context
(custom formatters, separator, indent) but never writes it. -/
def Attribute.print (a : Attribute) (ctx : PrinterContext) : String :=
  let l_val := a.key.print
  let r_val := a.value.print
  match ctx.attr_value_printers.lookup a.key with
  | some formatter =>
      l_val ++ "=" ++ formatter r_val ctx.l_s ctx.indentStr ctx.indent_step
  | none => l_val ++ "=" ++ r_val

/-- `impl DotPrinter for Vec<Attribute>` (`src/printer.rs`). -/
def printAttributes (l : List Attribute) (ctx : PrinterContext) :
    String × PrinterContext :=
  let attrs := l.map fun a => a.print ctx
  if attrs.isEmpty then ("", ctx)
  else if attrs.length > 1 && ctx.mult_node_attr_on_s_l then
    let indent := ctx.indentStr
    let ctx1 := ctx.indent_grow
    let r := "[" ++ ctx1.l_s ++ ctx1.indentStr ++
      String.intercalate ("," ++ ctx1.l_s ++ ctx1.indentStr) attrs ++
      ctx1.l_s ++ indent ++ "]"
    (r, ctx1.indent_shrink)
  else ("[" ++ String.intercalate "," attrs ++ "]", ctx)

/-- `impl DotPrinter for GraphAttributes` (`src/printer.rs`). -/
def GraphAttributes.print (g : GraphAttributes) (ctx : PrinterContext) :
    String × PrinterContext :=
  match g with
  | .Graph attrs => let (s, ctx') := printAttributes attrs ctx; ("graph" ++ s, ctx')
  | .Node attrs => let (s, ctx') := printAttributes attrs ctx; ("node" ++ s, ctx')
  | .Edge attrs => let (s, ctx') := printAttributes attrs ctx; ("edge" ++ s, ctx')

/-- `impl DotPrinter for Node` (`src/printer.rs`). -/
def Node.print (n : Node) (ctx : PrinterContext) :
    Option (String × PrinterContext) :=
  (n.id.print ctx).map fun idStr =>
    let (attrStr, ctx') := printAttributes n.attributes ctx
    (idStr ++ attrStr, ctx')

mutual

/-- `impl DotPrinter for Vertex` (`src/printer.rs`). -/
def Vertex.print (v : Vertex) (ctx : PrinterContext) :
    Option (String × PrinterContext) :=
  match v with
  | .N el => (el.print ctx).map fun s => (s, ctx)
  | .S el => Subgraph.print el ctx
termination_by structural v

/-- `impl DotPrinter for Subgraph` (`src/printer.rs`): captures the entry
indent, grows the indent, prints the header (reading `l_s` before the
body), the body (the `Vec<Stmt>` printing inlined for structural
recursion), then the trailing brace with the post-body `l_s`, and shrinks
the indent back. -/
def Subgraph.print (sg : Subgraph) (ctx : PrinterContext) :
    Option (String × PrinterContext) :=
  match sg with
  | .mk id stmts =>
    let indent := ctx.indentStr
    let ctx1 := ctx.indent_grow
    let header := "subgraph " ++ id.print ++ " \x7b" ++ ctx1.l_s
    match printStmtList stmts ctx1 with
    | none => none
    | some (pieces, ctx2) =>
        some (header ++ String.intercalate ctx2.l_s pieces ++ ctx2.l_s ++
          indent ++ "\x7d", ctx2.indent_shrink)
termination_by structural sg

/-- The `iter().map(print).collect()` part of `Vec<Stmt>::print`
(`src/printer.rs`): prints every statement, threading the context. -/
def printStmtList (l : List Stmt) (ctx : PrinterContext) :
    Option (List String × PrinterContext) :=
  match l with
  | [] => some ([], ctx)
  | s :: rest =>
    match Stmt.print s ctx with
    | none => none
    | some (v, ctx1) =>
      match printStmtList rest ctx1 with
      | none => none
      | some (vs, ctx2) => some (v :: vs, ctx2)
termination_by structural l

/-- `impl DotPrinter for Stmt` (`src/printer.rs`). -/
def Stmt.print (s : Stmt) (ctx : PrinterContext) :
    Option (String × PrinterContext) :=
  let endStr := if ctx.semi then ";" else ""
  let indent := ctx.indentStr
  match s with
  | .Node e => (Node.print e ctx).map fun p => (indent ++ p.1 ++ endStr, p.2)
  | .Subgraph e =>
      match Subgraph.print e ctx with
      | none => none
      | some (v, c) => some (indent ++ v ++ endStr, c)
  | .Attribute e => some (indent ++ e.print ctx ++ endStr, ctx)
  | .GAttribute e =>
      let (v, c) := e.print ctx
      some (indent ++ v ++ endStr, c)
  | .Edge e =>
      match Edge.printDot e ctx with
      | none => none
      | some (v, c) => some (indent ++ v ++ endStr, c)
termination_by structural s

/-- `fn print_edge` (`src/printer.rs`), destructured over the edge's
`ty` and `attributes` fields for structural recursion.  The `unwrap` on
the first chain element is modelled as `none` for an empty chain. -/
def printEdgeTy (ty : EdgeTy) (attributes : List Attribute)
    (ctx : PrinterContext) : Option (String × PrinterContext) :=
  let bond := if ctx.is_digraph then "->" else "--"
  match ty with
  | .Pair l r =>
    match Vertex.print l ctx with
    | none => none
    | some (lv, ctx1) =>
      match Vertex.print r ctx1 with
      | none => none
      | some (rv, ctx2) =>
        if attributes.isEmpty then
          some (lv ++ " " ++ bond ++ " " ++ rv, ctx2)
        else
          let (av, ctx3) := printAttributes attributes ctx2
          some (lv ++ " " ++ bond ++ " " ++ rv ++ " " ++ av, ctx3)
  | .Chain [] => none
  | .Chain (h :: t) =>
    match Vertex.print h ctx with
    | none => none
    | some (hv, ctx1) =>
      match printChain bond hv t ctx1 with
      | none => none
      | some (chain, ctx2) =>
        let (av, ctx3) := printAttributes attributes ctx2
        some (chain ++ av, ctx3)
termination_by structural ty

/-- The chain-folding loop of `print_edge`. -/
def printChain (bond : String) (acc : String) (vs : List Vertex)
    (ctx : PrinterContext) : Option (String × PrinterContext) :=
  match vs with
  | [] => some (acc, ctx)
  | el :: rest =>
    match Vertex.print el ctx with
    | none => none
    | some (ev, ctx1) => printChain bond (acc ++ " " ++ bond ++ " " ++ ev) rest ctx1
termination_by structural vs

/-- `impl DotPrinter for Edge` (`src/printer.rs`): renders the edge, and
when the rendering fits in `inline_size` and the context is not already
inline, re-renders it in forced inline mode and restores multiline mode. -/
def Edge.printDot (e : Edge) (ctx : PrinterContext) :
    Option (String × PrinterContext) :=
  match e with
  | .mk ty attributes =>
    match printEdgeTy ty attributes ctx with
    | none => none
    | some (edge_str, ctx1) =>
      if edge_str.utf8ByteSize ≤ ctx1.inline_size ∧ ctx1.is_inline_on = false then
        match printEdgeTy ty attributes ctx1.inline_mode with
        | none => none
        | some (edge_str2, ctx3) => some (edge_str2, ctx3.multiline_mode)
      else
        some (edge_str, ctx1)
termination_by structural e

end

/-- `fn print_edge` (`src/printer.rs`) on an `Edge` value. -/
def print_edge (e : Edge) (ctx : PrinterContext) :
    Option (String × PrinterContext) :=
  printEdgeTy e.ty e.attributes ctx

/-- `impl DotPrinter for Vec<Stmt>` (`src/printer.rs`): prints every
statement threading the context, then joins with the post-traversal
line separator. -/
def printStmts (l : List Stmt) (ctx : PrinterContext) :
    Option (String × PrinterContext) :=
  match printStmtList l ctx with
  | none => none
  | some (pieces, ctx') => some (String.intercalate ctx'.l_s pieces, ctx')

/-- `impl DotPrinter for Graph` (`src/printer.rs`): grows the indent (never
shrinking it back), sets the directedness flag, prints the body, and wraps
it in the graph header using the post-body line separator. -/
def Graph.print (g : Dot.Graph) (ctx : PrinterContext) :
    Option (String × PrinterContext) :=
  let ctx0 := ctx.indent_grow
  match g with
  | .Graph id strict stmts =>
    let ctx1 := { ctx0 with is_digraph := false }
    match printStmts stmts ctx1 with
    | none => none
    | some (body, ctx2) =>
      some ((if strict then "strict graph " else "graph ") ++ id.print ++
        " \x7b" ++ ctx2.l_s ++ body ++ ctx2.l_s ++ "\x7d", ctx2)
  | .DiGraph id strict stmts =>
    let ctx1 := { ctx0 with is_digraph := true }
    match printStmts stmts ctx1 with
    | none => none
    | some (body, ctx2) =>
      some ((if strict then "strict digraph " else "digraph ") ++ id.print ++
        " \x7b" ++ ctx2.l_s ++ body ++ ctx2.l_s ++ "\x7d", ctx2)

/-- `fn print` (`src/lib.rs`): the library-level printing entry point. -/
def printGraph (g : Graph) (ctx : PrinterContext) : Option String :=
  (Graph.print g ctx).map Prod.fst

/-! ## The lexical layer

Modelled from the spec: the grammar file `grammar/dot.pest` is not among
the sources, so the lexical rules below (whitespace, the three comment
forms, plain/quoted/HTML identifiers, punctuation and the edge operators)
are modelled from spec §4.1.  Quoted and HTML identifiers keep their
delimiters as part of the stored string, matching the parser tests in
`src/parser.rs` (`id_test`). -/

/-- A single token of the DOT language. -/
inductive Tok where
  | idT (i : Id)
  | lbrace | rbrace | lbrack | rbrack
  | eqT | comma | semi | colon
  | edgeop (text : String)
  deriving DecidableEq, Repr

/-- Is this a character of an unquoted identifier? -/
def isIdChar (c : Char) : Bool :=
  c.isAlphanum || c = '_'

/-- Scan the body of a double-quoted string (the characters after the
opening quote), honouring backslash escapes; returns the number of
characters consumed including the closing quote. -/
def stringEnd : List Char → Option Nat
  | [] => none
  | '"' :: _ => some 1
  | '\\' :: _ :: rest => (stringEnd rest).map (· + 2)
  | ['\\'] => none
  | _ :: rest => (stringEnd rest).map (· + 1)

/-- Scan the body of an HTML-like identifier (the characters after the
opening `<`) with bracket-depth counting; returns the number of characters
consumed including the final `>`. -/
def htmlEnd : Nat → List Char → Option Nat
  | _, [] => none
  | d, '<' :: rest => (htmlEnd (d + 1) rest).map (· + 1)
  | 1, '>' :: _ => some 1
  | d, '>' :: rest => (htmlEnd (d - 1) rest).map (· + 1)
  | d, _ :: rest => (htmlEnd d rest).map (· + 1)

/-- Skip to the end of a block comment (after the opening `/*`). -/
def dropBlockComment : List Char → Option (List Char)
  | [] => none
  | c :: rest =>
    if c = '*' ∧ rest.head? = some '/' then some rest.tail
    else dropBlockComment rest

/-- Is this a whitespace character? -/
def isWsChar (c : Char) : Bool :=
  c = ' ' || c = '\t' || c = '\n' || c = '\r'

theorem dropWhile_length_le (p : Char → Bool) (l : List Char) :
    (l.dropWhile p).length ≤ l.length := by
  induction l with
  | nil => simp [List.dropWhile]
  | cons c cs ih =>
    rw [List.dropWhile]
    cases p c <;> simp <;> omega

theorem dropBlockComment_length (cs : List Char) :
    ∀ rest, dropBlockComment cs = some rest → rest.length ≤ cs.length := by
  induction cs with
  | nil => simp [dropBlockComment]
  | cons c cs ih =>
    intro r h
    rw [dropBlockComment] at h
    split at h
    · injection h with h
      subst h
      cases cs
      · simp
      · simp
        omega
    · have := ih r h
      simp
      omega

/-- Skip whitespace and the three comment forms (`//`, `#`, `/* */`).
The fuel argument only bounds the recursion; one character is consumed per
step, so the wrapper's `length + 1` is always sufficient. -/
def skipWsF : Nat → List Char → Except String (List Char)
  | 0, _ => .error "recursion limit exceeded"
  | _ + 1, [] => .ok []
  | f + 1, c :: rest =>
    if isWsChar c then skipWsF f rest
    else if c = '#' then skipWsF f (rest.dropWhile (· ≠ '\n'))
    else if c = '/' ∧ rest.head? = some '/' then
      skipWsF f (rest.tail.dropWhile (· ≠ '\n'))
    else if c = '/' ∧ rest.head? = some '*' then
      match dropBlockComment rest.tail with
      | some r3 => skipWsF f r3
      | none => .error "unterminated block comment"
    else .ok (c :: rest)

/-- Skip whitespace and comments. -/
def skipWs (cs : List Char) : Except String (List Char) :=
  skipWsF (cs.length + 1) cs

/-- Scan the tail of a numeral (after its leading digit, minus sign or
dot): remaining digits and an optional fractional part.  Returns the
consumed characters and the remainder. -/
def scanNumTail (cs : List Char) : List Char × List Char :=
  let ds := cs.takeWhile Char.isDigit
  let r1 := cs.dropWhile Char.isDigit
  if r1.head? = some '.' then
    (ds ++ '.' :: r1.tail.takeWhile Char.isDigit,
     r1.tail.dropWhile Char.isDigit)
  else (ds, r1)

theorem scanNumTail_length (cs : List Char) :
    (scanNumTail cs).2.length ≤ cs.length := by
  rw [scanNumTail]
  have h1 := dropWhile_length_le Char.isDigit cs
  split
  · simp only []
    have h2 := dropWhile_length_le Char.isDigit (cs.dropWhile Char.isDigit).tail
    have h3 : (cs.dropWhile Char.isDigit).tail.length ≤
        (cs.dropWhile Char.isDigit).length := by
      cases cs.dropWhile Char.isDigit <;> simp
    omega
  · simpa using h1

def tokenizeF : Nat → List Char → Except String (List Tok)
  | 0, _ => .error "recursion limit exceeded"
  | f + 1, cs =>
    match skipWs cs with
    | .error e => .error e
    | .ok [] => .ok []
    | .ok (c :: rest) =>
      if c.isAlpha ∨ c = '_' then
        (tokenizeF f (rest.dropWhile isIdChar)).map
          (Tok.idT (Id.Plain (String.mk (c :: rest.takeWhile isIdChar))) :: ·)
      else if c.isDigit then
        (tokenizeF f (scanNumTail rest).2).map
          (Tok.idT (Id.Plain (String.mk (c :: (scanNumTail rest).1))) :: ·)
      else if c = '.' then
        if (rest.takeWhile Char.isDigit).isEmpty then
          .error "expected a digit after the dot"
        else
          (tokenizeF f (rest.dropWhile Char.isDigit)).map
            (Tok.idT (Id.Plain (String.mk ('.' :: rest.takeWhile Char.isDigit))) :: ·)
      else if c = '-' then
        if rest.head? = some '>' then
          (tokenizeF f rest.tail).map (Tok.edgeop "->" :: ·)
        else if rest.head? = some '-' then
          (tokenizeF f rest.tail).map (Tok.edgeop "--" :: ·)
        else if (scanNumTail rest).1.any Char.isDigit then
          (tokenizeF f (scanNumTail rest).2).map
            (Tok.idT (Id.Plain (String.mk ('-' :: (scanNumTail rest).1))) :: ·)
        else .error "unexpected character after -"
      else if c = '"' then
        match stringEnd rest with
        | some n => (tokenizeF f (rest.drop n)).map
            (Tok.idT (Id.Escaped (String.mk ('"' :: rest.take n))) :: ·)
        | none => .error "unterminated quoted string"
      else if c = '<' then
        match htmlEnd 1 rest with
        | some n => (tokenizeF f (rest.drop n)).map
            (Tok.idT (Id.Html (String.mk ('<' :: rest.take n))) :: ·)
        | none => .error "unterminated html identifier"
      else if c = '{' then (tokenizeF f rest).map (Tok.lbrace :: ·)
      else if c = '}' then (tokenizeF f rest).map (Tok.rbrace :: ·)
      else if c = '[' then (tokenizeF f rest).map (Tok.lbrack :: ·)
      else if c = ']' then (tokenizeF f rest).map (Tok.rbrack :: ·)
      else if c = '=' then (tokenizeF f rest).map (Tok.eqT :: ·)
      else if c = ',' then (tokenizeF f rest).map (Tok.comma :: ·)
      else if c = ';' then (tokenizeF f rest).map (Tok.semi :: ·)
      else if c = ':' then (tokenizeF f rest).map (Tok.colon :: ·)
      else .error ("unexpected character " ++ String.mk [c])

/-- Tokenize DOT source text.  Modelled from the spec (§4.1): whitespace
and comments are insignificant between tokens; identifiers are unquoted
alphanumeric/underscore tokens, signed/unsigned decimal numerals,
double-quoted strings with backslash escapes, or balanced-angle-bracket
HTML spans; the punctuation tokens and the two edge operators are fixed.
One token is produced per fuel step, so `length + 1` fuel is sufficient. -/
def tokenize (cs : List Char) : Except String (List Tok) :=
  tokenizeF (cs.length + 1) cs

/-! ## The grammatical layer and the tree fold (`src/parser.rs`)

The rule structure below is modelled from the spec (§4.1), since
`grammar/dot.pest` is not among the sources; the folding into the data
model (`parse_compass_manually`, `process_port`, the chain collapsing of
`process_edge_stmt`, `GraphAttributes::new`, anonymous-id generation for
id-less graphs and subgraphs) follows `src/parser.rs`.  The process-wide
random source used for anonymous ids is modelled by a deterministic
fresh token derived from the remaining input. -/

/-- Lower-casing by mapping over the character list (kernel-reducible
model of `to_lowercase`). -/
def lowerStr (s : String) : String :=
  String.mk (s.data.map Char.toLower)

/-- The nine compass tokens and the wildcard (spec §4.1). -/
def compassTokens : List String :=
  ["n", "ne", "e", "se", "s", "sw", "w", "nw", "c", "_"]

/-- `parse_compass_manually` (`src/parser.rs` lines 63-71): a `Plain` id
whose text is a compass token yields its `Display` rendering. -/
def parse_compass_manually (id : Id) : Option String :=
  match id with
  | .Plain s => if s ∈ compassTokens then some id.fmtDisplay else none
  | _ => none

/-- The `Rule::id` branch of `process_port` (`src/parser.rs` lines 73-93):
a lone id-shaped port segment is reinterpreted as a compass when
`parse_compass_manually` recognises it. -/
def process_port (first : Id) (second : Option String) : Port :=
  match second with
  | some c => ⟨some first, some c⟩
  | none =>
    match parse_compass_manually first with
    | some s => ⟨none, some s⟩
    | none => ⟨some first, none⟩

/-- `GraphAttributes::new` (`dot-structures/src/lib.rs`): the panic on an
unknown element kind is modelled as `none`. -/
def GraphAttributes.new (ty : String) (attrs : List Attribute) :
    Option GraphAttributes :=
  if lowerStr ty = "graph" then some (.Graph attrs)
  else if lowerStr ty = "node" then some (.Node attrs)
  else if lowerStr ty = "edge" then some (.Edge attrs)
  else none

/-- The chain collapsing of `process_edge_stmt` (`src/parser.rs` lines
160-182): more than 2 vertices give a `Chain`, otherwise the first two
give a `Pair`; the `unwrap` panic on fewer than 2 vertices is `none`. -/
def process_edge_stmt_ty (edges : List Vertex) : Option EdgeTy :=
  if edges.length > 2 then some (EdgeTy.Chain edges)
  else
    match edges with
    | a :: b :: _ => some (EdgeTy.Pair a b)
    | _ => none

/-- Expect a specific token. -/
def expectTok (t : Tok) (toks : List Tok) : Except String (List Tok) :=
  match toks with
  | t' :: rest => if t' = t then .ok rest else .error "unexpected token"
  | [] => .error "unexpected end of input"

/-- Expect any identifier token. -/
def parseIdTok (toks : List Tok) : Except String (Id × List Tok) :=
  match toks with
  | .idT i :: rest => .ok (i, rest)
  | _ => .error "expected an identifier"

/-- Drop statement/attribute separators (`,` and `;`). -/
def dropSeps : List Tok → List Tok
  | [] => []
  | t :: rest => if t = .comma ∨ t = .semi then dropSeps rest else t :: rest

theorem expectTok_ok :
    ∀ t toks r, expectTok t toks = .ok r → toks = t :: r := by
  intro t toks r h
  unfold expectTok at h
  split at h
  · split at h
    · simp at h
      simp_all
    · simp at h
  · simp at h

theorem parseIdTok_ok :
    ∀ toks i r, parseIdTok toks = .ok (i, r) → toks = .idT i :: r := by
  intro toks i r h
  unfold parseIdTok at h
  split at h
  · simp at h
    simp_all
  · simp at h

/-- Parse the port following a node id's colon: an id optionally followed
by a colon and a compass token, folded by `process_port`. -/
def parsePortTail (toks : List Tok) : Except String (Port × List Tok) :=
  match parseIdTok toks with
  | .error e => .error e
  | .ok (first, r1) =>
    match r1 with
    | .colon :: .idT (.Plain s) :: r3 =>
      if s ∈ compassTokens then .ok (process_port first (some s), r3)
      else .error "expected a compass direction"
    | .colon :: _ => .error "expected a compass direction"
    | _ => .ok (process_port first none, r1)

/-- `process_node_id` (`src/parser.rs`): an id with an optional port. -/
def parseNodeId (toks : List Tok) : Except String (NodeId × List Tok) :=
  match parseIdTok toks with
  | .error e => .error e
  | .ok (id, r1) =>
    match r1 with
    | .colon :: r2 =>
      match parsePortTail r2 with
      | .error e => .error e
      | .ok (p, r3) => .ok (⟨id, some p⟩, r3)
    | _ => .ok (⟨id, none⟩, r1)

/-- Parse one `id = id` attribute, dropping trailing separators. -/
def parseAttr (toks : List Tok) : Except String (Attribute × List Tok) :=
  match parseIdTok toks with
  | .error e => .error e
  | .ok (k, r1) =>
    match expectTok .eqT r1 with
    | .error e => .error e
    | .ok r2 =>
      match parseIdTok r2 with
      | .error e => .error e
      | .ok (v, r3) => .ok (⟨k, v⟩, dropSeps r3)

theorem dropSeps_length (toks : List Tok) :
    (dropSeps toks).length ≤ toks.length := by
  induction toks with
  | nil => simp [dropSeps]
  | cons t rest ih =>
    rw [dropSeps]
    split
    · simp
      omega
    · simp

theorem parseAttr_length (toks : List Tok) :
    ∀ a r, parseAttr toks = .ok (a, r) → r.length < toks.length := by
  intro a r h
  unfold parseAttr at h
  split at h
  · simp at h
  · next k r1 hk =>
    split at h
    · simp at h
    · next r2 he =>
      split at h
      · simp at h
      · next v r3 hv =>
        simp at h
        have h1 := parseIdTok_ok toks k r1 hk
        have h2 := expectTok_ok .eqT r1 r2 he
        have h3 := parseIdTok_ok r2 v r3 hv
        have h4 := dropSeps_length r3
        subst h1 h2 h3
        rw [← h.2]
        simp
        omega

/-- Parse the attributes inside one bracket group (until `]`). -/
def parseAttrListBodyF : Nat → List Tok → Except String (List Attribute × List Tok)
  | 0, _ => .error "recursion limit exceeded"
  | f + 1, toks =>
    match toks with
    | .idT _ :: _ =>
      match parseAttr toks with
      | .error e => .error e
      | .ok (a, r1) =>
        match parseAttrListBodyF f r1 with
        | .error e => .error e
        | .ok (rest, r2) => .ok (a :: rest, r2)
    | _ => .ok ([], toks)

/-- Parse the attributes inside one bracket group (until `]`). -/
def parseAttrListBody (toks : List Tok) :
    Except String (List Attribute × List Tok) :=
  parseAttrListBodyF (toks.length + 1) toks

/-- `attr_list` (spec §4.1): one or more bracket groups, concatenated in
order (the attribute-list flattening of `process_attr_list`). -/
def parseAttrListF : Nat → List Tok → Except String (List Attribute × List Tok)
  | 0, _ => .error "recursion limit exceeded"
  | f + 1, toks =>
    match toks with
    | .lbrack :: r1 =>
      match parseAttrListBody r1 with
      | .error e => .error e
      | .ok (attrs, r2) =>
        match expectTok .rbrack r2 with
        | .error e => .error e
        | .ok r3 =>
          match r3 with
          | .lbrack :: _ =>
            match parseAttrListF f r3 with
            | .error e => .error e
            | .ok (more, r4) => .ok (attrs ++ more, r4)
          | _ => .ok (attrs, r3)
    | _ => .error "expected an attribute list"

/-- `attr_list`: one or more bracket groups, concatenated. -/
def parseAttrList (toks : List Tok) :
    Except String (List Attribute × List Tok) :=
  parseAttrListF (toks.length + 1) toks

mutual

/-- `vertex` (spec §4.1): a subgraph (tried first when the `subgraph`
keyword is ahead) or a node id, folded by `process_vertex`
(`src/parser.rs`). -/
def parseVertex : Nat → List Tok → Except String (Vertex × List Tok)
  | 0, _ => .error "recursion limit exceeded"
  | f + 1, toks =>
    match toks with
    | .idT (.Plain s) :: _ =>
      if lowerStr s = "subgraph" then
        match parseSubgraph f toks with
        | .error e => .error e
        | .ok (sg, r) => .ok (.S sg, r)
      else
        match parseNodeId toks with
        | .error e => .error e
        | .ok (n, r) => .ok (.N n, r)
    | _ =>
      match parseNodeId toks with
      | .error e => .error e
      | .ok (n, r) => .ok (.N n, r)

/-- `subgraph` (spec §4.1) folded by `process_subgraph` (`src/parser.rs`):
the keyword, an optional id (a fresh `Anonymous` id when omitted), and a
brace-delimited body. -/
def parseSubgraph : Nat → List Tok → Except String (Subgraph × List Tok)
  | 0, _ => .error "recursion limit exceeded"
  | f + 1, toks =>
    match toks with
    | .idT (.Plain s) :: r1 =>
      if lowerStr s = "subgraph" then
        match r1 with
        | .idT i :: .lbrace :: r2 =>
          match parseBody f r2 with
          | .error e => .error e
          | .ok (stmts, r3) =>
            match expectTok .rbrace r3 with
            | .error e => .error e
            | .ok r4 => .ok (⟨i, stmts⟩, r4)
        | .lbrace :: r2 =>
          match parseBody f r2 with
          | .error e => .error e
          | .ok (stmts, r3) =>
            match expectTok .rbrace r3 with
            | .error e => .error e
            | .ok r4 => .ok (⟨.Anonymous (String.mk (List.replicate r2.length '*')), stmts⟩, r4)
        | _ => .error "expected a subgraph body"
      else .error "expected the subgraph keyword"
    | _ => .error "expected the subgraph keyword"

/-- `body` (spec §4.1): statements (each optionally followed by
separators) until the closing brace. -/
def parseBody : Nat → List Tok → Except String (List Stmt × List Tok)
  | 0, _ => .error "recursion limit exceeded"
  | f + 1, toks =>
    match toks with
    | .rbrace :: _ => .ok ([], toks)
    | [] => .ok ([], [])
    | _ =>
      match parseStmt f toks with
      | .error e => .error e
      | .ok (s, r1) =>
        match parseBody f (dropSeps r1) with
        | .error e => .error e
        | .ok (rest, r2) => .ok (s :: rest, r2)

/-- `stmt` (spec §4.1): the five statement alternatives, disambiguated by
lookahead (`attr_stmt` when an element keyword is followed by `[`, then
edge statements, subgraphs, `bare_attr` and plain nodes). -/
def parseStmt : Nat → List Tok → Except String (Stmt × List Tok)
  | 0, _ => .error "recursion limit exceeded"
  | f + 1, toks =>
    match toks with
    | .idT (.Plain s) :: .lbrack :: _ =>
      if lowerStr s = "graph" ∨ lowerStr s = "node" ∨ lowerStr s = "edge" then
        match parseAttrList toks.tail with
        | .error e => .error e
        | .ok (attrs, r1) =>
          match GraphAttributes.new s attrs with
          | some ga => .ok (.GAttribute ga, r1)
          | none => .error "unreachable: unknown attribute owner"
      else
        match parseVertex f toks with
        | .error e => .error e
        | .ok (v, r1) => parseStmtAfterVertex f v r1
    | _ =>
      match parseVertex f toks with
      | .error e => .error e
      | .ok (v, r1) => parseStmtAfterVertex f v r1

/-- The continuation of `stmt` after its leading vertex: an edge chain
when an edge operator follows, otherwise a subgraph statement, a
`bare_attr`, or a node with an optional attribute list. -/
def parseStmtAfterVertex : Nat → Vertex → List Tok →
    Except String (Stmt × List Tok)
  | 0, _, _ => .error "recursion limit exceeded"
  | f + 1, v, toks =>
    match toks with
    | .edgeop _ :: _ =>
      match parseEdgeRest f v toks with
      | .error e => .error e
      | .ok (e, r1) => .ok (.Edge e, r1)
    | _ =>
      match v with
      | .S sg => .ok (.Subgraph sg, toks)
      | .N nid =>
        match toks with
        | .eqT :: r2 =>
          match nid with
          | ⟨id, none⟩ =>
            match parseIdTok r2 with
            | .error e => .error e
            | .ok (val, r3) => .ok (.Attribute ⟨id, val⟩, r3)
          | _ => .error "unexpected = after a port"
        | .lbrack :: _ =>
          match parseAttrList toks with
          | .error e => .error e
          | .ok (attrs, r2) => .ok (.Node ⟨nid, attrs⟩, r2)
        | _ => .ok (.Node ⟨nid, []⟩, toks)

/-- `edge` / `edge_stmt` (spec §4.1) folded by `process_edge_stmt`
(`src/parser.rs`): the remaining vertices of the chain, the collapsing
into `Pair`/`Chain`, and an optional attribute list. -/
def parseEdgeRest : Nat → Vertex → List Tok → Except String (Edge × List Tok)
  | 0, _, _ => .error "recursion limit exceeded"
  | f + 1, v, toks =>
    match toks with
    | .edgeop _ :: _ =>
      match parseEdgeTail f [v] toks with
      | .error e => .error e
      | .ok (vs, r2) =>
        match process_edge_stmt_ty vs with
        | some ty =>
          match r2 with
          | .lbrack :: _ =>
            match parseAttrList r2 with
            | .error e => .error e
            | .ok (attrs, r3) => .ok (⟨ty, attrs⟩, r3)
          | _ => .ok (⟨ty, []⟩, r2)
        | none => .error "unreachable: an edge chain with fewer than two vertices"
    | _ => .error "expected an edge operator"

/-- The `(edge_op ~ vertex)+` loop of the edge rule. -/
def parseEdgeTail : Nat → List Vertex → List Tok →
    Except String (List Vertex × List Tok)
  | 0, _, _ => .error "recursion limit exceeded"
  | f + 1, acc, toks =>
    match toks with
    | .edgeop _ :: r1 =>
      match parseVertex f r1 with
      | .error e => .error e
      | .ok (v, r2) => parseEdgeTail f (acc ++ [v]) r2
    | _ => .ok (acc, toks)

end

/-- `process_graph` (`src/parser.rs`): the optional `strict` keyword, the
`graph`/`digraph` keyword (directed exactly when the keyword text equals
`"digraph"`), an optional id (a fresh `Anonymous` id when omitted) and the
body; the `file` rule then requires the end of the input. -/
def parseGraphToks (f : Nat) (toks : List Tok) : Except String Dot.Graph :=
  let strictAndRest : Bool × List Tok :=
    match toks with
    | .idT (.Plain s) :: r => if lowerStr s = "strict" then (true, r) else (false, toks)
    | _ => (false, toks)
  match strictAndRest with
  | (strict, r1) =>
    match r1 with
    | .idT (.Plain s) :: r2 =>
      if lowerStr s = "graph" ∨ lowerStr s = "digraph" then
        let is_di := s = "digraph"
        let idAndRest : Id × List Tok :=
          match r2 with
          | .idT i :: _ => (i, r2.tail)
          | _ => (.Anonymous (String.mk (List.replicate r2.length '*')), r2)
        match idAndRest with
        | (id, r3) =>
          match r3 with
          | .lbrace :: r4 =>
            match parseBody f r4 with
            | .error e => .error e
            | .ok (stmts, r5) =>
              match expectTok .rbrace r5 with
              | .error e => .error e
              | .ok r6 =>
                if r6.isEmpty then
                  .ok (if is_di then .DiGraph id strict stmts
                       else .Graph id strict stmts)
                else .error "expected the end of the input"
          | _ => .error "expected a graph body"
      else .error "expected the graph or digraph keyword"
    | _ => .error "expected the graph or digraph keyword"

/-- `fn parse` (`src/parser.rs`, re-exported by `src/lib.rs`): tokenize
and parse a whole DOT file. -/
def parse (dot : String) : Except String Dot.Graph :=
  match tokenize dot.toList with
  | .error e => .error e
  | .ok toks => parseGraphToks (toks.length + 1) toks

/-- Parse a single node id (the `do_parse(input, Rule::node_id)` entry
used by the parser tests). -/
def parseNodeIdStr (s : String) : Except String NodeId :=
  match tokenize s.toList with
  | .error e => .error e
  | .ok toks =>
    match parseNodeId toks with
    | .error e => .error e
    | .ok (n, r) => if r.isEmpty then .ok n else .error "trailing input"

/-- Parse a single edge statement (the `do_parse(input, Rule::edge_stmt)`
entry used by the parser tests). -/
def parseEdgeStmtStr (s : String) : Except String Edge :=
  match tokenize s.toList with
  | .error e => .error e
  | .ok toks =>
    match parseVertex (toks.length + 1) toks with
    | .error e => .error e
    | .ok (v, r1) =>
      match parseEdgeRest (toks.length + 1) v r1 with
      | .error e => .error e
      | .ok (e, r2) => if r2.isEmpty then .ok e else .error "trailing input"


/-! ## Printer context bookkeeping -/

/-- The separator invariant of every context reachable through the public
constructors and builders: the current separator is either the multiline
or the inline separator. -/
def ctxInv (ctx : PrinterContext) : Prop :=
  ctx.l_s = ctx.l_s_m ∨ ctx.l_s = ctx.l_s_i

theorem indent_grow_fields (ctx : PrinterContext) :
    ctx.indent_grow.l_s = ctx.l_s ∧ ctx.indent_grow.l_s_i = ctx.l_s_i ∧
    ctx.indent_grow.l_s_m = ctx.l_s_m ∧
    ctx.indent_grow.is_digraph = ctx.is_digraph := by
  rw [PrinterContext.indent_grow]
  split <;> exact ⟨rfl, rfl, rfl, rfl⟩

theorem is_inline_on_grow (ctx : PrinterContext) :
    ctx.indent_grow.is_inline_on = ctx.is_inline_on := by
  rw [PrinterContext.indent_grow]
  split <;> rfl

theorem indent_grow_shrink (ctx : PrinterContext) :
    ctx.indent_grow.indent_shrink = ctx := by
  rw [PrinterContext.indent_grow]
  split
  · rw [PrinterContext.indent_shrink]
    split
    · rfl
    · simp_all [PrinterContext.is_inline_on]
  · rw [PrinterContext.indent_shrink]
    split
    · simp_all [PrinterContext.is_inline_on]
    · cases ctx
      simp

theorem ctxInv_grow {ctx : PrinterContext} (h : ctxInv ctx) :
    ctxInv ctx.indent_grow := by
  obtain ⟨h1, h2, h3, _⟩ := indent_grow_fields ctx
  rw [ctxInv, h1, h2, h3]
  exact h

theorem multiline_mode_eq_self {ctx : PrinterContext}
    (h : ctx.l_s = ctx.l_s_m) : ctx.multiline_mode = ctx := by
  cases ctx
  rw [PrinterContext.multiline_mode]
  simp_all

theorem printAttributes_ctx (l : List Attribute) (ctx : PrinterContext) :
    (printAttributes l ctx).2 = ctx := by
  rw [printAttributes]
  split
  · rfl
  · split
    · exact indent_grow_shrink ctx
    · rfl

theorem ga_print_ctx (g : GraphAttributes)
    (ctx : PrinterContext) : (GraphAttributes.print g ctx).2 = ctx := by
  cases g <;> simp [GraphAttributes.print, printAttributes_ctx]

theorem node_print_ctx (n : Node) (ctx : PrinterContext) :
    ∀ s ctx', Node.print n ctx = some (s, ctx') → ctx' = ctx := by
  intro s ctx' h
  rw [Node.print] at h
  cases hid : n.id.print ctx with
  | none => rw [hid] at h; simp at h
  | some idStr =>
    rw [hid] at h
    simp at h
    rw [← h.2, printAttributes_ctx]

mutual

theorem vertex_print_ctx : ∀ (v : Vertex) (ctx : PrinterContext) s ctx',
    ctxInv ctx → Vertex.print v ctx = some (s, ctx') → ctx' = ctx
  | .N el, ctx, s, ctx' => by
    intro hinv h
    rw [Vertex.print] at h
    cases hne : el.print ctx with
    | none => rw [hne] at h; simp at h
    | some v0 => rw [hne] at h; simp at h; exact h.2.symm
  | .S el, ctx, s, ctx' => by
    intro hinv h
    rw [Vertex.print] at h
    exact subgraph_print_ctx el ctx s ctx' hinv h
termination_by structural v => v

theorem subgraph_print_ctx : ∀ (sg : Subgraph) (ctx : PrinterContext) s ctx',
    ctxInv ctx → Subgraph.print sg ctx = some (s, ctx') → ctx' = ctx
  | .mk id stmts, ctx, s, ctx' => by
    intro hinv h
    rw [Subgraph.print] at h
    cases hb : printStmtList stmts ctx.indent_grow with
    | none => rw [hb] at h; simp at h
    | some p =>
      obtain ⟨ss2, c2⟩ := p
      rw [hb] at h
      dsimp only at h
      simp at h
      have h2 := printStmtList_ctx stmts ctx.indent_grow ss2 c2
        (ctxInv_grow hinv) hb
      rw [← h.2, h2, indent_grow_shrink]
termination_by structural sg => sg

theorem printStmtList_ctx : ∀ (l : List Stmt) (ctx : PrinterContext) ss ctx',
    ctxInv ctx → printStmtList l ctx = some (ss, ctx') → ctx' = ctx
  | [], ctx, ss, ctx' => by
    intro hinv h
    rw [printStmtList] at h
    simp at h
    exact h.2.symm
  | s0 :: rest, ctx, ss, ctx' => by
    intro hinv h
    rw [printStmtList] at h
    cases hs : Stmt.print s0 ctx with
    | none => rw [hs] at h; simp at h
    | some p1 =>
      obtain ⟨v1, c1⟩ := p1
      rw [hs] at h
      dsimp only at h
      cases hr : printStmtList rest c1 with
      | none => rw [hr] at h; simp at h
      | some p2 =>
        obtain ⟨v2, c2⟩ := p2
        rw [hr] at h
        dsimp only at h
        simp at h
        have e1 := stmt_print_ctx s0 ctx v1 c1 hinv hs
        have e2 := printStmtList_ctx rest c1 v2 c2 (by rw [e1]; exact hinv) hr
        rw [← h.2, e2, e1]
termination_by structural l => l

theorem stmt_print_ctx : ∀ (s : Stmt) (ctx : PrinterContext) v ctx',
    ctxInv ctx → Stmt.print s ctx = some (v, ctx') → ctx' = ctx
  | .Node e, ctx, v, ctx' => by
    intro hinv h
    rw [Stmt.print] at h
    cases hn : Node.print e ctx with
    | none => rw [hn] at h; simp at h
    | some p =>
      obtain ⟨v1, c1⟩ := p
      rw [hn] at h
      simp at h
      rw [← h.2]
      exact node_print_ctx e ctx v1 c1 hn
  | .Subgraph e, ctx, v, ctx' => by
    intro hinv h
    rw [Stmt.print] at h
    cases hn : Subgraph.print e ctx with
    | none => rw [hn] at h; simp at h
    | some p =>
      obtain ⟨v1, c1⟩ := p
      rw [hn] at h
      dsimp only at h
      simp at h
      rw [← h.2]
      exact subgraph_print_ctx e ctx v1 c1 hinv hn
  | .Attribute e, ctx, v, ctx' => by
    intro hinv h
    rw [Stmt.print] at h
    simp at h
    exact h.2.symm
  | .GAttribute e, ctx, v, ctx' => by
    intro hinv h
    rw [Stmt.print] at h
    simp at h
    rw [← h.2, ga_print_ctx]
  | .Edge e, ctx, v, ctx' => by
    intro hinv h
    rw [Stmt.print] at h
    cases hn : Edge.printDot e ctx with
    | none => rw [hn] at h; simp at h
    | some p =>
      obtain ⟨v1, c1⟩ := p
      rw [hn] at h
      dsimp only at h
      simp at h
      rw [← h.2]
      exact Edge.printDot_ctx e ctx v1 c1 hinv hn
termination_by structural s => s

theorem printEdgeTy_ctx : ∀ (ty : EdgeTy) (attrs : List Attribute)
    (ctx : PrinterContext) s ctx',
    ctxInv ctx → printEdgeTy ty attrs ctx = some (s, ctx') → ctx' = ctx
  | .Pair l r, attrs, ctx, s, ctx' => by
    intro hinv h
    rw [printEdgeTy] at h
    cases hl : Vertex.print l ctx with
    | none => rw [hl] at h; simp at h
    | some p1 =>
      obtain ⟨v1, c1⟩ := p1
      rw [hl] at h
      dsimp only at h
      cases hr : Vertex.print r c1 with
      | none => rw [hr] at h; simp at h
      | some p2 =>
        obtain ⟨v2, c2⟩ := p2
        rw [hr] at h
        dsimp only at h
        have e1 := vertex_print_ctx l ctx v1 c1 hinv hl
        have e2 := vertex_print_ctx r c1 v2 c2 (by rw [e1]; exact hinv) hr
        split at h
        · simp at h
          rw [← h.2, e2, e1]
        · simp at h
          rw [← h.2, printAttributes_ctx, e2, e1]
  | .Chain [], attrs, ctx, s, ctx' => by
    intro hinv h
    rw [printEdgeTy] at h
    simp at h
  | .Chain (h0 :: t), attrs, ctx, s, ctx' => by
    intro hinv h
    rw [printEdgeTy] at h
    cases hh : Vertex.print h0 ctx with
    | none => rw [hh] at h; simp at h
    | some p1 =>
      obtain ⟨v1, c1⟩ := p1
      rw [hh] at h
      dsimp only at h
      cases hc : printChain (if ctx.is_digraph then "->" else "--") v1 t c1 with
      | none => rw [hc] at h; simp at h
      | some p2 =>
        obtain ⟨v2, c2⟩ := p2
        rw [hc] at h
        dsimp only at h
        simp at h
        have e1 := vertex_print_ctx h0 ctx v1 c1 hinv hh
        have e2 := printChain_ctx t _ v1 c1 v2 c2 (by rw [e1]; exact hinv) hc
        rw [← h.2, printAttributes_ctx, e2, e1]
termination_by structural ty => ty

theorem printChain_ctx : ∀ (vs : List Vertex) (bond acc : String)
    (ctx : PrinterContext) s ctx',
    ctxInv ctx → printChain bond acc vs ctx = some (s, ctx') → ctx' = ctx
  | [], bond, acc, ctx, s, ctx' => by
    intro hinv h
    rw [printChain] at h
    simp at h
    exact h.2.symm
  | el :: rest, bond, acc, ctx, s, ctx' => by
    intro hinv h
    rw [printChain] at h
    cases he : Vertex.print el ctx with
    | none => rw [he] at h; simp at h
    | some p1 =>
      obtain ⟨v1, c1⟩ := p1
      rw [he] at h
      dsimp only at h
      have e1 := vertex_print_ctx el ctx v1 c1 hinv he
      have e2 := printChain_ctx rest bond (acc ++ " " ++ bond ++ " " ++ v1)
        c1 s ctx' (by rw [e1]; exact hinv) h
      rw [e2, e1]
termination_by structural vs => vs

theorem Edge.printDot_ctx : ∀ (e : Edge) (ctx : PrinterContext) s ctx',
    ctxInv ctx → Edge.printDot e ctx = some (s, ctx') → ctx' = ctx
  | .mk ty attrs, ctx, s, ctx' => by
    intro hinv h
    rw [Edge.printDot] at h
    cases h1 : printEdgeTy ty attrs ctx with
    | none => rw [h1] at h; simp at h
    | some p1 =>
      obtain ⟨v1, c1⟩ := p1
      rw [h1] at h
      dsimp only at h
      have e1 := printEdgeTy_ctx ty attrs ctx v1 c1 hinv h1
      split at h
      · next hcond =>
        cases h2 : printEdgeTy ty attrs c1.inline_mode with
        | none => rw [h2] at h; simp at h
        | some p2 =>
          obtain ⟨v2, c2⟩ := p2
          rw [h2] at h
          dsimp only at h
          simp at h
          have e2 := printEdgeTy_ctx ty attrs c1.inline_mode v2 c2
            (Or.inr rfl) h2
          have hm : ctx.l_s = ctx.l_s_m := by
            rcases hinv with hm | hi
            · exact hm
            · exfalso
              rw [e1] at hcond
              rw [PrinterContext.is_inline_on] at hcond
              simp [hi] at hcond
          rw [← h.2, e2, e1]
          rw [PrinterContext.inline_mode, PrinterContext.multiline_mode]
          cases ctx
          simp_all
      · simp at h
        rw [← h.2, e1]
termination_by structural e => e

end

theorem printStmts_ctx : ∀ (l : List Stmt) (ctx : PrinterContext) s ctx',
    ctxInv ctx → printStmts l ctx = some (s, ctx') → ctx' = ctx := by
  intro l ctx s ctx' hinv h
  rw [printStmts] at h
  cases hb : printStmtList l ctx with
  | none => rw [hb] at h; simp at h
  | some p =>
    obtain ⟨ss, c⟩ := p
    rw [hb] at h
    dsimp only at h
    simp at h
    rw [← h.2]
    exact printStmtList_ctx l ctx ss c hinv hb

/-! ## Validity predicates for printing (claim C8) -/

/-- A port with at least one of its two components present. -/
def Port.wellFormed (p : Port) : Bool :=
  p.id.isSome || p.compass.isSome

/-- A node id whose port, if any, is well-formed. -/
def NodeId.wellFormed (n : NodeId) : Bool :=
  match n.port with
  | some p => p.wellFormed
  | none => true

mutual

/-- Every port inside has a component and every chain has ≥ 2 vertices. -/
def Vertex.printable : Vertex → Bool
  | .N n => n.wellFormed
  | .S sg => sg.printable
termination_by structural v => v

/-- Every port inside has a component and every chain has ≥ 2 vertices. -/
def Subgraph.printable : Subgraph → Bool
  | .mk _ stmts => stmtsPrintable stmts
termination_by structural sg => sg

/-- Every port inside has a component and every chain has ≥ 2 vertices. -/
def stmtsPrintable : List Stmt → Bool
  | [] => true
  | s :: rest => s.printable && stmtsPrintable rest
termination_by structural l => l

/-- Every port inside has a component and every chain has ≥ 2 vertices. -/
def Stmt.printable : Stmt → Bool
  | .Node n => n.id.wellFormed
  | .Subgraph sg => sg.printable
  | .Attribute _ => true
  | .GAttribute _ => true
  | .Edge e => e.printable
termination_by structural s => s

/-- Every port inside has a component and every chain has ≥ 2 vertices. -/
def Edge.printable : Edge → Bool
  | .mk ty _ => ty.printable
termination_by structural e => e

/-- Every port inside has a component and every chain has ≥ 2 vertices. -/
def EdgeTy.printable : EdgeTy → Bool
  | .Pair l r => l.printable && r.printable
  | .Chain vs => decide (vs.length ≥ 2) && vsPrintable vs
termination_by structural ty => ty

/-- Every vertex in the list is printable. -/
def vsPrintable : List Vertex → Bool
  | [] => true
  | v :: rest => v.printable && vsPrintable rest
termination_by structural l => l

end

/-- Every port inside has a component and every chain has ≥ 2 vertices. -/
def Graph.printable : Dot.Graph → Bool
  | .Graph _ _ stmts => stmtsPrintable stmts
  | .DiGraph _ _ stmts => stmtsPrintable stmts

theorem port_print_total (p : Port) (ctx : PrinterContext)
    (h : p.wellFormed = true) : (Port.print p ctx).isSome = true := by
  obtain ⟨i, c⟩ := p
  cases i <;> cases c <;> simp_all [Port.print, Port.wellFormed]

theorem nodeId_print_total (n : NodeId) (ctx : PrinterContext)
    (h : n.wellFormed = true) : (NodeId.print n ctx).isSome = true := by
  obtain ⟨i, p⟩ := n
  cases p with
  | none => rfl
  | some p =>
    rw [NodeId.wellFormed] at h
    have hp := port_print_total p ctx h
    obtain ⟨s, hs⟩ := Option.isSome_iff_exists.mp hp
    rw [NodeId.print, hs]
    rfl

theorem node_print_total (n : Node) (ctx : PrinterContext)
    (h : n.id.wellFormed = true) : (Node.print n ctx).isSome = true := by
  have hp := nodeId_print_total n.id ctx h
  obtain ⟨s, hs⟩ := Option.isSome_iff_exists.mp hp
  rw [Node.print, hs]
  rfl

mutual

theorem vertex_print_total : ∀ (v : Vertex) (ctx : PrinterContext),
    v.printable = true → (Vertex.print v ctx).isSome = true
  | .N n, ctx => by
    intro h
    rw [Vertex.printable] at h
    obtain ⟨s, hs⟩ := Option.isSome_iff_exists.mp (nodeId_print_total n ctx h)
    rw [Vertex.print, hs]
    rfl
  | .S sg, ctx => by
    intro h
    rw [Vertex.printable] at h
    rw [Vertex.print]
    exact subgraph_print_total sg ctx h
termination_by structural v => v

theorem subgraph_print_total : ∀ (sg : Subgraph) (ctx : PrinterContext),
    sg.printable = true → (Subgraph.print sg ctx).isSome = true
  | .mk id stmts, ctx => by
    intro h
    rw [Subgraph.printable] at h
    obtain ⟨⟨ss, c⟩, hr⟩ := Option.isSome_iff_exists.mp
      (printStmtList_total stmts ctx.indent_grow h)
    rw [Subgraph.print, hr]
    rfl
termination_by structural sg => sg

theorem printStmtList_total : ∀ (l : List Stmt) (ctx : PrinterContext),
    stmtsPrintable l = true → (printStmtList l ctx).isSome = true
  | [], ctx => by
    intro h
    rfl
  | s :: rest, ctx => by
    intro h
    rw [stmtsPrintable, Bool.and_eq_true] at h
    obtain ⟨⟨v1, c1⟩, h1⟩ := Option.isSome_iff_exists.mp
      (stmt_print_total s ctx h.1)
    obtain ⟨⟨vs, c2⟩, h2⟩ := Option.isSome_iff_exists.mp
      (printStmtList_total rest c1 h.2)
    rw [printStmtList, h1]
    dsimp only
    rw [h2]
    rfl
termination_by structural l => l

theorem stmt_print_total : ∀ (s : Stmt) (ctx : PrinterContext),
    s.printable = true → (Stmt.print s ctx).isSome = true
  | .Node n, ctx => by
    intro h
    rw [Stmt.printable] at h
    obtain ⟨⟨v, c⟩, hr⟩ := Option.isSome_iff_exists.mp (node_print_total n ctx h)
    rw [Stmt.print, hr]
    rfl
  | .Subgraph sg, ctx => by
    intro h
    rw [Stmt.printable] at h
    obtain ⟨⟨v, c⟩, hr⟩ := Option.isSome_iff_exists.mp
      (subgraph_print_total sg ctx h)
    rw [Stmt.print, hr]
    rfl
  | .Attribute a, ctx => by
    intro h
    rfl
  | .GAttribute g, ctx => by
    intro h
    rfl
  | .Edge e, ctx => by
    intro h
    rw [Stmt.printable] at h
    obtain ⟨⟨v, c⟩, hr⟩ := Option.isSome_iff_exists.mp
      (Edge.printDot_total e ctx h)
    rw [Stmt.print, hr]
    rfl
termination_by structural s => s

theorem printEdgeTy_total : ∀ (ty : EdgeTy) (attrs : List Attribute)
    (ctx : PrinterContext), ty.printable = true →
    (printEdgeTy ty attrs ctx).isSome = true
  | .Pair l r, attrs, ctx => by
    intro h
    rw [EdgeTy.printable, Bool.and_eq_true] at h
    obtain ⟨⟨lv, c1⟩, h1⟩ := Option.isSome_iff_exists.mp
      (vertex_print_total l ctx h.1)
    obtain ⟨⟨rv, c2⟩, h2⟩ := Option.isSome_iff_exists.mp
      (vertex_print_total r c1 h.2)
    rw [printEdgeTy, h1]
    dsimp only
    rw [h2]
    dsimp only
    split
    · rfl
    · rfl
  | .Chain [], attrs, ctx => by
    intro h
    rw [EdgeTy.printable] at h
    simp at h
  | .Chain (h0 :: t), attrs, ctx => by
    intro h
    rw [EdgeTy.printable, Bool.and_eq_true] at h
    have hv := h.2
    rw [vsPrintable, Bool.and_eq_true] at hv
    obtain ⟨⟨hvs, c1⟩, h1⟩ := Option.isSome_iff_exists.mp
      (vertex_print_total h0 ctx hv.1)
    obtain ⟨⟨cs, c2⟩, h2⟩ := Option.isSome_iff_exists.mp
      (printChain_total t (if ctx.is_digraph then "->" else "--") hvs c1 hv.2)
    rw [printEdgeTy, h1]
    dsimp only
    rw [h2]
    rfl
termination_by structural ty => ty

theorem printChain_total : ∀ (vs : List Vertex) (bond acc : String)
    (ctx : PrinterContext), vsPrintable vs = true →
    (printChain bond acc vs ctx).isSome = true
  | [], bond, acc, ctx => by
    intro h
    rfl
  | el :: rest, bond, acc, ctx => by
    intro h
    rw [vsPrintable, Bool.and_eq_true] at h
    obtain ⟨⟨ev, c1⟩, h1⟩ := Option.isSome_iff_exists.mp
      (vertex_print_total el ctx h.1)
    rw [printChain, h1]
    dsimp only
    exact printChain_total rest bond (acc ++ " " ++ bond ++ " " ++ ev) c1 h.2
termination_by structural vs => vs

theorem Edge.printDot_total : ∀ (e : Edge) (ctx : PrinterContext),
    e.printable = true → (Edge.printDot e ctx).isSome = true
  | .mk ty attrs, ctx => by
    intro h
    rw [Edge.printable] at h
    obtain ⟨⟨s1, c1⟩, h1⟩ := Option.isSome_iff_exists.mp
      (printEdgeTy_total ty attrs ctx h)
    rw [Edge.printDot, h1]
    dsimp only
    split
    · obtain ⟨⟨s2, c2⟩, h2⟩ := Option.isSome_iff_exists.mp
        (printEdgeTy_total ty attrs c1.inline_mode h)
      rw [h2]
      rfl
    · rfl
termination_by structural e => e

end

theorem printStmts_total (l : List Stmt) (ctx : PrinterContext)
    (h : stmtsPrintable l = true) : (printStmts l ctx).isSome = true := by
  obtain ⟨⟨ss, c⟩, hr⟩ := Option.isSome_iff_exists.mp (printStmtList_total l ctx h)
  rw [printStmts, hr]
  rfl

theorem indent_grow_indent (ctx : PrinterContext)
    (h : ctx.is_inline_on = false) :
    ctx.indent_grow.indent = ctx.indent + ctx.indent_step := by
  rw [PrinterContext.indent_grow, h]
  simp

/-! ## Claim theorems -/

/-- C2: for every input string, `parse` returns either `Ok` with a complete
`Graph` or `Err` with a message; a rejected input yields an `Err` (no
partial model) and parsing is a total function (the embedding has no panic
outcome).  Witnessed on one accepted and one rejected input. -/
theorem claim_C2 :
    (∀ s : String, (∃ g, parse s = .ok g) ∨ (∃ e, parse s = .error e)) ∧
    parse "graph g \x7b\x7d" = .ok (.Graph (.Plain "g") false []) ∧
    (∃ e, parse "graph g \x7b" = .error e) := by
  refine ⟨fun s => ?_, by decide, ⟨"unexpected end of input", by decide⟩⟩
  match h : parse s with
  | .ok g => exact Or.inl ⟨g, rfl⟩
  | .error e => exact Or.inr ⟨e, rfl⟩

/-- C3 counterexample: `Display` (`to_string`) does *not* yield the inner
string for `Escaped` and `Html` ids, nor the empty string for `Anonymous`
ids — it prefixes `esc `, `html ` and `anon ` respectively. -/
theorem claim_C3_counterexample :
    Id.fmtDisplay (.Escaped "x") = "esc x" ∧ Id.fmtDisplay (.Escaped "x") ≠ "x" ∧
    Id.fmtDisplay (.Html "y") = "html y" ∧ Id.fmtDisplay (.Html "y") ≠ "y" ∧
    Id.fmtDisplay (.Anonymous "z") = "anon z" ∧ Id.fmtDisplay (.Anonymous "z") ≠ "" := by
  refine ⟨rfl, by decide, rfl, by decide, rfl, by decide⟩

/-- C3 (amended): the `DotPrinter` implementation for `Id` yields exactly
the inner string for `Plain`/`Escaped`/`Html` and the empty string for
`Anonymous`; the `Display` implementation yields the inner string only for
`Plain`, and prefixes `html `/`esc `/`anon ` for the other variants. -/
theorem claim_C3 :
    ∀ v : String,
      Id.print (.Plain v) = v ∧ Id.print (.Escaped v) = v ∧
      Id.print (.Html v) = v ∧ Id.print (.Anonymous v) = "" ∧
      Id.fmtDisplay (.Plain v) = v ∧
      Id.fmtDisplay (.Html v) = "html " ++ v ∧
      Id.fmtDisplay (.Escaped v) = "esc " ++ v ∧
      Id.fmtDisplay (.Anonymous v) = "anon " ++ v := by
  intro v
  exact ⟨rfl, rfl, rfl, rfl, rfl, rfl, rfl, rfl⟩

/-- C4: a lone id-shaped port segment that is a `Plain` id equal to a
compass token becomes a compass-only port, any other lone segment becomes
a named-id port, and a two-segment port keeps both; `"A:s"` and `"A:x"`
parse as in the claim. -/
theorem claim_C4 :
    (∀ s, s ∈ compassTokens →
      process_port (.Plain s) none = ⟨none, some s⟩) ∧
    (∀ s, s ∉ compassTokens →
      process_port (.Plain s) none = ⟨some (.Plain s), none⟩) ∧
    (∀ v, process_port (.Escaped v) none = ⟨some (.Escaped v), none⟩) ∧
    (∀ v, process_port (.Html v) none = ⟨some (.Html v), none⟩) ∧
    (∀ id c, process_port id (some c) = ⟨some id, some c⟩) ∧
    parseNodeIdStr "A:s" = .ok ⟨.Plain "A", some ⟨none, some "s"⟩⟩ ∧
    parseNodeIdStr "A:x" = .ok ⟨.Plain "A", some ⟨some (.Plain "x"), none⟩⟩ := by
  refine ⟨?_, ?_, fun v => rfl, fun v => rfl, fun id c => rfl, by decide, by decide⟩
  · intro s hs
    simp only [process_port, parse_compass_manually, if_pos hs]
    rfl
  · intro s hs
    simp only [process_port, parse_compass_manually, if_neg hs]

/-- C4 witness: the theorem applied at the compass token `"s"` and at the
non-compass id `"x"`. -/
theorem claim_C4_witness :
    process_port (.Plain "s") none = ⟨none, some "s"⟩ ∧
    process_port (.Plain "x") none = ⟨some (.Plain "x"), none⟩ :=
  ⟨claim_C4.1 "s" (by decide), claim_C4.2.1 "x" (by decide)⟩

/-- C5: the chain collapsing of `process_edge_stmt`: exactly two vertices
yield `EdgeTy::Pair`, more than two yield `EdgeTy::Chain` with all
vertices in source order; `"a -> b"` and `"a -> b -> c"` parse as in the
claim. -/
theorem claim_C5 :
    (∀ a b : Vertex, process_edge_stmt_ty [a, b] = some (.Pair a b)) ∧
    (∀ vs : List Vertex, vs.length > 2 →
      process_edge_stmt_ty vs = some (.Chain vs)) ∧
    (parseEdgeStmtStr "a -> b").map Edge.ty =
      .ok (.Pair (.N ⟨.Plain "a", none⟩) (.N ⟨.Plain "b", none⟩)) ∧
    (parseEdgeStmtStr "a -> b -> c").map Edge.ty =
      .ok (.Chain [.N ⟨.Plain "a", none⟩, .N ⟨.Plain "b", none⟩,
        .N ⟨.Plain "c", none⟩]) := by
  refine ⟨fun a b => rfl, ?_, by decide, by decide⟩
  intro vs h
  simp only [process_edge_stmt_ty, if_pos h]

/-- C5 witness: the theorem applied to a concrete three-vertex chain. -/
theorem claim_C5_witness :
    process_edge_stmt_ty [.N ⟨.Plain "a", none⟩, .N ⟨.Plain "b", none⟩,
      .N ⟨.Plain "c", none⟩] = some (.Chain [.N ⟨.Plain "a", none⟩,
      .N ⟨.Plain "b", none⟩, .N ⟨.Plain "c", none⟩]) :=
  claim_C5.2.1 _ (by decide)

/-- Field-wise equivalence of printer contexts: equal semicolon flag,
node-attribute layout flag, directedness flag, indent state, indent step,
separators, inline size and formatter registrations. -/
def PrinterContext.equiv (c1 c2 : PrinterContext) : Prop :=
  c1.is_digraph = c2.is_digraph ∧ c1.semi = c2.semi ∧
  c1.mult_node_attr_on_s_l = c2.mult_node_attr_on_s_l ∧
  c1.indent = c2.indent ∧ c1.indent_step = c2.indent_step ∧
  c1.l_s = c2.l_s ∧ c1.inline_size = c2.inline_size ∧
  c1.l_s_i = c2.l_s_i ∧ c1.l_s_m = c2.l_s_m ∧
  c1.attr_value_printers = c2.attr_value_printers

/-- C9: printing is deterministic — two field-wise equivalent contexts
produce identical print results for every graph; the output is a pure
function of the model and the initial context state. -/
theorem claim_C9 :
    ∀ (g : Dot.Graph) (c1 c2 : PrinterContext),
      PrinterContext.equiv c1 c2 → Graph.print g c1 = Graph.print g c2 := by
  intro g c1 c2 h
  obtain ⟨h1, h2, h3, h4, h5, h6, h7, h8, h9, h10⟩ := h
  have : c1 = c2 := by
    cases c1
    cases c2
    simp_all
  rw [this]

/-- C9 witness: the theorem applied to a concrete graph and two freshly
constructed default contexts. -/
theorem claim_C9_witness :
    Graph.print (.Graph (.Plain "g") false []) PrinterContext.default =
      Graph.print (.Graph (.Plain "g") false []) PrinterContext.default :=
  claim_C9 (.Graph (.Plain "g") false []) PrinterContext.default
    PrinterContext.default ⟨rfl, rfl, rfl, rfl, rfl, rfl, rfl, rfl, rfl, rfl⟩

/-- C6: per-edge inline compaction — when the first rendering of an edge
fits within the context's inline-size threshold and the context is not
already inline, `Edge::print` re-renders the edge in forced inline mode
and returns that rendering with multiline mode restored; otherwise it
returns the first rendering unchanged; the default threshold is 90. -/
theorem claim_C6 :
    (∀ (e : Edge) (ctx : PrinterContext) s1 ctx1,
      print_edge e ctx = some (s1, ctx1) →
      ctx1.is_inline_on = false → s1.utf8ByteSize ≤ ctx1.inline_size →
      Edge.printDot e ctx =
        (print_edge e ctx1.inline_mode).map
          (fun r => (r.1, r.2.multiline_mode))) ∧
    (∀ (e : Edge) (ctx : PrinterContext) s1 ctx1,
      print_edge e ctx = some (s1, ctx1) →
      ctx1.is_inline_on = true ∨ ctx1.inline_size < s1.utf8ByteSize →
      Edge.printDot e ctx = some (s1, ctx1)) ∧
    PrinterContext.default.inline_size = 90 := by
  refine ⟨?_, ?_, rfl⟩
  · rintro ⟨ty, attrs⟩ ctx s1 ctx1 h hni hsz
    rw [print_edge] at h
    dsimp only [Edge.ty, Edge.attributes] at h
    rw [Edge.printDot, h]
    dsimp only
    rw [if_pos ⟨hsz, hni⟩]
    rw [print_edge]
    dsimp only [Edge.ty, Edge.attributes]
    cases h2 : printEdgeTy ty attrs ctx1.inline_mode with
    | none => rfl
    | some p => rfl
  · rintro ⟨ty, attrs⟩ ctx s1 ctx1 h hcond
    rw [print_edge] at h
    dsimp only [Edge.ty, Edge.attributes] at h
    rw [Edge.printDot, h]
    dsimp only
    rw [if_neg]
    rintro ⟨hsz, hni⟩
    rcases hcond with hc | hc
    · rw [hc] at hni
      exact absurd hni (by decide)
    · omega

/-- C6 witness: the theorem applied to the edge `a -- b` under the default
context, whose 6-byte rendering fits the 90-byte threshold. -/
theorem claim_C6_witness :
    Edge.printDot
        (.mk (.Pair (.N ⟨.Plain "a", none⟩) (.N ⟨.Plain "b", none⟩)) [])
        PrinterContext.default =
      (print_edge
          (.mk (.Pair (.N ⟨.Plain "a", none⟩) (.N ⟨.Plain "b", none⟩)) [])
          PrinterContext.default.inline_mode).map
        (fun r => (r.1, r.2.multiline_mode)) :=
  claim_C6.1 (.mk (.Pair (.N ⟨.Plain "a", none⟩) (.N ⟨.Plain "b", none⟩)) [])
    PrinterContext.default "a -- b" PrinterContext.default rfl (by decide)
    (by decide)

/-- C8: printing is total over valid models — for every graph whose ports
all have at least one component and whose chains all carry at least two
vertices, `Graph::print` returns a string for every context (the
`unreachable!` arm of `Port::print` and the chain `unwrap` are never
reached). -/
theorem claim_C8 : ∀ (g : Dot.Graph) (ctx : PrinterContext),
    Graph.printable g = true → (Graph.print g ctx).isSome = true := by
  intro g ctx h
  cases g with
  | Graph id strict stmts =>
    rw [Graph.printable] at h
    obtain ⟨⟨body, c⟩, hr⟩ := Option.isSome_iff_exists.mp
      (printStmts_total stmts { ctx.indent_grow with is_digraph := false } h)
    rw [Graph.print, hr]
    rfl
  | DiGraph id strict stmts =>
    rw [Graph.printable] at h
    obtain ⟨⟨body, c⟩, hr⟩ := Option.isSome_iff_exists.mp
      (printStmts_total stmts { ctx.indent_grow with is_digraph := true } h)
    rw [Graph.print, hr]
    rfl

/-- C8 witness: the theorem applied to a graph containing a compass port,
a named port and a two-vertex chain, under the default context. -/
theorem claim_C8_witness :
    (Graph.print
        (.DiGraph (.Plain "t") false
          [.Node ⟨⟨.Plain "n", some ⟨none, some "ne"⟩⟩, []⟩,
           .Node ⟨⟨.Plain "m", some ⟨some (.Plain "p"), none⟩⟩, []⟩,
           .Edge (.mk (.Chain [.N ⟨.Plain "a", none⟩, .N ⟨.Plain "b", none⟩]) [])])
        PrinterContext.default).isSome = true :=
  claim_C8 _ PrinterContext.default (by decide)

/-- C10 (implicit frame effect): `Graph::print` grows the indent on entry
and never shrinks it back — for every context satisfying the
builder-reachable separator state (`l_s = l_s_m`) that is not in inline
mode, printing a graph leaves the context's indent increased by exactly
one indent step, while `Subgraph::print` restores the indent it grows. -/
theorem claim_C10 :
    (∀ (g : Dot.Graph) (ctx : PrinterContext) s ctx',
      ctx.l_s = ctx.l_s_m → ctx.is_inline_on = false →
      Graph.print g ctx = some (s, ctx') →
      ctx'.indent = ctx.indent + ctx.indent_step) ∧
    (∀ (sg : Subgraph) (ctx : PrinterContext) s ctx',
      ctx.l_s = ctx.l_s_m →
      Subgraph.print sg ctx = some (s, ctx') → ctx'.indent = ctx.indent) := by
  constructor
  · intro g ctx s ctx' hm hni h
    have hfields := indent_grow_fields ctx
    cases g with
    | Graph id strict stmts =>
      rw [Graph.print] at h
      cases hb : printStmts stmts { ctx.indent_grow with is_digraph := false } with
      | none => rw [hb] at h; simp at h
      | some p =>
        obtain ⟨body, c⟩ := p
        rw [hb] at h
        dsimp only at h
        simp at h
        have hc := printStmts_ctx stmts _ body c
          (by rw [ctxInv]; simp; rw [hfields.1, hfields.2.2.1]; exact Or.inl hm) hb
        rw [← h.2, hc]
        simp
        exact indent_grow_indent ctx hni
    | DiGraph id strict stmts =>
      rw [Graph.print] at h
      cases hb : printStmts stmts { ctx.indent_grow with is_digraph := true } with
      | none => rw [hb] at h; simp at h
      | some p =>
        obtain ⟨body, c⟩ := p
        rw [hb] at h
        dsimp only at h
        simp at h
        have hc := printStmts_ctx stmts _ body c
          (by rw [ctxInv]; simp; rw [hfields.1, hfields.2.2.1]; exact Or.inl hm) hb
        rw [← h.2, hc]
        simp
        exact indent_grow_indent ctx hni
  · intro sg ctx s ctx' hm h
    rw [subgraph_print_ctx sg ctx s ctx' (Or.inl hm) h]

/-- C10 witness: printing an empty graph under the default context leaves
the context's indent at `0 + 2`, and a subgraph print leaves it at `0`. -/
theorem claim_C10_witness :
    ((Graph.print (.Graph (.Plain "g") false []) PrinterContext.default).map
      (fun r => r.2.indent) = some (PrinterContext.default.indent +
        PrinterContext.default.indent_step)) ∧
    ((Subgraph.print (.mk (.Plain "s") []) PrinterContext.default).map
      (fun r => r.2.indent) = some PrinterContext.default.indent) := by
  constructor
  · cases hg : Graph.print (.Graph (.Plain "g") false []) PrinterContext.default with
    | none =>
      have hs : (Graph.print (.Graph (.Plain "g") false [])
          PrinterContext.default).isSome = true := by rfl
      rw [hg] at hs
      simp at hs
    | some p =>
      have := claim_C10.1 (.Graph (.Plain "g") false []) PrinterContext.default
        p.1 p.2 rfl (by decide) (by rw [hg])
      simp [this]
  · cases hg : Subgraph.print (.mk (.Plain "s") []) PrinterContext.default with
    | none =>
      have hs : (Subgraph.print (.mk (.Plain "s") [])
          PrinterContext.default).isSome = true := by rfl
      rw [hg] at hs
      simp at hs
    | some p =>
      have := claim_C10.2 (.mk (.Plain "s") []) PrinterContext.default
        p.1 p.2 rfl (by rw [hg])
      simp [this]

/-! ## Directedness propagation (claim C7)

A second printer family in which the edge operator is passed down
syntactically from the root instead of being read from the context's
directedness flag at each edge.  Proving the two families equal shows that
every edge, however deeply nested, is joined with the operator determined
by the root graph constructor. -/

/-- The edge operator chosen by `print_edge` for a directedness flag. -/
def bondOf (b : Bool) : String :=
  if b then "->" else "--"

mutual

/-- `Vertex` printing with a syntactically fixed edge operator. -/
def Vertex.printB (bond : String) (v : Vertex) (ctx : PrinterContext) :
    Option (String × PrinterContext) :=
  match v with
  | .N el => (el.print ctx).map fun s => (s, ctx)
  | .S el => Subgraph.printB bond el ctx
termination_by structural v

/-- `Subgraph` printing with a syntactically fixed edge operator. -/
def Subgraph.printB (bond : String) (sg : Subgraph) (ctx : PrinterContext) :
    Option (String × PrinterContext) :=
  match sg with
  | .mk id stmts =>
    let indent := ctx.indentStr
    let ctx1 := ctx.indent_grow
    let header := "subgraph " ++ id.print ++ " \x7b" ++ ctx1.l_s
    match printStmtListB bond stmts ctx1 with
    | none => none
    | some (pieces, ctx2) =>
        some (header ++ String.intercalate ctx2.l_s pieces ++ ctx2.l_s ++
          indent ++ "\x7d", ctx2.indent_shrink)
termination_by structural sg

/-- Statement-list printing with a syntactically fixed edge operator. -/
def printStmtListB (bond : String) (l : List Stmt) (ctx : PrinterContext) :
    Option (List String × PrinterContext) :=
  match l with
  | [] => some ([], ctx)
  | s :: rest =>
    match Stmt.printB bond s ctx with
    | none => none
    | some (v, ctx1) =>
      match printStmtListB bond rest ctx1 with
      | none => none
      | some (vs, ctx2) => some (v :: vs, ctx2)
termination_by structural l

/-- `Stmt` printing with a syntactically fixed edge operator. -/
def Stmt.printB (bond : String) (s : Stmt) (ctx : PrinterContext) :
    Option (String × PrinterContext) :=
  let endStr := if ctx.semi then ";" else ""
  let indent := ctx.indentStr
  match s with
  | .Node e => (Node.print e ctx).map fun p => (indent ++ p.1 ++ endStr, p.2)
  | .Subgraph e =>
      match Subgraph.printB bond e ctx with
      | none => none
      | some (v, c) => some (indent ++ v ++ endStr, c)
  | .Attribute e => some (indent ++ e.print ctx ++ endStr, ctx)
  | .GAttribute e =>
      let (v, c) := e.print ctx
      some (indent ++ v ++ endStr, c)
  | .Edge e =>
      match Edge.printDotB bond e ctx with
      | none => none
      | some (v, c) => some (indent ++ v ++ endStr, c)
termination_by structural s

/-- `print_edge` with a syntactically fixed edge operator. -/
def printEdgeTyB (bond : String) (ty : EdgeTy) (attributes : List Attribute)
    (ctx : PrinterContext) : Option (String × PrinterContext) :=
  match ty with
  | .Pair l r =>
    match Vertex.printB bond l ctx with
    | none => none
    | some (lv, ctx1) =>
      match Vertex.printB bond r ctx1 with
      | none => none
      | some (rv, ctx2) =>
        if attributes.isEmpty then
          some (lv ++ " " ++ bond ++ " " ++ rv, ctx2)
        else
          let (av, ctx3) := printAttributes attributes ctx2
          some (lv ++ " " ++ bond ++ " " ++ rv ++ " " ++ av, ctx3)
  | .Chain [] => none
  | .Chain (h :: t) =>
    match Vertex.printB bond h ctx with
    | none => none
    | some (hv, ctx1) =>
      match printChainB bond hv t ctx1 with
      | none => none
      | some (chain, ctx2) =>
        let (av, ctx3) := printAttributes attributes ctx2
        some (chain ++ av, ctx3)
termination_by structural ty

/-- The chain loop with a syntactically fixed edge operator. -/
def printChainB (bond : String) (acc : String) (vs : List Vertex)
    (ctx : PrinterContext) : Option (String × PrinterContext) :=
  match vs with
  | [] => some (acc, ctx)
  | el :: rest =>
    match Vertex.printB bond el ctx with
    | none => none
    | some (ev, ctx1) =>
        printChainB bond (acc ++ " " ++ bond ++ " " ++ ev) rest ctx1
termination_by structural vs

/-- `Edge` printing (with compaction) with a fixed edge operator. -/
def Edge.printDotB (bond : String) (e : Edge) (ctx : PrinterContext) :
    Option (String × PrinterContext) :=
  match e with
  | .mk ty attributes =>
    match printEdgeTyB bond ty attributes ctx with
    | none => none
    | some (edge_str, ctx1) =>
      if edge_str.utf8ByteSize ≤ ctx1.inline_size ∧ ctx1.is_inline_on = false then
        match printEdgeTyB bond ty attributes ctx1.inline_mode with
        | none => none
        | some (edge_str2, ctx3) => some (edge_str2, ctx3.multiline_mode)
      else
        some (edge_str, ctx1)
termination_by structural e

end

/-- `Graph` printing with the edge operator fixed by the constructor:
`"->"` for `DiGraph`, `"--"` for `Graph`, pushed syntactically to every
nested edge. -/
def Graph.printB (g : Dot.Graph) (ctx : PrinterContext) :
    Option (String × PrinterContext) :=
  let ctx0 := ctx.indent_grow
  match g with
  | .Graph id strict stmts =>
    let ctx1 := { ctx0 with is_digraph := false }
    match printStmtListB "--" stmts ctx1 with
    | none => none
    | some (pieces, ctx2) =>
      some ((if strict then "strict graph " else "graph ") ++ id.print ++
        " \x7b" ++ ctx2.l_s ++ String.intercalate ctx2.l_s pieces ++
        ctx2.l_s ++ "\x7d", ctx2)
  | .DiGraph id strict stmts =>
    let ctx1 := { ctx0 with is_digraph := true }
    match printStmtListB "->" stmts ctx1 with
    | none => none
    | some (pieces, ctx2) =>
      some ((if strict then "strict digraph " else "digraph ") ++ id.print ++
        " \x7b" ++ ctx2.l_s ++ String.intercalate ctx2.l_s pieces ++
        ctx2.l_s ++ "\x7d", ctx2)

theorem indent_shrink_is_digraph (ctx : PrinterContext) :
    ctx.indent_shrink.is_digraph = ctx.is_digraph := by
  rw [PrinterContext.indent_shrink]
  split <;> rfl

mutual

theorem vertex_print_dig : ∀ (v : Vertex) (ctx : PrinterContext) s ctx',
    Vertex.print v ctx = some (s, ctx') → ctx'.is_digraph = ctx.is_digraph
  | .N el, ctx, s, ctx' => by
    intro h
    rw [Vertex.print] at h
    cases hne : el.print ctx with
    | none => rw [hne] at h; simp at h
    | some v0 => rw [hne] at h; simp at h; rw [← h.2]
  | .S el, ctx, s, ctx' => by
    intro h
    rw [Vertex.print] at h
    exact subgraph_print_dig el ctx s ctx' h
termination_by structural v => v

theorem subgraph_print_dig : ∀ (sg : Subgraph) (ctx : PrinterContext) s ctx',
    Subgraph.print sg ctx = some (s, ctx') → ctx'.is_digraph = ctx.is_digraph
  | .mk id stmts, ctx, s, ctx' => by
    intro h
    rw [Subgraph.print] at h
    cases hb : printStmtList stmts ctx.indent_grow with
    | none => rw [hb] at h; simp at h
    | some p =>
      obtain ⟨ss2, c2⟩ := p
      rw [hb] at h
      dsimp only at h
      simp at h
      have h2 := printStmtList_dig stmts ctx.indent_grow ss2 c2 hb
      rw [← h.2, indent_shrink_is_digraph, h2, (indent_grow_fields ctx).2.2.2]
termination_by structural sg => sg

theorem printStmtList_dig : ∀ (l : List Stmt) (ctx : PrinterContext) ss ctx',
    printStmtList l ctx = some (ss, ctx') → ctx'.is_digraph = ctx.is_digraph
  | [], ctx, ss, ctx' => by
    intro h
    rw [printStmtList] at h
    simp at h
    rw [← h.2]
  | s0 :: rest, ctx, ss, ctx' => by
    intro h
    rw [printStmtList] at h
    cases hs : Stmt.print s0 ctx with
    | none => rw [hs] at h; simp at h
    | some p1 =>
      obtain ⟨v1, c1⟩ := p1
      rw [hs] at h
      dsimp only at h
      cases hr : printStmtList rest c1 with
      | none => rw [hr] at h; simp at h
      | some p2 =>
        obtain ⟨v2, c2⟩ := p2
        rw [hr] at h
        dsimp only at h
        simp at h
        have e1 := stmt_print_dig s0 ctx v1 c1 hs
        have e2 := printStmtList_dig rest c1 v2 c2 hr
        rw [← h.2, e2, e1]
termination_by structural l => l

theorem stmt_print_dig : ∀ (s : Stmt) (ctx : PrinterContext) v ctx',
    Stmt.print s ctx = some (v, ctx') → ctx'.is_digraph = ctx.is_digraph
  | .Node e, ctx, v, ctx' => by
    intro h
    rw [Stmt.print] at h
    cases hn : Node.print e ctx with
    | none => rw [hn] at h; simp at h
    | some p =>
      obtain ⟨v1, c1⟩ := p
      rw [hn] at h
      simp at h
      rw [← h.2, node_print_ctx e ctx v1 c1 hn]
  | .Subgraph e, ctx, v, ctx' => by
    intro h
    rw [Stmt.print] at h
    cases hn : Subgraph.print e ctx with
    | none => rw [hn] at h; simp at h
    | some p =>
      obtain ⟨v1, c1⟩ := p
      rw [hn] at h
      dsimp only at h
      simp at h
      rw [← h.2]
      exact subgraph_print_dig e ctx v1 c1 hn
  | .Attribute e, ctx, v, ctx' => by
    intro h
    rw [Stmt.print] at h
    simp at h
    rw [← h.2]
  | .GAttribute e, ctx, v, ctx' => by
    intro h
    rw [Stmt.print] at h
    simp at h
    rw [← h.2, ga_print_ctx]
  | .Edge e, ctx, v, ctx' => by
    intro h
    rw [Stmt.print] at h
    cases hn : Edge.printDot e ctx with
    | none => rw [hn] at h; simp at h
    | some p =>
      obtain ⟨v1, c1⟩ := p
      rw [hn] at h
      dsimp only at h
      simp at h
      rw [← h.2]
      exact Edge.printDot_dig e ctx v1 c1 hn
termination_by structural s => s

theorem printEdgeTy_dig : ∀ (ty : EdgeTy) (attrs : List Attribute)
    (ctx : PrinterContext) s ctx',
    printEdgeTy ty attrs ctx = some (s, ctx') → ctx'.is_digraph = ctx.is_digraph
  | .Pair l r, attrs, ctx, s, ctx' => by
    intro h
    rw [printEdgeTy] at h
    cases hl : Vertex.print l ctx with
    | none => rw [hl] at h; simp at h
    | some p1 =>
      obtain ⟨v1, c1⟩ := p1
      rw [hl] at h
      dsimp only at h
      cases hr : Vertex.print r c1 with
      | none => rw [hr] at h; simp at h
      | some p2 =>
        obtain ⟨v2, c2⟩ := p2
        rw [hr] at h
        dsimp only at h
        have e1 := vertex_print_dig l ctx v1 c1 hl
        have e2 := vertex_print_dig r c1 v2 c2 hr
        split at h
        · simp at h
          rw [← h.2, e2, e1]
        · simp at h
          rw [← h.2, printAttributes_ctx, e2, e1]
  | .Chain [], attrs, ctx, s, ctx' => by
    intro h
    rw [printEdgeTy] at h
    simp at h
  | .Chain (h0 :: t), attrs, ctx, s, ctx' => by
    intro h
    rw [printEdgeTy] at h
    cases hh : Vertex.print h0 ctx with
    | none => rw [hh] at h; simp at h
    | some p1 =>
      obtain ⟨v1, c1⟩ := p1
      rw [hh] at h
      dsimp only at h
      cases hc : printChain (if ctx.is_digraph then "->" else "--") v1 t c1 with
      | none => rw [hc] at h; simp at h
      | some p2 =>
        obtain ⟨v2, c2⟩ := p2
        rw [hc] at h
        dsimp only at h
        simp at h
        have e1 := vertex_print_dig h0 ctx v1 c1 hh
        have e2 := printChain_dig t _ v1 c1 v2 c2 hc
        rw [← h.2, printAttributes_ctx, e2, e1]
termination_by structural ty => ty

theorem printChain_dig : ∀ (vs : List Vertex) (bond acc : String)
    (ctx : PrinterContext) s ctx',
    printChain bond acc vs ctx = some (s, ctx') → ctx'.is_digraph = ctx.is_digraph
  | [], bond, acc, ctx, s, ctx' => by
    intro h
    rw [printChain] at h
    simp at h
    rw [← h.2]
  | el :: rest, bond, acc, ctx, s, ctx' => by
    intro h
    rw [printChain] at h
    cases he : Vertex.print el ctx with
    | none => rw [he] at h; simp at h
    | some p1 =>
      obtain ⟨v1, c1⟩ := p1
      rw [he] at h
      dsimp only at h
      have e1 := vertex_print_dig el ctx v1 c1 he
      have e2 := printChain_dig rest bond (acc ++ " " ++ bond ++ " " ++ v1)
        c1 s ctx' h
      rw [e2, e1]
termination_by structural vs => vs

theorem Edge.printDot_dig : ∀ (e : Edge) (ctx : PrinterContext) s ctx',
    Edge.printDot e ctx = some (s, ctx') → ctx'.is_digraph = ctx.is_digraph
  | .mk ty attrs, ctx, s, ctx' => by
    intro h
    rw [Edge.printDot] at h
    cases h1 : printEdgeTy ty attrs ctx with
    | none => rw [h1] at h; simp at h
    | some p1 =>
      obtain ⟨v1, c1⟩ := p1
      rw [h1] at h
      dsimp only at h
      have e1 := printEdgeTy_dig ty attrs ctx v1 c1 h1
      split at h
      · cases h2 : printEdgeTy ty attrs c1.inline_mode with
        | none => rw [h2] at h; simp at h
        | some p2 =>
          obtain ⟨v2, c2⟩ := p2
          rw [h2] at h
          dsimp only at h
          simp at h
          have e2 := printEdgeTy_dig ty attrs c1.inline_mode v2 c2 h2
          rw [← h.2]
          rw [show c2.multiline_mode.is_digraph = c2.is_digraph from rfl, e2]
          rw [show c1.inline_mode.is_digraph = c1.is_digraph from rfl, e1]
      · simp at h
        rw [← h.2, e1]
termination_by structural e => e

end

theorem bondOf_eq (b : Bool) :
    (if b = true then "->" else "--") = bondOf b := rfl

mutual

theorem vertex_print_bond : ∀ (v : Vertex) (ctx : PrinterContext),
    Vertex.print v ctx = Vertex.printB (bondOf ctx.is_digraph) v ctx
  | .N el, ctx => by
    rw [Vertex.print, Vertex.printB]
  | .S el, ctx => by
    rw [Vertex.print, Vertex.printB]
    exact subgraph_print_bond el ctx
termination_by structural v => v

theorem subgraph_print_bond : ∀ (sg : Subgraph) (ctx : PrinterContext),
    Subgraph.print sg ctx = Subgraph.printB (bondOf ctx.is_digraph) sg ctx
  | .mk id stmts, ctx => by
    have hd : ctx.indent_grow.is_digraph = ctx.is_digraph :=
      (indent_grow_fields ctx).2.2.2
    rw [Subgraph.print, Subgraph.printB,
      printStmtList_bond stmts ctx.indent_grow, hd]
termination_by structural sg => sg

theorem printStmtList_bond : ∀ (l : List Stmt) (ctx : PrinterContext),
    printStmtList l ctx = printStmtListB (bondOf ctx.is_digraph) l ctx
  | [], ctx => by
    rw [printStmtList, printStmtListB]
  | s0 :: rest, ctx => by
    rw [printStmtList, printStmtListB, ← stmt_print_bond s0 ctx]
    cases hs : Stmt.print s0 ctx with
    | none => rfl
    | some p1 =>
      obtain ⟨v1, c1⟩ := p1
      dsimp only
      have hflag := stmt_print_dig s0 ctx v1 c1 hs
      rw [printStmtList_bond rest c1, hflag]
termination_by structural l => l

theorem stmt_print_bond : ∀ (s : Stmt) (ctx : PrinterContext),
    Stmt.print s ctx = Stmt.printB (bondOf ctx.is_digraph) s ctx
  | .Node e, ctx => by
    rw [Stmt.print, Stmt.printB]
  | .Subgraph e, ctx => by
    rw [Stmt.print, Stmt.printB, ← subgraph_print_bond e ctx]
  | .Attribute e, ctx => by
    rw [Stmt.print, Stmt.printB]
  | .GAttribute e, ctx => by
    rw [Stmt.print, Stmt.printB]
  | .Edge e, ctx => by
    rw [Stmt.print, Stmt.printB, ← Edge.printDot_bond e ctx]
termination_by structural s => s

theorem printEdgeTy_bond : ∀ (ty : EdgeTy) (attrs : List Attribute)
    (ctx : PrinterContext),
    printEdgeTy ty attrs ctx = printEdgeTyB (bondOf ctx.is_digraph) ty attrs ctx
  | .Pair l r, attrs, ctx => by
    rw [printEdgeTy, printEdgeTyB]
    dsimp only
    rw [bondOf_eq, ← vertex_print_bond l ctx]
    cases hl : Vertex.print l ctx with
    | none => rfl
    | some p1 =>
      obtain ⟨v1, c1⟩ := p1
      dsimp only
      have hflag := vertex_print_dig l ctx v1 c1 hl
      rw [vertex_print_bond r c1, hflag]
  | .Chain [], attrs, ctx => by
    rw [printEdgeTy, printEdgeTyB]
  | .Chain (h0 :: t), attrs, ctx => by
    rw [printEdgeTy, printEdgeTyB]
    dsimp only
    rw [bondOf_eq, ← vertex_print_bond h0 ctx]
    cases hh : Vertex.print h0 ctx with
    | none => rfl
    | some p1 =>
      obtain ⟨v1, c1⟩ := p1
      dsimp only
      have hflag := vertex_print_dig h0 ctx v1 c1 hh
      rw [show bondOf ctx.is_digraph = bondOf c1.is_digraph from by rw [hflag],
        printChain_bond t v1 c1]
termination_by structural ty => ty

theorem printChain_bond : ∀ (vs : List Vertex) (acc : String)
    (ctx : PrinterContext),
    printChain (bondOf ctx.is_digraph) acc vs ctx =
      printChainB (bondOf ctx.is_digraph) acc vs ctx
  | [], acc, ctx => by
    rw [printChain, printChainB]
  | el :: rest, acc, ctx => by
    rw [printChain, printChainB, ← vertex_print_bond el ctx]
    cases he : Vertex.print el ctx with
    | none => rfl
    | some p1 =>
      obtain ⟨v1, c1⟩ := p1
      dsimp only
      have hflag := vertex_print_dig el ctx v1 c1 he
      rw [show bondOf ctx.is_digraph = bondOf c1.is_digraph from by rw [hflag],
        printChain_bond rest (acc ++ " " ++ bondOf c1.is_digraph ++ " " ++ v1) c1]
termination_by structural vs => vs

theorem Edge.printDot_bond : ∀ (e : Edge) (ctx : PrinterContext),
    Edge.printDot e ctx = Edge.printDotB (bondOf ctx.is_digraph) e ctx
  | .mk ty attrs, ctx => by
    rw [Edge.printDot, Edge.printDotB, ← printEdgeTy_bond ty attrs ctx]
    cases h1 : printEdgeTy ty attrs ctx with
    | none => rfl
    | some p1 =>
      obtain ⟨v1, c1⟩ := p1
      dsimp only
      have hflag := printEdgeTy_dig ty attrs ctx v1 c1 h1
      split
      · rw [show bondOf ctx.is_digraph = bondOf c1.inline_mode.is_digraph from
          by rw [show c1.inline_mode.is_digraph = c1.is_digraph from rfl, hflag],
          printEdgeTy_bond ty attrs c1.inline_mode]
      · rfl
termination_by structural e => e

end

/-- C7: directedness propagation — printing a `Graph::DiGraph` equals the
explicitly-bonded printer with `"->"`, and printing a `Graph::Graph`
equals it with `"--"`; since the bonded printer threads its operator
syntactically into every nested edge (through subgraphs and chain
vertices), every edge anywhere in the statement tree is joined with the
operator determined by the root constructor. -/
theorem claim_C7 : ∀ (g : Dot.Graph) (ctx : PrinterContext),
    Graph.print g ctx = Graph.printB g ctx := by
  intro g ctx
  cases g with
  | Graph id strict stmts =>
    rw [Graph.print, Graph.printB]
    have h : printStmtList stmts { ctx.indent_grow with is_digraph := false } =
        printStmtListB "--" stmts { ctx.indent_grow with is_digraph := false } :=
      printStmtList_bond stmts { ctx.indent_grow with is_digraph := false }
    rw [printStmts, h]
    dsimp only
    cases hb : printStmtListB "--" stmts
      { ctx.indent_grow with is_digraph := false } with
    | none => rfl
    | some p => rfl
  | DiGraph id strict stmts =>
    rw [Graph.print, Graph.printB]
    have h : printStmtList stmts { ctx.indent_grow with is_digraph := true } =
        printStmtListB "->" stmts { ctx.indent_grow with is_digraph := true } :=
      printStmtList_bond stmts { ctx.indent_grow with is_digraph := true }
    rw [printStmts, h]
    dsimp only
    cases hb : printStmtListB "->" stmts
      { ctx.indent_grow with is_digraph := true } with
    | none => rfl
    | some p => rfl

/-! ## Claim C1: round-trip -/

/-- Is this id `Anonymous`? -/
def Id.isAnon : Id → Bool
  | .Anonymous _ => true
  | _ => false

/-- No `Anonymous` id anywhere in a port. -/
def Port.noAnon (p : Port) : Bool :=
  match p.id with
  | some i => !i.isAnon
  | none => true

/-- No `Anonymous` id anywhere in a node id. -/
def NodeId.noAnon (n : NodeId) : Bool :=
  !n.id.isAnon && (match n.port with
    | some p => p.noAnon
    | none => true)

/-- No `Anonymous` id in an attribute. -/
def Attribute.noAnon (a : Attribute) : Bool :=
  !a.key.isAnon && !a.value.isAnon

/-- No `Anonymous` id in an attribute list. -/
def attrsNoAnon : List Attribute → Bool
  | [] => true
  | a :: rest => a.noAnon && attrsNoAnon rest

mutual

/-- No `Anonymous` id anywhere. -/
def Vertex.noAnon : Vertex → Bool
  | .N n => n.noAnon
  | .S sg => sg.noAnon
termination_by structural v => v

/-- No `Anonymous` id anywhere. -/
def Subgraph.noAnon : Subgraph → Bool
  | .mk id stmts => !id.isAnon && stmtsNoAnon stmts
termination_by structural sg => sg

/-- No `Anonymous` id anywhere. -/
def stmtsNoAnon : List Stmt → Bool
  | [] => true
  | s :: rest => s.noAnon && stmtsNoAnon rest
termination_by structural l => l

/-- No `Anonymous` id anywhere. -/
def Stmt.noAnon : Stmt → Bool
  | .Node n => n.id.noAnon && attrsNoAnon n.attributes
  | .Subgraph sg => sg.noAnon
  | .Attribute a => a.noAnon
  | .GAttribute (.Graph l) => attrsNoAnon l
  | .GAttribute (.Node l) => attrsNoAnon l
  | .GAttribute (.Edge l) => attrsNoAnon l
  | .Edge e => e.noAnon
termination_by structural s => s

/-- No `Anonymous` id anywhere. -/
def Edge.noAnon : Edge → Bool
  | .mk ty attrs => ty.noAnon && attrsNoAnon attrs
termination_by structural e => e

/-- No `Anonymous` id anywhere. -/
def EdgeTy.noAnon : EdgeTy → Bool
  | .Pair l r => l.noAnon && r.noAnon
  | .Chain vs => vsNoAnon vs
termination_by structural ty => ty

/-- No `Anonymous` id anywhere. -/
def vsNoAnon : List Vertex → Bool
  | [] => true
  | v :: rest => v.noAnon && vsNoAnon rest
termination_by structural l => l

end

/-- No `Anonymous` id anywhere in the graph. -/
def Graph.noAnon : Dot.Graph → Bool
  | .Graph id _ stmts => !id.isAnon && stmtsNoAnon stmts
  | .DiGraph id _ stmts => !id.isAnon && stmtsNoAnon stmts

/-- The round-trip of the claim: print under a fresh default context, then
parse. -/
def roundTrip (g : Dot.Graph) : Option (Except String Dot.Graph) :=
  (printGraph g PrinterContext.default).map parse

/-- C1 counterexample: four `Anonymous`-free graphs whose default-context
print does not re-parse to an equal graph: (i) a two-vertex `Chain`
re-parses as a `Pair`; (ii) a named port `"n"` re-parses as a compass
port; (iii) an edge whose subgraph endpoint holds two bare nodes is
compacted inline and its nodes fuse into one; (iv) an empty `Plain` graph
id re-parses as a fresh `Anonymous` id. -/
theorem claim_C1_counterexample :
    (Graph.noAnon (.DiGraph (.Plain "t") false
        [.Edge (.mk (.Chain [.N ⟨.Plain "a", none⟩, .N ⟨.Plain "b", none⟩]) [])])
      = true ∧
     roundTrip (.DiGraph (.Plain "t") false
        [.Edge (.mk (.Chain [.N ⟨.Plain "a", none⟩, .N ⟨.Plain "b", none⟩]) [])])
      = some (.ok (.DiGraph (.Plain "t") false
        [.Edge (.mk (.Pair (.N ⟨.Plain "a", none⟩) (.N ⟨.Plain "b", none⟩)) [])])) ∧
     (.DiGraph (.Plain "t") false
        [.Edge (.mk (.Pair (.N ⟨.Plain "a", none⟩) (.N ⟨.Plain "b", none⟩)) [])]) ≠
       (Dot.Graph.DiGraph (.Plain "t") false
        [.Edge (.mk (.Chain [.N ⟨.Plain "a", none⟩, .N ⟨.Plain "b", none⟩]) [])])) ∧
    (Graph.noAnon (.Graph (.Plain "t") false
        [.Node ⟨⟨.Plain "A", some ⟨some (.Plain "n"), none⟩⟩, []⟩]) = true ∧
     roundTrip (.Graph (.Plain "t") false
        [.Node ⟨⟨.Plain "A", some ⟨some (.Plain "n"), none⟩⟩, []⟩])
      = some (.ok (.Graph (.Plain "t") false
        [.Node ⟨⟨.Plain "A", some ⟨none, some "n"⟩⟩, []⟩])) ∧
     (Dot.Graph.Graph (.Plain "t") false
        [.Node ⟨⟨.Plain "A", some ⟨none, some "n"⟩⟩, []⟩]) ≠
       (.Graph (.Plain "t") false
        [.Node ⟨⟨.Plain "A", some ⟨some (.Plain "n"), none⟩⟩, []⟩])) ∧
    (Graph.noAnon (.DiGraph (.Plain "t") false
        [.Edge (.mk (.Pair (.N ⟨.Plain "a", none⟩)
          (.S (.mk (.Plain "s") [.Node ⟨⟨.Plain "b", none⟩, []⟩,
            .Node ⟨⟨.Plain "c", none⟩, []⟩]))) [])]) = true ∧
     roundTrip (.DiGraph (.Plain "t") false
        [.Edge (.mk (.Pair (.N ⟨.Plain "a", none⟩)
          (.S (.mk (.Plain "s") [.Node ⟨⟨.Plain "b", none⟩, []⟩,
            .Node ⟨⟨.Plain "c", none⟩, []⟩]))) [])])
      = some (.ok (.DiGraph (.Plain "t") false
        [.Edge (.mk (.Pair (.N ⟨.Plain "a", none⟩)
          (.S (.mk (.Plain "s") [.Node ⟨⟨.Plain "bc", none⟩, []⟩]))) [])]))) ∧
    (Graph.noAnon (.Graph (.Plain "") false []) = true ∧
     roundTrip (.Graph (.Plain "") false []) =
       some (.ok (.Graph (.Anonymous "**") false []))) := by
  refine ⟨⟨by decide, by decide, by decide⟩, ⟨by decide, by decide, by decide⟩,
    ⟨by decide, by decide⟩, by decide, by decide⟩

/-! ## Round-trip machinery (claim C1): lexical chunks

The amended round-trip claim is proved by decomposing every printed graph
into *chunks* — a whitespace run followed by one token's text — and
showing (a) the printer emits exactly the flattening of the chunk
decomposition, (b) the tokenizer maps any well-separated chunk list to its
token list, and (c) the token parser folds that token list back into the
original graph. -/

theorem string_mk_data (s : String) : String.mk s.data = s := rfl

theorem string_data_append (a b : String) : (a ++ b).data = a.data ++ b.data :=
  String.data_append a b

theorem intercalate_go_nil (a s : String) : String.intercalate.go a s [] = a := by
  rw [String.intercalate.go]

theorem intercalate_go_cons (a s b : String) (t : List String) :
    String.intercalate.go a s (b :: t) =
      String.intercalate.go (a ++ s ++ b) s t := by
  rw [String.intercalate.go]

theorem intercalate_cons (s a : String) (t : List String) :
    String.intercalate s (a :: t) = String.intercalate.go a s t := rfl

theorem tw_append (p : Char → Bool) (l r : List Char) (h : l.all p = true) :
    (l ++ r).takeWhile p = l ++ r.takeWhile p := by
  induction l with
  | nil => simp
  | cons c cs ih =>
    rw [List.all_cons, Bool.and_eq_true] at h
    simp [List.takeWhile, h.1, ih h.2]

theorem dw_append (p : Char → Bool) (l r : List Char) (h : l.all p = true) :
    (l ++ r).dropWhile p = r.dropWhile p := by
  induction l with
  | nil => simp
  | cons c cs ih =>
    rw [List.all_cons, Bool.and_eq_true] at h
    simp [List.dropWhile, h.1, ih h.2]

/-- The character after a plain token must not extend it: neither an
identifier character nor a dot. -/
def headSafe (cs : List Char) : Prop :=
  ∀ c, cs.head? = some c → isIdChar c = false ∧ c ≠ '.'

theorem headSafe_nil : headSafe [] := by
  intro c h
  simp at h

theorem isIdChar_of_digit {c : Char} (h : c.isDigit = true) :
    isIdChar c = true := by
  simp [isIdChar, Char.isAlphanum, h]

theorem isIdChar_of_alpha {c : Char} (h : c.isAlpha = true) :
    isIdChar c = true := by
  simp [isIdChar, Char.isAlphanum, h]

theorem start_of_ident {c : Char} (h : c.isAlpha = true ∨ c = '_') :
    isWsChar c = false ∧ c ≠ '#' ∧ c ≠ '/' := by
  rcases h with h | rfl
  · refine ⟨?_, ?_, ?_⟩
    · by_cases hw : isWsChar c = true
      · exfalso
        rw [isWsChar] at hw
        simp only [Bool.or_eq_true, decide_eq_true_eq] at hw
        rcases hw with ((rfl | rfl) | rfl) | rfl <;> exact absurd h (by decide)
      · simpa using hw
    · intro hc; subst hc; exact absurd h (by decide)
    · intro hc; subst hc; exact absurd h (by decide)
  · exact ⟨by decide, by decide, by decide⟩

theorem start_of_digit {c : Char} (h : c.isDigit = true) :
    isWsChar c = false ∧ c ≠ '#' ∧ c ≠ '/' := by
  refine ⟨?_, ?_, ?_⟩
  · by_cases hw : isWsChar c = true
    · exfalso
      rw [isWsChar] at hw
      simp only [Bool.or_eq_true, decide_eq_true_eq] at hw
      rcases hw with ((rfl | rfl) | rfl) | rfl <;> exact absurd h (by decide)
    · simpa using hw
  · intro hc; subst hc; exact absurd h (by decide)
  · intro hc; subst hc; exact absurd h (by decide)

theorem skipWsF_ws (f : Nat) (c : Char) (cs : List Char)
    (h : isWsChar c = true) : skipWsF (f + 1) (c :: cs) = skipWsF f cs := by
  rw [skipWsF]
  simp [h]

theorem skipWs_cons_ws (c : Char) (cs : List Char) (h : isWsChar c = true) :
    skipWs (c :: cs) = skipWs cs := by
  rw [skipWs, skipWs, List.length_cons]
  exact skipWsF_ws _ c cs h

theorem skipWs_ws_append (ws cs : List Char) (h : ws.all isWsChar = true) :
    skipWs (ws ++ cs) = skipWs cs := by
  induction ws with
  | nil => simp
  | cons c t ih =>
    rw [List.all_cons, Bool.and_eq_true] at h
    rw [List.cons_append, skipWs_cons_ws c _ h.1]
    exact ih h.2

theorem skipWs_start (c : Char) (cs : List Char) (h1 : isWsChar c = false)
    (h2 : c ≠ '#') (h3 : c ≠ '/') : skipWs (c :: cs) = .ok (c :: cs) := by
  rw [skipWs, List.length_cons, skipWsF]
  simp [h1, h2, h3]

theorem tokenizeF_ws_append (f : Nat) (ws cs : List Char)
    (h : ws.all isWsChar = true) :
    tokenizeF (f + 1) (ws ++ cs) = tokenizeF (f + 1) cs := by
  rw [tokenizeF, tokenizeF, skipWs_ws_append ws cs h]

/-- The exact text of one token (identifiers keep their delimiters). -/
def Tok.text : Tok → List Char
  | .idT i => (Id.print i).data
  | .lbrace => ['\x7b']
  | .rbrace => ['\x7d']
  | .lbrack => ['[']
  | .rbrack => [']']
  | .eqT => ['=']
  | .comma => [',']
  | .semi => [';']
  | .colon => [':']
  | .edgeop b => b.data

/-- An unquoted alphabetic identifier. -/
def identTextOk : List Char → Bool
  | [] => false
  | c :: t => (c.isAlpha || c = '_') && t.all isIdChar

/-- A numeral without its optional leading minus: digits with an optional
fraction, or a leading dot followed by digits. -/
def numBodyOk (cs : List Char) : Bool :=
  if cs.head? = some '.' then !cs.tail.isEmpty && cs.tail.all Char.isDigit
  else
    (!(cs.takeWhile Char.isDigit).isEmpty &&
      ((cs.dropWhile Char.isDigit).isEmpty ||
        ((cs.dropWhile Char.isDigit).head? == some '.' &&
          (cs.dropWhile Char.isDigit).tail.all Char.isDigit)))

/-- A signed or unsigned numeral. -/
def numTextOk (cs : List Char) : Bool :=
  if cs.head? = some '-' then numBodyOk cs.tail else numBodyOk cs

/-- A lexically valid plain identifier token text. -/
def plainLexOk (cs : List Char) : Bool :=
  identTextOk cs || numTextOk cs

/-- A lexically valid quoted string (delimiters included, escapes closed,
no early closing quote). -/
def escLexOk (cs : List Char) : Bool :=
  (cs.head? == some '"') && (stringEnd cs.tail == some cs.tail.length)

/-- A lexically valid HTML identifier (delimiters included, angle brackets
balanced). -/
def htmlLexOk (cs : List Char) : Bool :=
  (cs.head? == some '<') && (htmlEnd 1 cs.tail == some cs.tail.length)

/-- Ids whose printed text re-tokenizes to exactly the same id. -/
def Id.lexOk : Id → Bool
  | .Plain s => plainLexOk s.data
  | .Escaped s => escLexOk s.data
  | .Html s => htmlLexOk s.data
  | .Anonymous _ => false

/-- Tokens whose text the tokenizer maps back to the same token. -/
def Tok.lexOk : Tok → Bool
  | .idT i => i.lexOk
  | .edgeop b => b == "->" || b == "--"
  | _ => true

/-- Separation requirement a token imposes on the following text. -/
def sepOk (t : Tok) (cs : List Char) : Prop :=
  match t with
  | .idT (.Plain _) => headSafe cs
  | _ => True

/-- One whitespace run and one token. -/
abbrev Chunk : Type := List Char × Tok

/-- The concrete text of a chunk list. -/
def chunksFlat : List Chunk → List Char
  | [] => []
  | (ws, t) :: rest => ws ++ t.text ++ chunksFlat rest

/-- The token list of a chunk list. -/
def chunksToks (l : List Chunk) : List Tok := l.map Prod.snd

/-- Well-formedness of a chunk list followed by a given suffix: whitespace
runs are whitespace, token texts are lexically valid, and every plain
token is separated from what follows it. -/
def chunksOkFrom : List Chunk → List Char → Prop
  | [], _ => True
  | (ws, t) :: rest, suff =>
      ws.all isWsChar = true ∧ t.lexOk = true ∧
      sepOk t (chunksFlat rest ++ suff) ∧ chunksOkFrom rest suff

theorem chunksFlat_append (a b : List Chunk) :
    chunksFlat (a ++ b) = chunksFlat a ++ chunksFlat b := by
  induction a with
  | nil => simp [chunksFlat]
  | cons c rest ih =>
    obtain ⟨ws, t⟩ := c
    simp [chunksFlat, ih]

theorem chunksToks_append (a b : List Chunk) :
    chunksToks (a ++ b) = chunksToks a ++ chunksToks b := by
  simp [chunksToks]

theorem chunksOkFrom_append (a b : List Chunk) (suff : List Char)
    (ha : chunksOkFrom a (chunksFlat b ++ suff)) (hb : chunksOkFrom b suff) :
    chunksOkFrom (a ++ b) suff := by
  induction a with
  | nil => simpa using hb
  | cons c rest ih =>
    obtain ⟨ws, t⟩ := c
    rw [chunksOkFrom] at ha
    rw [List.cons_append, chunksOkFrom]
    refine ⟨ha.1, ha.2.1, ?_, ih ha.2.2.2⟩
    rw [chunksFlat_append, List.append_assoc]
    exact ha.2.2.1

/-- Prepend whitespace to the first chunk. -/
def wsCons (w : List Char) : List Chunk → List Chunk
  | [] => []
  | (ws, t) :: rest => (w ++ ws, t) :: rest

theorem wsCons_flat (w : List Char) (l : List Chunk) (h : l ≠ []) :
    chunksFlat (wsCons w l) = w ++ chunksFlat l := by
  cases l with
  | nil => exact absurd rfl h
  | cons c rest =>
    obtain ⟨ws, t⟩ := c
    simp [wsCons, chunksFlat]

theorem wsCons_toks (w : List Char) (l : List Chunk) :
    chunksToks (wsCons w l) = chunksToks l := by
  cases l with
  | nil => rfl
  | cons c rest =>
    obtain ⟨ws, t⟩ := c
    simp [wsCons, chunksToks]

theorem wsCons_ok (w : List Char) (l : List Chunk) (suff : List Char)
    (hw : w.all isWsChar = true) (h : chunksOkFrom l suff) :
    chunksOkFrom (wsCons w l) suff := by
  cases l with
  | nil => trivial
  | cons c rest =>
    obtain ⟨ws, t⟩ := c
    rw [chunksOkFrom] at h
    rw [wsCons, chunksOkFrom]
    refine ⟨?_, h.2.1, h.2.2.1, h.2.2.2⟩
    simp [List.all_append, hw, h.1]

theorem stringEnd_other (c : Char) (rest : List Char) (h1 : c ≠ '"')
    (h2 : c ≠ '\\') :
    stringEnd (c :: rest) = (stringEnd rest).map (· + 1) := by
  rw [stringEnd.eq_def]
  split
  · simp_all
  · next heq => rw [List.cons.injEq] at heq; exact absurd heq.1 h1
  · next heq => rw [List.cons.injEq] at heq; exact absurd heq.1 h2
  · next heq => rw [List.cons.injEq] at heq; exact absurd heq.1 h2
  · next heq => rw [List.cons.injEq] at heq; rw [heq.2]

theorem stringEnd_append : ∀ (body : List Char) (n : Nat) (z : List Char),
    stringEnd body = some n → stringEnd (body ++ z) = some n := by
  intro body
  induction body using stringEnd.induct with
  | case1 => intro n z h; simp [stringEnd] at h
  | case2 rest =>
    intro n z h
    rw [show stringEnd ('"' :: rest) = some 1 from rfl] at h
    rw [List.cons_append, show ∀ l, stringEnd ('"' :: l) = some 1 from fun _ => rfl]
    exact h
  | case3 c rest ih =>
    intro n z h
    rw [show stringEnd ('\\' :: c :: rest) = (stringEnd rest).map (· + 2) from rfl] at h
    rw [List.cons_append, List.cons_append,
        show ∀ l, stringEnd ('\\' :: c :: l) = (stringEnd l).map (· + 2) from fun _ => rfl]
    rw [Option.map_eq_some'] at h
    obtain ⟨m, hm, rfl⟩ := h
    rw [ih m z hm]
    rfl
  | case4 => intro n z h; simp [stringEnd] at h
  | case5 c rest hq hbp hbs ih =>
    intro n z h
    have hc1 : c ≠ '"' := fun hc => hq hc
    have hc2 : c ≠ '\\' := by
      intro hc
      cases rest with
      | nil => exact hbs hc rfl
      | cons a b => exact hbp a b hc rfl
    rw [stringEnd_other c rest hc1 hc2, Option.map_eq_some'] at h
    obtain ⟨m, hm, rfl⟩ := h
    rw [List.cons_append, stringEnd_other c _ hc1 hc2, ih m z hm]
    rfl

theorem htmlEnd_other (d : Nat) (c : Char) (rest : List Char) (h1 : c ≠ '<')
    (h2 : c ≠ '>') :
    htmlEnd d (c :: rest) = (htmlEnd d rest).map (· + 1) := by
  rw [htmlEnd.eq_def]
  split
  · simp_all
  · next heq => rw [List.cons.injEq] at heq; exact absurd heq.1 h1
  · next heq => rw [List.cons.injEq] at heq; exact absurd heq.1 h2
  · next heq => rw [List.cons.injEq] at heq; exact absurd heq.1 h2
  · next heq => rw [List.cons.injEq] at heq; rw [heq.2]

theorem htmlEnd_lt (d : Nat) (rest : List Char) :
    htmlEnd d ('<' :: rest) = (htmlEnd (d + 1) rest).map (· + 1) := by
  match d with
  | 0 => rfl
  | 1 => rfl
  | _ + 2 => rfl

theorem htmlEnd_gt (d : Nat) (rest : List Char) (h : d ≠ 1) :
    htmlEnd d ('>' :: rest) = (htmlEnd (d - 1) rest).map (· + 1) := by
  match d, h with
  | 0, _ => rfl
  | _ + 2, _ => rfl
  | 1, h => exact absurd rfl h

theorem htmlEnd_append : ∀ (body : List Char) (d n : Nat) (z : List Char),
    htmlEnd d body = some n → htmlEnd d (body ++ z) = some n := by
  intro body
  induction body with
  | nil => intro d n z h; simp [htmlEnd] at h
  | cons c rest ih =>
    intro d n z h
    by_cases h1 : c = '<'
    · subst h1
      rw [htmlEnd_lt, Option.map_eq_some'] at h
      obtain ⟨m, hm, rfl⟩ := h
      rw [List.cons_append, htmlEnd_lt, ih (d + 1) m z hm]
      rfl
    · by_cases h2 : c = '>'
      · subst h2
        by_cases hd : d = 1
        · subst hd
          rw [show htmlEnd 1 ('>' :: rest) = some 1 from rfl] at h
          rw [List.cons_append, show ∀ l, htmlEnd 1 ('>' :: l) = some 1 from fun _ => rfl]
          exact h
        · rw [htmlEnd_gt d rest hd, Option.map_eq_some'] at h
          obtain ⟨m, hm, rfl⟩ := h
          rw [List.cons_append, htmlEnd_gt d _ hd, ih (d - 1) m z hm]
          rfl
      · rw [htmlEnd_other d c rest h1 h2, Option.map_eq_some'] at h
        obtain ⟨m, hm, rfl⟩ := h
        rw [List.cons_append, htmlEnd_other d c _ h1 h2, ih d m z hm]
        rfl

theorem takeWhile_headSafe (z : List Char) (hz : headSafe z) :
    z.takeWhile isIdChar = [] ∧ z.dropWhile isIdChar = z := by
  cases z with
  | nil => simp
  | cons c t =>
    have h := hz c rfl
    simp [List.takeWhile, List.dropWhile, h.1]

theorem takeWhileD_headSafe (z : List Char) (hz : headSafe z) :
    z.takeWhile Char.isDigit = [] ∧ z.dropWhile Char.isDigit = z := by
  cases z with
  | nil => simp
  | cons c t =>
    have h := hz c rfl
    have hd : c.isDigit = false := by
      by_cases hd : c.isDigit = true
      · rw [isIdChar_of_digit hd] at h; simp at h
      · simpa using hd
    simp [List.takeWhile, List.dropWhile, hd]

/-- Decomposition of the tail of a numeral: digits, then an optional
fraction. -/
def numTailForm (t : List Char) : Prop :=
  ∃ ds fr, t = ds ++ fr ∧ ds.all Char.isDigit = true ∧
    (fr = [] ∨ ∃ ds2, fr = '.' :: ds2 ∧ ds2.all Char.isDigit = true)

theorem scanNumTail_form (t z : List Char) (h : numTailForm t)
    (hz : headSafe z) : scanNumTail (t ++ z) = (t, z) := by
  obtain ⟨ds, fr, rfl, hds, hfr⟩ := h
  have hzt := takeWhileD_headSafe z hz
  have hne : ¬((z : List Char).head? = some '.') := by
    cases z with
    | nil => simp
    | cons c t2 =>
      intro hh
      rw [List.head?_cons, Option.some.injEq] at hh
      exact (hz c rfl).2 hh
  have hdot : Char.isDigit '.' = false := by decide
  rcases hfr with rfl | ⟨ds2, rfl, hds2⟩
  · have h1 : (ds ++ z).takeWhile Char.isDigit = ds := by
      rw [tw_append _ _ _ hds, hzt.1, List.append_nil]
    have h2 : (ds ++ z).dropWhile Char.isDigit = z := by
      rw [dw_append _ _ _ hds, hzt.2]
    simp only [scanNumTail, List.append_nil, h1, h2]
    rw [if_neg hne]
  · have h1 : ((ds ++ '.' :: ds2) ++ z).takeWhile Char.isDigit = ds := by
      rw [List.append_assoc, List.cons_append, tw_append _ _ _ hds]
      simp [List.takeWhile_cons, hdot]
    have h2 : ((ds ++ '.' :: ds2) ++ z).dropWhile Char.isDigit = '.' :: (ds2 ++ z) := by
      rw [List.append_assoc, List.cons_append, dw_append _ _ _ hds]
      simp [List.dropWhile_cons, hdot]
    simp only [scanNumTail, h1, h2]
    rw [if_pos (show ('.' :: (ds2 ++ z)).head? = some '.' by rfl)]
    simp only [List.head?_cons, List.tail_cons]
    rw [tw_append _ _ _ hds2, hzt.1, List.append_nil, dw_append _ _ _ hds2, hzt.2]

theorem numBodyOk_cases (cs : List Char) (h : numBodyOk cs = true) :
    (∃ t, cs = '.' :: t ∧ t ≠ [] ∧ t.all Char.isDigit = true) ∨
    (∃ d t, cs = d :: t ∧ d.isDigit = true ∧ numTailForm t) := by
  rw [numBodyOk] at h
  split at h
  · next hdot =>
    cases cs with
    | nil => simp at hdot
    | cons c t =>
      rw [List.head?_cons, Option.some.injEq] at hdot
      subst hdot
      rw [Bool.and_eq_true, Bool.not_eq_true'] at h
      exact Or.inl ⟨t, rfl, by simpa using h.1, h.2⟩
  · next hdot =>
    rw [Bool.and_eq_true, Bool.not_eq_true'] at h
    obtain ⟨h1, h2⟩ := h
    cases hcs : cs.takeWhile Char.isDigit with
    | nil => rw [hcs] at h1; simp at h1
    | cons d ds =>
      have hsplit : cs = (d :: ds) ++ cs.dropWhile Char.isDigit := by
        conv_lhs => rw [← List.takeWhile_append_dropWhile (p := Char.isDigit) (l := cs)]
        rw [hcs]
      have hcseq : cs = d :: (ds ++ cs.dropWhile Char.isDigit) := by
        conv_lhs => rw [hsplit]
        simp
      have hdall : (d :: ds).all Char.isDigit = true := by
        rw [← hcs]
        exact List.all_eq_true.mpr fun c hc => List.mem_takeWhile_imp hc
      rw [List.all_cons, Bool.and_eq_true] at hdall
      refine Or.inr ⟨d, ds ++ cs.dropWhile Char.isDigit, hcseq, hdall.1, ?_⟩
      refine ⟨ds, cs.dropWhile Char.isDigit, rfl, hdall.2, ?_⟩
      rw [Bool.or_eq_true] at h2
      rcases h2 with h2 | h2
      · left; simpa using h2
      · rw [Bool.and_eq_true, beq_iff_eq] at h2
        obtain ⟨h2a, h2b⟩ := h2
        cases hdw : cs.dropWhile Char.isDigit with
        | nil => left; rfl
        | cons e es =>
          right
          refine ⟨es, ?_, ?_⟩
          · rw [hdw, List.head?_cons, Option.some.injEq] at h2a
            rw [h2a]
          · rw [hdw, List.tail_cons] at h2b
            exact h2b

theorem numBodyOk_form (cs : List Char) (h : numBodyOk cs = true) :
    numTailForm cs := by
  rcases numBodyOk_cases cs h with ⟨t, rfl, _, hall⟩ | ⟨d, t, rfl, hd, ht⟩
  · exact ⟨[], '.' :: t, rfl, rfl, Or.inr ⟨t, rfl, hall⟩⟩
  · obtain ⟨ds, fr, rfl, hds, hfr⟩ := ht
    exact ⟨d :: ds, fr, rfl, by simp [hd, hds], hfr⟩

theorem numBodyOk_any (cs : List Char) (h : numBodyOk cs = true) :
    cs.any Char.isDigit = true := by
  rcases numBodyOk_cases cs h with ⟨t, rfl, hne, hall⟩ | ⟨d, t, rfl, hd, _⟩
  · cases t with
    | nil => exact absurd rfl hne
    | cons c t2 =>
      rw [List.all_cons, Bool.and_eq_true] at hall
      simp [hall.1]
  · simp [hd]

theorem not_alpha_of_digit {c : Char} (h : c.isDigit = true) :
    c.isAlpha = false := by
  rw [Char.isDigit] at h
  rw [Char.isAlpha, Char.isUpper, Char.isLower]
  simp only [Bool.and_eq_true, decide_eq_true_eq, Char.le_def, UInt32.le_def,
    BitVec.le_def] at h ⊢
  simp only [Bool.or_eq_false_iff, Bool.and_eq_false_iff,
    decide_eq_false_iff_not, Char.le_def, UInt32.le_def, BitVec.le_def, not_le]
  simp at h ⊢
  omega

theorem not_ident_head_of_digit {c : Char} (h : c.isDigit = true) :
    ¬(c.isAlpha = true ∨ c = '_') := by
  intro hor
  rcases hor with ha | rfl
  · rw [not_alpha_of_digit h] at ha
    simp at ha
  · simp at h

theorem tokenizeF_step_ident (f : Nat) (c : Char) (t z : List Char)
    (hc : c.isAlpha = true ∨ c = '_') (ht : t.all isIdChar = true)
    (hz : headSafe z) :
    tokenizeF (f + 1) (c :: t ++ z) =
      (tokenizeF f z).map (Tok.idT (.Plain (String.mk (c :: t))) :: ·) := by
  obtain ⟨hw, hh, hs⟩ := start_of_ident hc
  rw [List.cons_append]
  simp only [tokenizeF, skipWs_start c (t ++ z) hw hh hs]
  rw [if_pos hc, tw_append _ _ _ ht, dw_append _ _ _ ht,
    (takeWhile_headSafe z hz).1, (takeWhile_headSafe z hz).2, List.append_nil]

theorem tokenizeF_step_digit (f : Nat) (c : Char) (t z : List Char)
    (hc : c.isDigit = true) (ht : numTailForm t) (hz : headSafe z) :
    tokenizeF (f + 1) (c :: t ++ z) =
      (tokenizeF f z).map (Tok.idT (.Plain (String.mk (c :: t))) :: ·) := by
  obtain ⟨hw, hh, hs⟩ := start_of_digit hc
  rw [List.cons_append]
  simp only [tokenizeF, skipWs_start c (t ++ z) hw hh hs]
  rw [if_neg (not_ident_head_of_digit hc), if_pos hc,
    scanNumTail_form t z ht hz]

theorem tokenizeF_step_dot (f : Nat) (t z : List Char) (hne : t ≠ [])
    (ht : t.all Char.isDigit = true) (hz : headSafe z) :
    tokenizeF (f + 1) ('.' :: t ++ z) =
      (tokenizeF f z).map (Tok.idT (.Plain (String.mk ('.' :: t))) :: ·) := by
  have htw : (t ++ z).takeWhile Char.isDigit = t := by
    rw [tw_append _ _ _ ht, (takeWhileD_headSafe z hz).1, List.append_nil]
  have hdw : (t ++ z).dropWhile Char.isDigit = z := by
    rw [dw_append _ _ _ ht, (takeWhileD_headSafe z hz).2]
  have hte : t.isEmpty = false := by
    cases t with
    | nil => exact absurd rfl hne
    | cons a b => rfl
  rw [List.cons_append]
  simp [tokenizeF, skipWs_start '.' (t ++ z) (by decide) (by decide) (by decide),
    htw, hdw, hte]

theorem tokenizeF_step_minus (f : Nat) (t z : List Char)
    (ht : numBodyOk t = true) (hz : headSafe z) :
    tokenizeF (f + 1) ('-' :: t ++ z) =
      (tokenizeF f z).map (Tok.idT (.Plain (String.mk ('-' :: t))) :: ·) := by
  have hhead : ∃ x t2, t = x :: t2 ∧ (x = '.' ∨ x.isDigit = true) := by
    rcases numBodyOk_cases t ht with ⟨t2, rfl, _, _⟩ | ⟨d, t2, rfl, hd, _⟩
    · exact ⟨'.', t2, rfl, Or.inl rfl⟩
    · exact ⟨d, t2, rfl, Or.inr hd⟩
  obtain ⟨x, t2, hteq, hx⟩ := hhead
  subst hteq
  have hx1 : x ≠ '>' := by
    rcases hx with rfl | h
    · decide
    · intro hcon; subst hcon; exact absurd h (by decide)
  have hx2 : x ≠ '-' := by
    rcases hx with rfl | h
    · decide
    · intro hcon; subst hcon; exact absurd h (by decide)
  have hsnt : scanNumTail (x :: (t2 ++ z)) = (x :: t2, z) := by
    have h0 := scanNumTail_form (x :: t2) z (numBodyOk_form _ ht) hz
    rwa [List.cons_append] at h0
  have hany : (x :: t2).any Char.isDigit = true := numBodyOk_any _ ht
  rw [List.cons_append]
  simp [tokenizeF, skipWs_start '-' (x :: (t2 ++ z)) (by decide) (by decide) (by decide),
    hsnt, hany, hx1, hx2]

theorem tokenizeF_step_quote (f : Nat) (body z : List Char)
    (h : stringEnd body = some body.length) :
    tokenizeF (f + 1) ('"' :: body ++ z) =
      (tokenizeF f z).map (Tok.idT (.Escaped (String.mk ('"' :: body))) :: ·) := by
  have hse : stringEnd (body ++ z) = some body.length :=
    stringEnd_append body body.length z h
  rw [List.cons_append]
  simp [tokenizeF, skipWs_start '"' (body ++ z) (by decide) (by decide) (by decide),
    hse, List.take_left, List.drop_left]

theorem tokenizeF_step_html (f : Nat) (body z : List Char)
    (h : htmlEnd 1 body = some body.length) :
    tokenizeF (f + 1) ('<' :: body ++ z) =
      (tokenizeF f z).map (Tok.idT (.Html (String.mk ('<' :: body))) :: ·) := by
  have hhe : htmlEnd 1 (body ++ z) = some body.length :=
    htmlEnd_append body 1 body.length z h
  rw [List.cons_append]
  simp [tokenizeF, skipWs_start '<' (body ++ z) (by decide) (by decide) (by decide),
    hhe, List.take_left, List.drop_left]

theorem tokenizeF_step_lbrace (f : Nat) (z : List Char) :
    tokenizeF (f + 1) ('\x7b' :: z) = (tokenizeF f z).map (Tok.lbrace :: ·) := by
  simp [tokenizeF, skipWs_start '\x7b' z (by decide) (by decide) (by decide)]

theorem tokenizeF_step_rbrace (f : Nat) (z : List Char) :
    tokenizeF (f + 1) ('\x7d' :: z) = (tokenizeF f z).map (Tok.rbrace :: ·) := by
  simp [tokenizeF, skipWs_start '\x7d' z (by decide) (by decide) (by decide)]

theorem tokenizeF_step_lbrack (f : Nat) (z : List Char) :
    tokenizeF (f + 1) ('[' :: z) = (tokenizeF f z).map (Tok.lbrack :: ·) := by
  simp [tokenizeF, skipWs_start '[' z (by decide) (by decide) (by decide)]

theorem tokenizeF_step_rbrack (f : Nat) (z : List Char) :
    tokenizeF (f + 1) (']' :: z) = (tokenizeF f z).map (Tok.rbrack :: ·) := by
  simp [tokenizeF, skipWs_start ']' z (by decide) (by decide) (by decide)]

theorem tokenizeF_step_eq (f : Nat) (z : List Char) :
    tokenizeF (f + 1) ('=' :: z) = (tokenizeF f z).map (Tok.eqT :: ·) := by
  simp [tokenizeF, skipWs_start '=' z (by decide) (by decide) (by decide)]

theorem tokenizeF_step_comma (f : Nat) (z : List Char) :
    tokenizeF (f + 1) (',' :: z) = (tokenizeF f z).map (Tok.comma :: ·) := by
  simp [tokenizeF, skipWs_start ',' z (by decide) (by decide) (by decide)]

theorem tokenizeF_step_semi (f : Nat) (z : List Char) :
    tokenizeF (f + 1) (';' :: z) = (tokenizeF f z).map (Tok.semi :: ·) := by
  simp [tokenizeF, skipWs_start ';' z (by decide) (by decide) (by decide)]

theorem tokenizeF_step_colon (f : Nat) (z : List Char) :
    tokenizeF (f + 1) (':' :: z) = (tokenizeF f z).map (Tok.colon :: ·) := by
  simp [tokenizeF, skipWs_start ':' z (by decide) (by decide) (by decide)]

theorem tokenizeF_step_arrow (f : Nat) (z : List Char) :
    tokenizeF (f + 1) ('-' :: '>' :: z) =
      (tokenizeF f z).map (Tok.edgeop "->" :: ·) := by
  simp [tokenizeF, skipWs_start '-' ('>' :: z) (by decide) (by decide) (by decide)]

theorem tokenizeF_step_ddash (f : Nat) (z : List Char) :
    tokenizeF (f + 1) ('-' :: '-' :: z) =
      (tokenizeF f z).map (Tok.edgeop "--" :: ·) := by
  simp [tokenizeF, skipWs_start '-' ('-' :: z) (by decide) (by decide) (by decide)]

theorem tok_text_ne_nil (t : Tok) (h : t.lexOk = true) : t.text ≠ [] := by
  cases t with
  | idT i =>
    cases i with
    | Plain s =>
      rw [Tok.lexOk, Id.lexOk] at h
      intro hnil
      rw [show Tok.text (.idT (.Plain s)) = s.data from rfl] at hnil
      rw [hnil] at h
      exact absurd h (by decide)
    | Escaped s =>
      rw [Tok.lexOk, Id.lexOk] at h
      intro hnil
      rw [show Tok.text (.idT (.Escaped s)) = s.data from rfl] at hnil
      rw [hnil] at h
      exact absurd h (by decide)
    | Html s =>
      rw [Tok.lexOk, Id.lexOk] at h
      intro hnil
      rw [show Tok.text (.idT (.Html s)) = s.data from rfl] at hnil
      rw [hnil] at h
      exact absurd h (by decide)
    | Anonymous s =>
      rw [Tok.lexOk, Id.lexOk] at h
      simp at h
  | edgeop b =>
    rw [Tok.lexOk, Bool.or_eq_true, beq_iff_eq, beq_iff_eq] at h
    rcases h with rfl | rfl <;> intro hnil <;> exact absurd hnil (by decide)
  | lbrace => intro hnil; exact absurd hnil (by decide)
  | rbrace => intro hnil; exact absurd hnil (by decide)
  | lbrack => intro hnil; exact absurd hnil (by decide)
  | rbrack => intro hnil; exact absurd hnil (by decide)
  | eqT => intro hnil; exact absurd hnil (by decide)
  | comma => intro hnil; exact absurd hnil (by decide)
  | semi => intro hnil; exact absurd hnil (by decide)
  | colon => intro hnil; exact absurd hnil (by decide)

theorem chunks_length_le (l : List Chunk) (h : chunksOkFrom l []) :
    l.length ≤ (chunksFlat l).length := by
  induction l with
  | nil => simp [chunksFlat]
  | cons hd rest ih =>
    obtain ⟨ws, t⟩ := hd
    rw [chunksOkFrom] at h
    have hne := tok_text_ne_nil t h.2.1
    have htl : 1 ≤ t.text.length := by
      cases htt : t.text with
      | nil => exact absurd htt hne
      | cons a b => simp
    have hrec := ih h.2.2.2
    rw [chunksFlat]
    simp only [List.length_append, List.length_cons]
    omega

theorem tokenizeF_chunks : ∀ (l : List Chunk) (f : Nat), chunksOkFrom l [] →
    l.length + 1 ≤ f → tokenizeF f (chunksFlat l) = .ok (chunksToks l) := by
  intro l
  induction l with
  | nil =>
    intro f h hf
    cases f with
    | zero => omega
    | succ f => rfl
  | cons hd rest ih =>
    obtain ⟨ws, t⟩ := hd
    intro f h hf
    rw [chunksOkFrom] at h
    obtain ⟨hws, hlex, hsep, hrest⟩ := h
    cases f with
    | zero => simp at hf
    | succ f =>
      have hf2 : rest.length + 1 ≤ f := by
        rw [List.length_cons] at hf
        omega
      rw [List.append_nil] at hsep
      rw [chunksFlat, List.append_assoc, tokenizeF_ws_append f ws _ hws]
      cases t with
      | idT i =>
        cases i with
        | Plain s =>
          rw [Tok.lexOk, Id.lexOk, plainLexOk, Bool.or_eq_true] at hlex
          have hsafe : headSafe (chunksFlat rest) := hsep
          rcases hlex with hid | hnum
          · cases hsd : s.data with
            | nil => rw [hsd] at hid; simp [identTextOk] at hid
            | cons c tl =>
              rw [hsd, identTextOk, Bool.and_eq_true] at hid
              obtain ⟨hc, htl⟩ := hid
              have hc2 : c.isAlpha = true ∨ c = '_' := by
                rw [Bool.or_eq_true, decide_eq_true_eq] at hc
                exact hc
              rw [show Tok.text (.idT (.Plain s)) = s.data from rfl, hsd,
                tokenizeF_step_ident f c tl _ hc2 htl hsafe, ih f hrest hf2,
                ← hsd, string_mk_data]
              rfl
          · rw [numTextOk] at hnum
            cases hsd : s.data with
            | nil => rw [hsd] at hnum; simp [numBodyOk] at hnum
            | cons c tl =>
              rw [hsd] at hnum
              by_cases hm : c = '-'
              · subst hm
                rw [if_pos (show ('-' :: tl : List Char).head? = some '-' from rfl),
                  List.tail_cons] at hnum
                rw [show Tok.text (.idT (.Plain s)) = s.data from rfl, hsd,
                  tokenizeF_step_minus f tl _ hnum hsafe, ih f hrest hf2,
                  ← hsd, string_mk_data]
                rfl
              · have hcond : ¬((c :: tl : List Char).head? = some '-') := by
                  rw [List.head?_cons]
                  intro hh
                  rw [Option.some.injEq] at hh
                  exact hm hh
                rw [if_neg hcond] at hnum
                rcases numBodyOk_cases _ hnum with ⟨t2, heq, hne2, hall2⟩ |
                  ⟨d, t2, heq, hd, hform⟩
                · rw [List.cons.injEq] at heq
                  obtain ⟨rfl, htl2⟩ := heq
                  subst htl2
                  rw [show Tok.text (.idT (.Plain s)) = s.data from rfl, hsd,
                    tokenizeF_step_dot f tl _ hne2 hall2 hsafe, ih f hrest hf2,
                    ← hsd, string_mk_data]
                  rfl
                · rw [List.cons.injEq] at heq
                  obtain ⟨heqc, htl2⟩ := heq
                  subst heqc
                  subst htl2
                  rw [show Tok.text (.idT (.Plain s)) = s.data from rfl, hsd,
                    tokenizeF_step_digit f c tl _ hd hform hsafe, ih f hrest hf2,
                    ← hsd, string_mk_data]
                  rfl
        | Escaped s =>
          rw [Tok.lexOk, Id.lexOk, escLexOk, Bool.and_eq_true, beq_iff_eq,
            beq_iff_eq] at hlex
          obtain ⟨hq, hse⟩ := hlex
          cases hsd : s.data with
          | nil => rw [hsd] at hq; simp at hq
          | cons c body =>
            rw [hsd, List.head?_cons, Option.some.injEq] at hq
            subst hq
            rw [hsd, List.tail_cons] at hse
            rw [show Tok.text (.idT (.Escaped s)) = s.data from rfl, hsd,
              tokenizeF_step_quote f body _ hse, ih f hrest hf2,
              ← hsd, string_mk_data]
            rfl
        | Html s =>
          rw [Tok.lexOk, Id.lexOk, htmlLexOk, Bool.and_eq_true, beq_iff_eq,
            beq_iff_eq] at hlex
          obtain ⟨hq, hse⟩ := hlex
          cases hsd : s.data with
          | nil => rw [hsd] at hq; simp at hq
          | cons c body =>
            rw [hsd, List.head?_cons, Option.some.injEq] at hq
            subst hq
            rw [hsd, List.tail_cons] at hse
            rw [show Tok.text (.idT (.Html s)) = s.data from rfl, hsd,
              tokenizeF_step_html f body _ hse, ih f hrest hf2,
              ← hsd, string_mk_data]
            rfl
        | Anonymous s =>
          rw [Tok.lexOk, Id.lexOk] at hlex
          simp at hlex
      | lbrace =>
        rw [show Tok.text Tok.lbrace = ['\x7b'] from rfl, List.singleton_append,
          tokenizeF_step_lbrace f _, ih f hrest hf2]
        rfl
      | rbrace =>
        rw [show Tok.text Tok.rbrace = ['\x7d'] from rfl, List.singleton_append,
          tokenizeF_step_rbrace f _, ih f hrest hf2]
        rfl
      | lbrack =>
        rw [show Tok.text Tok.lbrack = ['['] from rfl, List.singleton_append,
          tokenizeF_step_lbrack f _, ih f hrest hf2]
        rfl
      | rbrack =>
        rw [show Tok.text Tok.rbrack = [']'] from rfl, List.singleton_append,
          tokenizeF_step_rbrack f _, ih f hrest hf2]
        rfl
      | eqT =>
        rw [show Tok.text Tok.eqT = ['='] from rfl, List.singleton_append,
          tokenizeF_step_eq f _, ih f hrest hf2]
        rfl
      | comma =>
        rw [show Tok.text Tok.comma = [','] from rfl, List.singleton_append,
          tokenizeF_step_comma f _, ih f hrest hf2]
        rfl
      | semi =>
        rw [show Tok.text Tok.semi = [';'] from rfl, List.singleton_append,
          tokenizeF_step_semi f _, ih f hrest hf2]
        rfl
      | colon =>
        rw [show Tok.text Tok.colon = [':'] from rfl, List.singleton_append,
          tokenizeF_step_colon f _, ih f hrest hf2]
        rfl
      | edgeop b =>
        rw [Tok.lexOk, Bool.or_eq_true, beq_iff_eq, beq_iff_eq] at hlex
        rcases hlex with rfl | rfl
        · rw [show Tok.text (.edgeop "->") = ['-', '>'] from rfl,
            show (['-', '>'] : List Char) ++ chunksFlat rest =
              '-' :: '>' :: chunksFlat rest from rfl,
            tokenizeF_step_arrow f _, ih f hrest hf2]
          rfl
        · rw [show Tok.text (.edgeop "--") = ['-', '-'] from rfl,
            show (['-', '-'] : List Char) ++ chunksFlat rest =
              '-' :: '-' :: chunksFlat rest from rfl,
            tokenizeF_step_ddash f _, ih f hrest hf2]
          rfl

/-- The tokenizer maps the flattening of any well-separated chunk list to
its token list. -/
theorem tokenize_chunks (l : List Chunk) (h : chunksOkFrom l []) :
    tokenize (chunksFlat l) = .ok (chunksToks l) := by
  rw [tokenize]
  refine tokenizeF_chunks l _ h ?_
  have := chunks_length_le l h
  omega

/-! ## The round-trip fragment (claim C1)

`rtOk` carves out the fragment of the model on which printing is faithful:
lexically valid non-keyword ids, disambiguated ports, nonempty
attribute-statement lists, chains of at least three vertices, and edges
between plain node ids (edge endpoints that are subgraphs are excluded —
the inline compaction re-render fuses their bare nodes, see the
counterexample). -/

/-- The six keywords, compared case-insensitively. -/
def dotKeywords : List String :=
  ["graph", "digraph", "subgraph", "strict", "node", "edge"]

/-- Is this id not a (case-insensitive) keyword? -/
def Id.nonKeyword : Id → Bool
  | .Plain s => !(dotKeywords.contains (lowerStr s))
  | _ => true

/-- Is this id not a lone compass token? -/
def Id.noCompass : Id → Bool
  | .Plain s => !(compassTokens.contains s)
  | _ => true

/-- An id that re-tokenizes to itself and is not a keyword. -/
def Id.rtOk (i : Id) : Bool :=
  i.lexOk && i.nonKeyword

/-- A port that re-parses to itself: a lone `Plain` id must not spell a
compass token, and a compass component must be one of the ten tokens. -/
def Port.rtOk : Port → Bool
  | ⟨some i, none⟩ => i.rtOk && i.noCompass
  | ⟨some i, some c⟩ => i.rtOk && compassTokens.contains c
  | ⟨none, some c⟩ => compassTokens.contains c
  | ⟨none, none⟩ => false

/-- A node id in the round-trip fragment. -/
def NodeId.rtOk : NodeId → Bool
  | ⟨i, some p⟩ => i.rtOk && p.rtOk
  | ⟨i, none⟩ => i.rtOk

/-- An attribute in the round-trip fragment. -/
def Attribute.rtOk (a : Attribute) : Bool :=
  a.key.rtOk && a.value.rtOk

/-- All attributes in the round-trip fragment. -/
def attrsRtOk : List Attribute → Bool
  | [] => true
  | a :: rest => a.rtOk && attrsRtOk rest

/-- Chain vertices: plain node ids only. -/
def vsNRtOk : List Vertex → Bool
  | [] => true
  | .N a :: rest => a.rtOk && vsNRtOk rest
  | .S _ :: _ => false

/-- An edge shape in the round-trip fragment: node-id endpoints, and a
chain of at least three vertices. -/
def edgeTyRtOk : EdgeTy → Bool
  | .Pair (.N a) (.N b) => a.rtOk && b.rtOk
  | .Pair _ _ => false
  | .Chain vs => decide (3 ≤ vs.length) && vsNRtOk vs

/-- An edge in the round-trip fragment. -/
def Edge.rtOk (e : Edge) : Bool :=
  edgeTyRtOk e.ty && attrsRtOk e.attributes

mutual

/-- A statement in the round-trip fragment. -/
def Stmt.rtOk : Stmt → Bool
  | .Node nd => nd.id.rtOk && attrsRtOk nd.attributes
  | .Attribute a => a.rtOk
  | .GAttribute (.Graph l) => !l.isEmpty && attrsRtOk l
  | .GAttribute (.Node l) => !l.isEmpty && attrsRtOk l
  | .GAttribute (.Edge l) => !l.isEmpty && attrsRtOk l
  | .Subgraph sg => sg.rtOk
  | .Edge e => e.rtOk
termination_by structural s => s

/-- A subgraph in the round-trip fragment. -/
def Subgraph.rtOk : Subgraph → Bool
  | .mk id stmts => id.rtOk && stmtsRtOk stmts
termination_by structural sg => sg

/-- All statements in the round-trip fragment. -/
def stmtsRtOk : List Stmt → Bool
  | [] => true
  | s :: rest => s.rtOk && stmtsRtOk rest
termination_by structural l => l

end

/-- A graph in the round-trip fragment. -/
def Graph.rtOk : Dot.Graph → Bool
  | .Graph id _ stmts => id.rtOk && stmtsRtOk stmts
  | .DiGraph id _ stmts => id.rtOk && stmtsRtOk stmts

/-! Chunk decompositions of every printed construct. -/

/-- `n` spaces. -/
def spacesC (n : Nat) : List Char := List.replicate n ' '

/-- Chunks of a printed port after its leading colon. -/
def portTailChunks : Port → List Chunk
  | ⟨some i, some c⟩ => [([], .idT i), ([], .colon), ([], .idT (.Plain c))]
  | ⟨some i, none⟩ => [([], .idT i)]
  | ⟨none, some c⟩ => [([], .idT (.Plain c))]
  | ⟨none, none⟩ => []

/-- Chunks of a printed node id. -/
def nodeIdChunks (n : NodeId) : List Chunk :=
  ([], .idT n.id) :: (match n.port with
    | some p => ([], .colon) :: portTailChunks p
    | none => [])

/-- Chunks of one printed attribute. -/
def attrChunks (a : Attribute) : List Chunk :=
  [([], .idT a.key), ([], .eqT), ([], .idT a.value)]

/-- Chunks of a comma-joined attribute sequence. -/
def attrsBodyChunks : List Attribute → List Chunk
  | [] => []
  | [a] => attrChunks a
  | a :: rest => attrChunks a ++ ([], .comma) :: attrsBodyChunks rest

/-- Chunks of a printed bracketed attribute list (empty list: no output). -/
def attrsChunks (l : List Attribute) : List Chunk :=
  if l.isEmpty then []
  else ([], .lbrack) :: (attrsBodyChunks l ++ [([], .rbrack)])

/-- Chunks of an edge vertex (node ids only in the fragment). -/
def vChunks : Vertex → List Chunk
  | .N n => nodeIdChunks n
  | .S _ => []

/-- Chunks of the printed tail of an edge chain. -/
def chainChunks (bond : String) : List Vertex → List Chunk
  | [] => []
  | v :: rest =>
      ([' '], .edgeop bond) ::
        (wsCons [' '] (vChunks v) ++ chainChunks bond rest)

/-- Chunks of a printed edge statement. -/
def edgeChunks (bond : String) (ty : EdgeTy) (attrs : List Attribute) :
    List Chunk :=
  match ty with
  | .Pair a b =>
      vChunks a ++ ([' '], .edgeop bond) ::
        (wsCons [' '] (vChunks b) ++
          (if attrs.isEmpty then [] else wsCons [' '] (attrsChunks attrs)))
  | .Chain [] => []
  | .Chain (h :: t) => vChunks h ++ chainChunks bond t ++ attrsChunks attrs

/-- Whitespace before a closing brace: an extra blank line when the body
is empty (the printed body is the empty string between two separators). -/
def closeWs (n : Nat) (stmts : List Stmt) : List Char :=
  match stmts with
  | [] => '\n' :: '\n' :: spacesC n
  | _ => '\n' :: spacesC n

mutual

/-- Chunks of one printed statement (without its leading indent). -/
def stmtChunks (n step : Nat) (bond : String) : Stmt → List Chunk
  | .Node nd => nodeIdChunks nd.id ++ attrsChunks nd.attributes
  | .Attribute a => attrChunks a
  | .GAttribute (.Graph l) => ([], .idT (.Plain "graph")) :: attrsChunks l
  | .GAttribute (.Node l) => ([], .idT (.Plain "node")) :: attrsChunks l
  | .GAttribute (.Edge l) => ([], .idT (.Plain "edge")) :: attrsChunks l
  | .Edge e => edgeChunks bond e.ty e.attributes
  | .Subgraph sg => subgraphChunks n step bond sg
termination_by structural s => s

/-- Chunks of a printed subgraph at indent `n`. -/
def subgraphChunks (n step : Nat) (bond : String) : Subgraph → List Chunk
  | .mk id stmts =>
      ([], .idT (.Plain "subgraph")) :: ([' '], .idT id) :: ([' '], .lbrace) ::
        (stmtsChunks (n + step) step bond stmts ++ [(closeWs n stmts, .rbrace)])
termination_by structural sg => sg

/-- Chunks of a printed statement list: every statement preceded by a
newline and its indent. -/
def stmtsChunks (n step : Nat) (bond : String) : List Stmt → List Chunk
  | [] => []
  | s :: rest =>
      wsCons ('\n' :: spacesC n) (stmtChunks n step bond s) ++
        stmtsChunks n step bond rest
termination_by structural l => l

end

/-- Whitespace before the top-level closing brace. -/
def graphCloseWs (stmts : List Stmt) : List Char :=
  match stmts with
  | [] => ['\n', '\n']
  | _ => ['\n']

/-- Chunks of a whole printed graph (entry indent `n`). -/
def graphChunks (n step : Nat) (g : Dot.Graph) : List Chunk :=
  match g with
  | .Graph id strict stmts =>
      (if strict then
        [([], .idT (.Plain "strict")), ([' '], .idT (.Plain "graph"))]
       else [([], .idT (.Plain "graph"))]) ++
      ([' '], .idT id) :: ([' '], .lbrace) ::
        (stmtsChunks (n + step) step "--" stmts ++ [(graphCloseWs stmts, .rbrace)])
  | .DiGraph id strict stmts =>
      (if strict then
        [([], .idT (.Plain "strict")), ([' '], .idT (.Plain "digraph"))]
       else [([], .idT (.Plain "digraph"))]) ++
      ([' '], .idT id) :: ([' '], .lbrace) ::
        (stmtsChunks (n + step) step "->" stmts ++ [(graphCloseWs stmts, .rbrace)])

theorem sepOk_any (t : Tok) (cs : List Char) (h : headSafe cs) : sepOk t cs := by
  cases t with
  | idT i =>
    cases i with
    | Plain s => exact h
    | Escaped s => trivial
    | Html s => trivial
    | Anonymous s => trivial
  | lbrace => trivial
  | rbrace => trivial
  | lbrack => trivial
  | rbrack => trivial
  | eqT => trivial
  | comma => trivial
  | semi => trivial
  | colon => trivial
  | edgeop b => trivial

theorem headSafe_cons_of (c : Char) (cs : List Char) (h1 : isIdChar c = false)
    (h2 : c ≠ '.') : headSafe (c :: cs) := by
  intro c' hc'
  rw [List.head?_cons, Option.some.injEq] at hc'
  subst hc'
  exact ⟨h1, h2⟩

theorem compass_tok_lexOk (c : String) (h : compassTokens.contains c = true) :
    Tok.lexOk (.idT (.Plain c)) = true := by
  have h' : c ∈ compassTokens := by simpa using h
  rw [compassTokens] at h'
  simp only [List.mem_cons, List.not_mem_nil, or_false] at h'
  rcases h' with rfl | rfl | rfl | rfl | rfl | rfl | rfl | rfl | rfl | rfl <;> decide

theorem id_rtOk_lexOk (i : Id) (h : i.rtOk = true) : i.lexOk = true := by
  rw [Id.rtOk, Bool.and_eq_true] at h
  exact h.1

theorem portTailChunks_ok (p : Port) (suff : List Char) (hp : p.rtOk = true)
    (hsuff : headSafe suff) : chunksOkFrom (portTailChunks p) suff := by
  obtain ⟨pid, pc⟩ := p
  cases pid with
  | some i =>
    cases pc with
    | some c =>
      rw [Port.rtOk, Bool.and_eq_true] at hp
      rw [portTailChunks, chunksOkFrom]
      refine ⟨rfl, id_rtOk_lexOk i hp.1, ?_, ?_⟩
      · refine sepOk_any _ _ ?_
        intro c' hc'
        simp [chunksFlat, Tok.text] at hc'
        subst hc'
        exact ⟨by decide, by decide⟩
      · rw [chunksOkFrom]
        refine ⟨rfl, rfl, trivial, ?_⟩
        rw [chunksOkFrom]
        refine ⟨rfl, compass_tok_lexOk c hp.2, ?_, trivial⟩
        refine sepOk_any _ _ ?_
        simpa [chunksFlat] using hsuff
    | none =>
      rw [Port.rtOk, Bool.and_eq_true] at hp
      rw [portTailChunks, chunksOkFrom]
      refine ⟨rfl, id_rtOk_lexOk i hp.1, ?_, trivial⟩
      refine sepOk_any _ _ ?_
      simpa [chunksFlat] using hsuff
  | none =>
    cases pc with
    | some c =>
      rw [Port.rtOk] at hp
      rw [portTailChunks, chunksOkFrom]
      refine ⟨rfl, compass_tok_lexOk c hp, ?_, trivial⟩
      refine sepOk_any _ _ ?_
      simpa [chunksFlat] using hsuff
    | none =>
      rw [Port.rtOk] at hp
      simp at hp

theorem nodeIdChunks_ok (n : NodeId) (suff : List Char) (hn : n.rtOk = true)
    (hsuff : headSafe suff) : chunksOkFrom (nodeIdChunks n) suff := by
  obtain ⟨i, pt⟩ := n
  cases pt with
  | none =>
    rw [NodeId.rtOk] at hn
    rw [nodeIdChunks, chunksOkFrom]
    refine ⟨rfl, id_rtOk_lexOk i hn, ?_, trivial⟩
    refine sepOk_any _ _ ?_
    simpa [chunksFlat] using hsuff
  | some p =>
    rw [NodeId.rtOk, Bool.and_eq_true] at hn
    rw [nodeIdChunks, chunksOkFrom]
    refine ⟨rfl, id_rtOk_lexOk i hn.1, ?_, ?_⟩
    · refine sepOk_any _ _ ?_
      intro c' hc'
      simp [chunksFlat, Tok.text] at hc'
      subst hc'
      exact ⟨by decide, by decide⟩
    · rw [chunksOkFrom]
      refine ⟨rfl, rfl, trivial, ?_⟩
      exact portTailChunks_ok p suff hn.2 hsuff

theorem attrChunks_ok (a : Attribute) (suff : List Char) (ha : a.rtOk = true)
    (hsuff : headSafe suff) : chunksOkFrom (attrChunks a) suff := by
  rw [Attribute.rtOk, Bool.and_eq_true] at ha
  rw [attrChunks, chunksOkFrom]
  refine ⟨rfl, id_rtOk_lexOk _ ha.1, ?_, ?_⟩
  · refine sepOk_any _ _ ?_
    intro c' hc'
    simp [chunksFlat, Tok.text] at hc'
    subst hc'
    exact ⟨by decide, by decide⟩
  · rw [chunksOkFrom]
    refine ⟨rfl, rfl, trivial, ?_⟩
    rw [chunksOkFrom]
    refine ⟨rfl, id_rtOk_lexOk _ ha.2, ?_, trivial⟩
    refine sepOk_any _ _ ?_
    simpa [chunksFlat] using hsuff

theorem attrsBodyChunks_ok (l : List Attribute) (suff : List Char)
    (hl : attrsRtOk l = true) (hsuff : headSafe suff) :
    chunksOkFrom (attrsBodyChunks l) suff := by
  induction l with
  | nil => trivial
  | cons a rest ih =>
    rw [attrsRtOk, Bool.and_eq_true] at hl
    cases rest with
    | nil => exact attrChunks_ok a suff hl.1 hsuff
    | cons b t =>
      rw [show attrsBodyChunks (a :: b :: t) =
        attrChunks a ++ ([], Tok.comma) :: attrsBodyChunks (b :: t) from rfl]
      refine chunksOkFrom_append _ _ _ ?_ ?_
      · refine attrChunks_ok a _ hl.1 ?_
        intro c' hc'
        simp [chunksFlat, Tok.text] at hc'
        subst hc'
        exact ⟨by decide, by decide⟩
      · rw [chunksOkFrom]
        exact ⟨rfl, rfl, trivial, ih hl.2⟩

theorem attrsChunks_ok (l : List Attribute) (suff : List Char)
    (hl : attrsRtOk l = true) (hsuff : headSafe suff) :
    chunksOkFrom (attrsChunks l) suff := by
  rw [attrsChunks]
  split
  · trivial
  · rw [chunksOkFrom]
    refine ⟨rfl, rfl, trivial, ?_⟩
    refine chunksOkFrom_append _ _ _ ?_ ?_
    · refine attrsBodyChunks_ok l _ hl ?_
      intro c' hc'
      simp [chunksFlat, Tok.text] at hc'
      subst hc'
      exact ⟨by decide, by decide⟩
    · rw [chunksOkFrom]
      exact ⟨rfl, rfl, trivial, trivial⟩

theorem headSafe_attrsChunks (l : List Attribute) (suff : List Char)
    (hsuff : headSafe suff) :
    headSafe (chunksFlat (attrsChunks l) ++ suff) := by
  rw [attrsChunks]
  split
  · simpa [chunksFlat] using hsuff
  · intro c' hc'
    simp [chunksFlat, Tok.text] at hc'
    subst hc'
    exact ⟨by decide, by decide⟩

theorem spacesC_ws (n : Nat) : (spacesC n).all isWsChar = true := by
  induction n with
  | zero => rfl
  | succ k ih =>
    rw [spacesC, List.replicate_succ, List.all_cons]
    rw [spacesC] at ih
    rw [ih]
    rfl

theorem headSafe_attrsChunks_ne (l : List Attribute) (suff : List Char)
    (hne : l.isEmpty = false) :
    headSafe (chunksFlat (attrsChunks l) ++ suff) := by
  rw [attrsChunks, if_neg (by simp [hne])]
  intro c' hc'
  simp [chunksFlat, Tok.text] at hc'
  subst hc'
  exact ⟨by decide, by decide⟩

theorem nodeIdChunks_ne_nil (n : NodeId) : nodeIdChunks n ≠ [] := by
  rw [nodeIdChunks]
  simp

theorem chainChunks_ok (bond : String) (vs : List Vertex) (suff : List Char)
    (hb : Tok.lexOk (.edgeop bond) = true) (hvs : vsNRtOk vs = true)
    (hsuff : headSafe suff) : chunksOkFrom (chainChunks bond vs) suff := by
  induction vs with
  | nil => trivial
  | cons v rest ih =>
    cases v with
    | S s => rw [vsNRtOk] at hvs; simp at hvs
    | N nv =>
      rw [vsNRtOk, Bool.and_eq_true] at hvs
      rw [chainChunks, chunksOkFrom]
      refine ⟨rfl, hb, trivial, ?_⟩
      refine chunksOkFrom_append _ _ _ ?_ ?_
      · refine wsCons_ok _ _ _ (by decide) ?_
        rw [show vChunks (.N nv) = nodeIdChunks nv from rfl]
        refine nodeIdChunks_ok nv _ hvs.1 ?_
        cases rest with
        | nil => simpa [chainChunks, chunksFlat] using hsuff
        | cons v2 r2 =>
          intro c' hc'
          simp [chainChunks, chunksFlat] at hc'
          subst hc'
          exact ⟨by decide, by decide⟩
      · exact ih hvs.2

theorem edgeChunks_ok (bond : String) (ty : EdgeTy) (attrs : List Attribute)
    (suff : List Char) (hb : Tok.lexOk (.edgeop bond) = true)
    (hty : edgeTyRtOk ty = true) (hattrs : attrsRtOk attrs = true)
    (hsuff : headSafe suff) :
    chunksOkFrom (edgeChunks bond ty attrs) suff := by
  cases ty with
  | Pair a b =>
    cases a with
    | S sa =>
      cases b with
      | N nb => rw [show edgeTyRtOk (.Pair (.S sa) (.N nb)) = false from rfl] at hty; simp at hty
      | S sb => rw [show edgeTyRtOk (.Pair (.S sa) (.S sb)) = false from rfl] at hty; simp at hty
    | N na =>
      cases b with
      | S sb => rw [show edgeTyRtOk (.Pair (.N na) (.S sb)) = false from rfl] at hty; simp at hty
      | N nb =>
        rw [show edgeTyRtOk (.Pair (.N na) (.N nb)) = (na.rtOk && nb.rtOk) from rfl,
          Bool.and_eq_true] at hty
        rw [edgeChunks]
        refine chunksOkFrom_append _ _ _ ?_ ?_
        · rw [show vChunks (.N na) = nodeIdChunks na from rfl]
          refine nodeIdChunks_ok na _ hty.1 ?_
          intro c' hc'
          simp [chunksFlat] at hc'
          subst hc'
          exact ⟨by decide, by decide⟩
        · rw [chunksOkFrom]
          refine ⟨rfl, hb, trivial, ?_⟩
          refine chunksOkFrom_append _ _ _ ?_ ?_
          · refine wsCons_ok _ _ _ (by decide) ?_
            rw [show vChunks (.N nb) = nodeIdChunks nb from rfl]
            refine nodeIdChunks_ok nb _ hty.2 ?_
            cases hae : attrs.isEmpty with
            | true => rw [if_pos rfl]; simpa [chunksFlat] using hsuff
            | false =>
              rw [if_neg (by simp)]
              have hflat : attrsChunks attrs ≠ [] := by
                rw [attrsChunks, if_neg (by simp [hae])]
                simp
              rw [wsCons_flat _ _ hflat]
              intro c' hc'
              simp at hc'
              subst hc'
              exact ⟨by decide, by decide⟩
          · cases hae : attrs.isEmpty with
            | true => rw [if_pos rfl]; trivial
            | false =>
              rw [if_neg (by simp)]
              refine wsCons_ok _ _ _ (by decide) ?_
              exact attrsChunks_ok attrs suff hattrs hsuff
  | Chain vs =>
    rw [show edgeTyRtOk (.Chain vs) = (decide (3 ≤ vs.length) && vsNRtOk vs) from rfl,
      Bool.and_eq_true, decide_eq_true_eq] at hty
    cases vs with
    | nil => simp at hty
    | cons hv t =>
      cases hv with
      | S s => rw [vsNRtOk] at hty; simp at hty
      | N nh =>
        have hvs := hty.2
        rw [vsNRtOk, Bool.and_eq_true] at hvs
        have ht2 : ∃ v2 t2, t = v2 :: t2 := by
          cases t with
          | nil => exfalso; have := hty.1; simp at this
          | cons v2 t2 => exact ⟨v2, t2, rfl⟩
        rw [edgeChunks]
        refine chunksOkFrom_append _ _ _ ?_ ?_
        · refine chunksOkFrom_append _ _ _ ?_ ?_
          · rw [show vChunks (.N nh) = nodeIdChunks nh from rfl]
            refine nodeIdChunks_ok nh _ hvs.1 ?_
            obtain ⟨v2, t2, rfl⟩ := ht2
            intro c' hc'
            simp [chainChunks, chunksFlat] at hc'
            subst hc'
            exact ⟨by decide, by decide⟩
          · exact chainChunks_ok bond t _ hb hvs.2
              (headSafe_attrsChunks attrs suff hsuff)
        · exact attrsChunks_ok attrs suff hattrs hsuff

theorem stmtChunks_ne_nil (n step : Nat) (bond : String) (s : Stmt)
    (h : Stmt.rtOk s = true) : stmtChunks n step bond s ≠ [] := by
  cases s with
  | Node nd => rw [stmtChunks, nodeIdChunks]; simp
  | Attribute a => rw [stmtChunks, attrChunks]; simp
  | GAttribute g => cases g <;> (rw [stmtChunks]; simp)
  | Subgraph sg =>
    cases sg with
    | mk id stmts => rw [stmtChunks, subgraphChunks]; simp
  | Edge e =>
    cases e with
    | mk ty attrs =>
      rw [show Stmt.rtOk (.Edge (.mk ty attrs)) =
        (edgeTyRtOk ty && attrsRtOk attrs) from rfl, Bool.and_eq_true] at h
      rw [show stmtChunks n step bond (.Edge (.mk ty attrs)) =
        edgeChunks bond ty attrs from rfl]
      cases ty with
      | Pair a b => rw [edgeChunks]; simp
      | Chain vs =>
        cases vs with
        | nil =>
          exfalso
          have := h.1
          rw [show edgeTyRtOk (.Chain []) =
            (decide (3 ≤ ([] : List Vertex).length) && vsNRtOk []) from rfl] at this
          simp at this
        | cons hv t =>
          cases hv with
          | S s2 =>
            exfalso
            have := h.1
            rw [show edgeTyRtOk (.Chain (.S s2 :: t)) =
              (decide (3 ≤ (Vertex.S s2 :: t).length) && vsNRtOk (.S s2 :: t)) from rfl] at this
            rw [show vsNRtOk (.S s2 :: t) = false from rfl] at this
            simp at this
          | N nh =>
            rw [edgeChunks, show vChunks (.N nh) = nodeIdChunks nh from rfl,
              nodeIdChunks]
            simp

theorem headSafe_stmtsChunks (l : List Stmt) (n step : Nat) (bond : String)
    (suff : List Char) (hl : stmtsRtOk l = true) (hsuff : headSafe suff) :
    headSafe (chunksFlat (stmtsChunks n step bond l) ++ suff) := by
  cases l with
  | nil => simpa [stmtsChunks, chunksFlat] using hsuff
  | cons s rest =>
    rw [stmtsRtOk, Bool.and_eq_true] at hl
    rw [stmtsChunks, chunksFlat_append,
      wsCons_flat _ _ (stmtChunks_ne_nil n step bond s hl.1)]
    intro c' hc'
    simp at hc'
    subst hc'
    exact ⟨by decide, by decide⟩

theorem closeWs_ws (n : Nat) (stmts : List Stmt) :
    (closeWs n stmts).all isWsChar = true := by
  cases stmts with
  | nil =>
    rw [closeWs, List.all_cons, List.all_cons, spacesC_ws]
    rfl
  | cons s r =>
    rw [show closeWs n (s :: r) = '\n' :: spacesC n from rfl, List.all_cons,
      spacesC_ws]
    rfl

mutual

theorem stmtChunks_ok : ∀ (s : Stmt) (n step : Nat) (bond : String)
    (suff : List Char), Tok.lexOk (.edgeop bond) = true → Stmt.rtOk s = true →
    headSafe suff → chunksOkFrom (stmtChunks n step bond s) suff
  | .Node nd, n, step, bond, suff => by
    intro hb hs hsuff
    rw [show Stmt.rtOk (.Node nd) = (nd.id.rtOk && attrsRtOk nd.attributes) from rfl,
      Bool.and_eq_true] at hs
    rw [stmtChunks]
    refine chunksOkFrom_append _ _ _ ?_ ?_
    · exact nodeIdChunks_ok nd.id _ hs.1
        (headSafe_attrsChunks nd.attributes suff hsuff)
    · exact attrsChunks_ok nd.attributes suff hs.2 hsuff
  | .Attribute a, n, step, bond, suff => by
    intro hb hs hsuff
    rw [show Stmt.rtOk (.Attribute a) = a.rtOk from rfl] at hs
    rw [stmtChunks]
    exact attrChunks_ok a suff hs hsuff
  | .GAttribute (.Graph l), n, step, bond, suff => by
    intro hb hs hsuff
    rw [show Stmt.rtOk (.GAttribute (.Graph l)) = (!l.isEmpty && attrsRtOk l) from rfl,
      Bool.and_eq_true, Bool.not_eq_true'] at hs
    rw [stmtChunks, chunksOkFrom]
    refine ⟨rfl, by decide, ?_, attrsChunks_ok l suff hs.2 hsuff⟩
    exact sepOk_any _ _ (headSafe_attrsChunks_ne l suff hs.1)
  | .GAttribute (.Node l), n, step, bond, suff => by
    intro hb hs hsuff
    rw [show Stmt.rtOk (.GAttribute (.Node l)) = (!l.isEmpty && attrsRtOk l) from rfl,
      Bool.and_eq_true, Bool.not_eq_true'] at hs
    rw [stmtChunks, chunksOkFrom]
    refine ⟨rfl, by decide, ?_, attrsChunks_ok l suff hs.2 hsuff⟩
    exact sepOk_any _ _ (headSafe_attrsChunks_ne l suff hs.1)
  | .GAttribute (.Edge l), n, step, bond, suff => by
    intro hb hs hsuff
    rw [show Stmt.rtOk (.GAttribute (.Edge l)) = (!l.isEmpty && attrsRtOk l) from rfl,
      Bool.and_eq_true, Bool.not_eq_true'] at hs
    rw [stmtChunks, chunksOkFrom]
    refine ⟨rfl, by decide, ?_, attrsChunks_ok l suff hs.2 hsuff⟩
    exact sepOk_any _ _ (headSafe_attrsChunks_ne l suff hs.1)
  | .Edge (.mk ty attrs), n, step, bond, suff => by
    intro hb hs hsuff
    rw [show Stmt.rtOk (.Edge (.mk ty attrs)) =
      (edgeTyRtOk ty && attrsRtOk attrs) from rfl, Bool.and_eq_true] at hs
    rw [show stmtChunks n step bond (.Edge (.mk ty attrs)) =
      edgeChunks bond ty attrs from rfl]
    exact edgeChunks_ok bond ty attrs suff hb hs.1 hs.2 hsuff
  | .Subgraph sg, n, step, bond, suff => by
    intro hb hs hsuff
    rw [show Stmt.rtOk (.Subgraph sg) = sg.rtOk from rfl] at hs
    rw [stmtChunks]
    exact subgraphChunks_ok sg n step bond suff hb hs hsuff
termination_by structural s => s

theorem subgraphChunks_ok : ∀ (sg : Subgraph) (n step : Nat) (bond : String)
    (suff : List Char), Tok.lexOk (.edgeop bond) = true →
    Subgraph.rtOk sg = true → headSafe suff →
    chunksOkFrom (subgraphChunks n step bond sg) suff
  | .mk id stmts, n, step, bond, suff => by
    intro hb hs hsuff
    rw [show Subgraph.rtOk (.mk id stmts) = (id.rtOk && stmtsRtOk stmts) from rfl,
      Bool.and_eq_true] at hs
    rw [subgraphChunks, chunksOkFrom]
    refine ⟨rfl, by decide, ?_, ?_⟩
    · refine sepOk_any _ _ ?_
      intro c' hc'
      simp [chunksFlat] at hc'
      subst hc'
      exact ⟨by decide, by decide⟩
    · rw [chunksOkFrom]
      refine ⟨by decide, id_rtOk_lexOk id hs.1, ?_, ?_⟩
      · refine sepOk_any _ _ ?_
        intro c' hc'
        simp [chunksFlat] at hc'
        subst hc'
        exact ⟨by decide, by decide⟩
      · rw [chunksOkFrom]
        refine ⟨by decide, rfl, trivial, ?_⟩
        refine chunksOkFrom_append _ _ _ ?_ ?_
        · refine stmtsChunks_ok stmts (n + step) step bond _ hb hs.2 ?_
          intro c' hc'
          rw [show chunksFlat [(closeWs n stmts, Tok.rbrace)] =
            closeWs n stmts ++ ['\x7d'] ++ [] from rfl] at hc'
          cases stmts with
          | nil =>
            rw [closeWs] at hc'
            simp at hc'
            subst hc'
            exact ⟨by decide, by decide⟩
          | cons s2 r2 =>
            rw [show closeWs n (s2 :: r2) = '\n' :: spacesC n from rfl] at hc'
            simp at hc'
            subst hc'
            exact ⟨by decide, by decide⟩
        · rw [chunksOkFrom]
          exact ⟨closeWs_ws n stmts, rfl, trivial, trivial⟩
termination_by structural sg => sg

theorem stmtsChunks_ok : ∀ (l : List Stmt) (n step : Nat) (bond : String)
    (suff : List Char), Tok.lexOk (.edgeop bond) = true →
    stmtsRtOk l = true → headSafe suff →
    chunksOkFrom (stmtsChunks n step bond l) suff
  | [], n, step, bond, suff => by
    intro hb hl hsuff
    trivial
  | s :: rest, n, step, bond, suff => by
    intro hb hl hsuff
    rw [stmtsRtOk, Bool.and_eq_true] at hl
    rw [stmtsChunks]
    refine chunksOkFrom_append _ _ _ ?_ ?_
    · refine wsCons_ok _ _ _ (by rw [List.all_cons, spacesC_ws]; rfl) ?_
      exact stmtChunks_ok s n step bond _ hb hl.1
        (headSafe_stmtsChunks rest n step bond suff hl.2 hsuff)
    · exact stmtsChunks_ok rest n step bond suff hb hl.2 hsuff
termination_by structural l => l

end

theorem graphChunks_ok (g : Dot.Graph) (n step : Nat)
    (h : Graph.rtOk g = true) : chunksOkFrom (graphChunks n step g) [] := by
  have hclose : ∀ (stmts : List Stmt) (bond : String),
      Tok.lexOk (.edgeop bond) = true → stmtsRtOk stmts = true →
      chunksOkFrom (stmtsChunks (n + step) step bond stmts ++
        [(graphCloseWs stmts, Tok.rbrace)]) [] := by
    intro stmts bond hb hstmts
    refine chunksOkFrom_append _ _ _ ?_ ?_
    · refine stmtsChunks_ok stmts (n + step) step bond _ hb hstmts ?_
      intro c' hc'
      rw [show chunksFlat [(graphCloseWs stmts, Tok.rbrace)] =
        graphCloseWs stmts ++ ['\x7d'] ++ [] from rfl] at hc'
      cases stmts with
      | nil =>
        rw [graphCloseWs] at hc'
        simp at hc'
        subst hc'
        exact ⟨by decide, by decide⟩
      | cons s2 r2 =>
        rw [show graphCloseWs (s2 :: r2) = ['\n'] from rfl] at hc'
        simp at hc'
        subst hc'
        exact ⟨by decide, by decide⟩
    · rw [chunksOkFrom]
      refine ⟨?_, rfl, trivial, trivial⟩
      cases stmts with
      | nil => rfl
      | cons s2 r2 => rfl
  have hmid : ∀ (id : Id) (stmts : List Stmt) (bond : String),
      Tok.lexOk (.edgeop bond) = true → id.rtOk = true → stmtsRtOk stmts = true →
      chunksOkFrom (([' '], Tok.idT id) :: ([' '], Tok.lbrace) ::
        (stmtsChunks (n + step) step bond stmts ++
          [(graphCloseWs stmts, Tok.rbrace)])) [] := by
    intro id stmts bond hb hid hstmts
    rw [chunksOkFrom]
    refine ⟨by decide, id_rtOk_lexOk id hid, ?_, ?_⟩
    · refine sepOk_any _ _ ?_
      intro c' hc'
      simp [chunksFlat] at hc'
      subst hc'
      exact ⟨by decide, by decide⟩
    · rw [chunksOkFrom]
      exact ⟨by decide, rfl, trivial, hclose stmts bond hb hstmts⟩
  cases g with
  | Graph id strict stmts =>
    rw [show Graph.rtOk (.Graph id strict stmts) =
      (id.rtOk && stmtsRtOk stmts) from rfl, Bool.and_eq_true] at h
    rw [graphChunks]
    cases strict with
    | false =>
      rw [if_neg (by simp)]
      rw [List.singleton_append, chunksOkFrom]
      refine ⟨rfl, by decide, ?_, hmid id stmts "--" (by decide) h.1 h.2⟩
      refine sepOk_any _ _ ?_
      intro c' hc'
      simp [chunksFlat] at hc'
      subst hc'
      exact ⟨by decide, by decide⟩
    | true =>
      rw [if_pos rfl]
      rw [show ([([], Tok.idT (.Plain "strict")), ([' '], Tok.idT (.Plain "graph"))] ++
        ([' '], Tok.idT id) :: ([' '], Tok.lbrace) ::
          (stmtsChunks (n + step) step "--" stmts ++
            [(graphCloseWs stmts, Tok.rbrace)])) =
        ([], Tok.idT (.Plain "strict")) :: ([' '], Tok.idT (.Plain "graph")) ::
        ([' '], Tok.idT id) :: ([' '], Tok.lbrace) ::
          (stmtsChunks (n + step) step "--" stmts ++
            [(graphCloseWs stmts, Tok.rbrace)]) from rfl, chunksOkFrom]
      refine ⟨rfl, by decide, ?_, ?_⟩
      · refine sepOk_any _ _ ?_
        intro c' hc'
        simp [chunksFlat] at hc'
        subst hc'
        exact ⟨by decide, by decide⟩
      · rw [chunksOkFrom]
        refine ⟨by decide, by decide, ?_, hmid id stmts "--" (by decide) h.1 h.2⟩
        refine sepOk_any _ _ ?_
        intro c' hc'
        simp [chunksFlat] at hc'
        subst hc'
        exact ⟨by decide, by decide⟩
  | DiGraph id strict stmts =>
    rw [show Graph.rtOk (.DiGraph id strict stmts) =
      (id.rtOk && stmtsRtOk stmts) from rfl, Bool.and_eq_true] at h
    rw [graphChunks]
    cases strict with
    | false =>
      rw [if_neg (by simp)]
      rw [List.singleton_append, chunksOkFrom]
      refine ⟨rfl, by decide, ?_, hmid id stmts "->" (by decide) h.1 h.2⟩
      refine sepOk_any _ _ ?_
      intro c' hc'
      simp [chunksFlat] at hc'
      subst hc'
      exact ⟨by decide, by decide⟩
    | true =>
      rw [if_pos rfl]
      rw [show ([([], Tok.idT (.Plain "strict")), ([' '], Tok.idT (.Plain "digraph"))] ++
        ([' '], Tok.idT id) :: ([' '], Tok.lbrace) ::
          (stmtsChunks (n + step) step "->" stmts ++
            [(graphCloseWs stmts, Tok.rbrace)])) =
        ([], Tok.idT (.Plain "strict")) :: ([' '], Tok.idT (.Plain "digraph")) ::
        ([' '], Tok.idT id) :: ([' '], Tok.lbrace) ::
          (stmtsChunks (n + step) step "->" stmts ++
            [(graphCloseWs stmts, Tok.rbrace)]) from rfl, chunksOkFrom]
      refine ⟨rfl, by decide, ?_, ?_⟩
      · refine sepOk_any _ _ ?_
        intro c' hc'
        simp [chunksFlat] at hc'
        subst hc'
        exact ⟨by decide, by decide⟩
      · rw [chunksOkFrom]
        refine ⟨by decide, by decide, ?_, hmid id stmts "->" (by decide) h.1 h.2⟩
        refine sepOk_any _ _ ?_
        intro c' hc'
        simp [chunksFlat] at hc'
        subst hc'
        exact ⟨by decide, by decide⟩

/-! ## The print side of the round-trip: every printed construct is the
flattening of its chunk decomposition, and the context is preserved. -/

/-- The context class of `PrinterContext::default`: default separators and
no printing options, with an arbitrary indent state. -/
def stdCtx (ctx : PrinterContext) : Prop :=
  ctx.l_s = "\n" ∧ ctx.l_s_i = "" ∧ ctx.l_s_m = "\n" ∧ ctx.semi = false ∧
  ctx.mult_node_attr_on_s_l = false ∧ ctx.attr_value_printers = []

theorem std_not_inline {ctx : PrinterContext} (h : stdCtx ctx) :
    ctx.is_inline_on = false := by
  rw [PrinterContext.is_inline_on, h.1, h.2.1]
  simp

theorem std_indentStr {ctx : PrinterContext} (h : stdCtx ctx) :
    ctx.indentStr = String.mk (spacesC ctx.indent) := by
  rw [PrinterContext.indentStr, std_not_inline h]
  simp [spacesC]

theorem std_grow {ctx : PrinterContext} (h : stdCtx ctx) :
    stdCtx ctx.indent_grow ∧
    ctx.indent_grow.indent = ctx.indent + ctx.indent_step ∧
    ctx.indent_grow.indent_step = ctx.indent_step ∧
    ctx.indent_grow.is_digraph = ctx.is_digraph := by
  refine ⟨⟨?_, ?_, ?_, ?_, ?_, ?_⟩, ?_, ?_, ?_⟩ <;>
    simp [PrinterContext.indent_grow, std_not_inline h, h.1, h.2.1, h.2.2.1,
      h.2.2.2.1, h.2.2.2.2.1, h.2.2.2.2.2]

theorem port_print_chunks (p : Port) (ctx : PrinterContext)
    (hp : p.rtOk = true) :
    Port.print p ctx = some (String.mk (':' :: chunksFlat (portTailChunks p))) := by
  obtain ⟨pid, pc⟩ := p
  cases pid with
  | some i =>
    cases pc with
    | some d =>
      rw [Port.print, portTailChunks]
      refine congrArg some (String.ext ?_)
      simp [String.data_append, chunksFlat, Tok.text, Id.print,
        show (":" : String).data = [':'] from rfl]
    | none =>
      rw [Port.print, portTailChunks]
      refine congrArg some (String.ext ?_)
      simp [String.data_append, chunksFlat, Tok.text, Id.print,
        show (":" : String).data = [':'] from rfl]
  | none =>
    cases pc with
    | some d =>
      rw [Port.print, portTailChunks]
      refine congrArg some (String.ext ?_)
      simp [String.data_append, chunksFlat, Tok.text, Id.print,
        show (":" : String).data = [':'] from rfl]
    | none =>
      rw [Port.rtOk] at hp
      simp at hp

theorem nodeId_print_chunks (n : NodeId) (ctx : PrinterContext)
    (hn : n.rtOk = true) :
    NodeId.print n ctx = some (String.mk (chunksFlat (nodeIdChunks n))) := by
  obtain ⟨i, pt⟩ := n
  cases pt with
  | none =>
    rw [NodeId.print, nodeIdChunks]
    refine congrArg some (String.ext ?_)
    simp [chunksFlat, Tok.text]
  | some p =>
    rw [NodeId.rtOk, Bool.and_eq_true] at hn
    rw [NodeId.print, port_print_chunks p ctx hn.2, Option.map_some']
    rw [nodeIdChunks]
    refine congrArg some (String.ext ?_)
    simp [String.data_append, chunksFlat, Tok.text]

theorem attr_print_chunks (a : Attribute) (ctx : PrinterContext)
    (hctx : ctx.attr_value_printers = []) :
    Attribute.print a ctx = String.mk (chunksFlat (attrChunks a)) := by
  rw [Attribute.print, hctx]
  refine String.ext ?_
  simp [String.data_append, chunksFlat, attrChunks, Tok.text,
    show ("=" : String).data = ['='] from rfl, List.lookup]

theorem go_append (s : String) : ∀ (t : List String) (a b : String),
    String.intercalate.go (a ++ b) s t = a ++ String.intercalate.go b s t := by
  intro t
  induction t with
  | nil => intro a b; rw [intercalate_go_nil, intercalate_go_nil]
  | cons c t ih =>
    intro a b
    rw [intercalate_go_cons, intercalate_go_cons]
    rw [show (a ++ b) ++ s ++ c = a ++ (b ++ s ++ c) from by
      rw [String.append_assoc, String.append_assoc, String.append_assoc]]
    exact ih a (b ++ s ++ c)

theorem ic_cons2 (s a b : String) (t : List String) :
    String.intercalate s (a :: b :: t) = a ++ s ++ String.intercalate s (b :: t) := by
  rw [intercalate_cons, intercalate_go_cons, intercalate_cons, ← go_append]

theorem ic_singleton (s a : String) : String.intercalate s [a] = a := by
  rw [intercalate_cons, intercalate_go_nil]

theorem attrs_join (ctx : PrinterContext) (hctx : ctx.attr_value_printers = []) :
    ∀ (l : List Attribute), l ≠ [] →
    (String.intercalate "," (l.map (fun a => a.print ctx))).data =
      chunksFlat (attrsBodyChunks l) := by
  intro l
  induction l with
  | nil => intro h; exact absurd rfl h
  | cons a r ih =>
    intro _
    cases r with
    | nil =>
      rw [List.map_cons, List.map_nil, ic_singleton, attr_print_chunks a ctx hctx]
      rfl
    | cons b t =>
      rw [List.map_cons, List.map_cons, ic_cons2, show attrsBodyChunks (a :: b :: t) =
        attrChunks a ++ ([], Tok.comma) :: attrsBodyChunks (b :: t) from rfl]
      rw [String.data_append, String.data_append, attr_print_chunks a ctx hctx]
      rw [List.map_cons] at ih
      rw [ih (by simp), chunksFlat_append]
      simp [chunksFlat, Tok.text, show ("," : String).data = [','] from rfl]

theorem printAttributes_chunks (l : List Attribute) (ctx : PrinterContext)
    (hm : ctx.mult_node_attr_on_s_l = false)
    (hp : ctx.attr_value_printers = []) :
    printAttributes l ctx = (String.mk (chunksFlat (attrsChunks l)), ctx) := by
  rw [printAttributes]
  cases l with
  | nil => rfl
  | cons a r =>
    rw [if_neg (by simp)]
    rw [if_neg (by rw [hm]; simp)]
    rw [attrsChunks, if_neg (by simp)]
    refine congrArg (fun s => (s, ctx)) (String.ext ?_)
    rw [String.data_append, String.data_append,
      attrs_join ctx hp (a :: r) (by simp)]
    simp [chunksFlat, chunksFlat_append, Tok.text,
      show ("[" : String).data = ['['] from rfl,
      show ("]" : String).data = [']'] from rfl]

theorem ga_print_chunks (g : GraphAttributes) (ctx : PrinterContext)
    (hm : ctx.mult_node_attr_on_s_l = false)
    (hp : ctx.attr_value_printers = []) :
    GraphAttributes.print g ctx =
      (String.mk (chunksFlat (stmtChunks 0 0 "--" (.GAttribute g))), ctx) := by
  cases g with
  | Graph l =>
    rw [GraphAttributes.print, printAttributes_chunks l ctx hm hp]
    refine congrArg (fun s => (s, ctx)) (String.ext ?_)
    simp [String.data_append, stmtChunks, chunksFlat, Tok.text, Id.print,
      show ("graph" : String).data = ['g', 'r', 'a', 'p', 'h'] from rfl]
  | Node l =>
    rw [GraphAttributes.print, printAttributes_chunks l ctx hm hp]
    refine congrArg (fun s => (s, ctx)) (String.ext ?_)
    simp [String.data_append, stmtChunks, chunksFlat, Tok.text, Id.print,
      show ("node" : String).data = ['n', 'o', 'd', 'e'] from rfl]
  | Edge l =>
    rw [GraphAttributes.print, printAttributes_chunks l ctx hm hp]
    refine congrArg (fun s => (s, ctx)) (String.ext ?_)
    simp [String.data_append, stmtChunks, chunksFlat, Tok.text, Id.print,
      show ("edge" : String).data = ['e', 'd', 'g', 'e'] from rfl]

theorem node_print_chunks (nd : Node) (ctx : PrinterContext)
    (hm : ctx.mult_node_attr_on_s_l = false)
    (hp : ctx.attr_value_printers = []) (hid : nd.id.rtOk = true) :
    Node.print nd ctx = some (String.mk
      (chunksFlat (nodeIdChunks nd.id ++ attrsChunks nd.attributes)), ctx) := by
  rw [Node.print, nodeId_print_chunks nd.id ctx hid, Option.map_some']
  rw [printAttributes_chunks nd.attributes ctx hm hp]
  refine congrArg some (congrArg (fun s => (s, ctx)) (String.ext ?_))
  simp [String.data_append, chunksFlat_append]

theorem vertexN_print_chunks (nv : NodeId) (ctx : PrinterContext)
    (hn : nv.rtOk = true) :
    Vertex.print (.N nv) ctx =
      some (String.mk (chunksFlat (nodeIdChunks nv)), ctx) := by
  rw [Vertex.print, nodeId_print_chunks nv ctx hn, Option.map_some']

theorem printChain_chunks : ∀ (vs : List Vertex) (bond : String) (acc : String)
    (ctx : PrinterContext), vsNRtOk vs = true →
    printChain bond acc vs ctx =
      some (String.mk (acc.data ++ chunksFlat (chainChunks bond vs)), ctx) := by
  intro vs
  induction vs with
  | nil =>
    intro bond acc ctx hvs
    rw [printChain, chainChunks]
    refine congrArg some (congrArg (fun s => (s, ctx)) (String.ext ?_))
    simp [chunksFlat]
  | cons v rest ih =>
    intro bond acc ctx hvs
    cases v with
    | S s => rw [vsNRtOk] at hvs; simp at hvs
    | N nv =>
      rw [vsNRtOk, Bool.and_eq_true] at hvs
      rw [printChain, vertexN_print_chunks nv ctx hvs.1]
      dsimp only
      rw [ih bond _ ctx hvs.2]
      refine congrArg some (congrArg (fun s => (s, ctx)) (String.ext ?_))
      have hnn : nodeIdChunks nv ≠ [] := nodeIdChunks_ne_nil nv
      rw [chainChunks, show vChunks (.N nv) = nodeIdChunks nv from rfl]
      simp [String.data_append, chunksFlat, chunksFlat_append,
        wsCons_flat _ _ hnn, Tok.text,
        show (" " : String).data = [' '] from rfl]

theorem printEdgeTy_chunks (ty : EdgeTy) (attrs : List Attribute)
    (ctx : PrinterContext) (hm : ctx.mult_node_attr_on_s_l = false)
    (hp : ctx.attr_value_printers = [])
    (hty : edgeTyRtOk ty = true) (hattrs : attrsRtOk attrs = true) :
    printEdgeTy ty attrs ctx =
      some (String.mk (chunksFlat
        (edgeChunks (bondOf ctx.is_digraph) ty attrs)), ctx) := by
  cases ty with
  | Pair a b =>
    cases a with
    | S sa =>
      cases b with
      | N nb => rw [show edgeTyRtOk (.Pair (.S sa) (.N nb)) = false from rfl] at hty; simp at hty
      | S sb => rw [show edgeTyRtOk (.Pair (.S sa) (.S sb)) = false from rfl] at hty; simp at hty
    | N na =>
      cases b with
      | S sb => rw [show edgeTyRtOk (.Pair (.N na) (.S sb)) = false from rfl] at hty; simp at hty
      | N nb =>
        rw [show edgeTyRtOk (.Pair (.N na) (.N nb)) = (na.rtOk && nb.rtOk) from rfl,
          Bool.and_eq_true] at hty
        rw [printEdgeTy, bondOf_eq, vertexN_print_chunks na ctx hty.1]
        dsimp only
        rw [vertexN_print_chunks nb ctx hty.2]
        dsimp only
        cases hae : attrs.isEmpty with
        | true =>
          rw [if_pos rfl]
          rw [edgeChunks, if_pos hae]
          refine congrArg some (congrArg (fun s => (s, ctx)) (String.ext ?_))
          have hb : nodeIdChunks nb ≠ [] := nodeIdChunks_ne_nil nb
          simp [String.data_append, chunksFlat, chunksFlat_append,
            wsCons_flat _ _ hb, Tok.text,
            show (" " : String).data = [' '] from rfl]
        | false =>
          rw [if_neg (by simp)]
          rw [printAttributes_chunks attrs ctx hm hp]
          dsimp only
          rw [edgeChunks, if_neg (by simp [hae])]
          refine congrArg some (congrArg (fun s => (s, ctx)) (String.ext ?_))
          have hb : nodeIdChunks nb ≠ [] := nodeIdChunks_ne_nil nb
          have hac : attrsChunks attrs ≠ [] := by
            rw [attrsChunks, if_neg (by simp [hae])]
            simp
          simp [String.data_append, chunksFlat, chunksFlat_append,
            wsCons_flat _ _ hb, wsCons_flat _ _ hac, Tok.text,
            show (" " : String).data = [' '] from rfl]
  | Chain vs =>
    rw [show edgeTyRtOk (.Chain vs) = (decide (3 ≤ vs.length) && vsNRtOk vs) from rfl,
      Bool.and_eq_true, decide_eq_true_eq] at hty
    cases vs with
    | nil => simp at hty
    | cons hv t =>
      cases hv with
      | S s2 => exfalso; have := hty.2; rw [vsNRtOk] at this; simp at this
      | N nh =>
        have hvs := hty.2
        rw [vsNRtOk, Bool.and_eq_true] at hvs
        rw [printEdgeTy, bondOf_eq, vertexN_print_chunks nh ctx hvs.1]
        dsimp only
        rw [printChain_chunks t _ _ ctx hvs.2]
        dsimp only
        rw [printAttributes_chunks attrs ctx hm hp]
        dsimp only
        rw [edgeChunks]
        refine congrArg some (congrArg (fun s => (s, ctx)) (String.ext ?_))
        simp [String.data_append, chunksFlat_append,
          show vChunks (.N nh) = nodeIdChunks nh from rfl]

theorem inline_mode_fields (ctx : PrinterContext) :
    ctx.inline_mode.mult_node_attr_on_s_l = ctx.mult_node_attr_on_s_l ∧
    ctx.inline_mode.attr_value_printers = ctx.attr_value_printers ∧
    ctx.inline_mode.is_digraph = ctx.is_digraph := ⟨rfl, rfl, rfl⟩

theorem inline_multiline_self {ctx : PrinterContext} (h : ctx.l_s_m = ctx.l_s) :
    ctx.inline_mode.multiline_mode = ctx := by
  cases ctx
  rw [PrinterContext.inline_mode, PrinterContext.multiline_mode]
  simp_all

theorem edge_printDot_chunks (ty : EdgeTy) (attrs : List Attribute)
    (ctx : PrinterContext) (hstd : stdCtx ctx)
    (hty : edgeTyRtOk ty = true) (hattrs : attrsRtOk attrs = true) :
    Edge.printDot (.mk ty attrs) ctx =
      some (String.mk (chunksFlat
        (edgeChunks (bondOf ctx.is_digraph) ty attrs)), ctx) := by
  have hm := hstd.2.2.2.2.1
  have hp := hstd.2.2.2.2.2
  have h1 := printEdgeTy_chunks ty attrs ctx hm hp hty hattrs
  have h2 := printEdgeTy_chunks ty attrs ctx.inline_mode
    (show ctx.inline_mode.mult_node_attr_on_s_l = false from hm)
    (show ctx.inline_mode.attr_value_printers = [] from hp) hty hattrs
  rw [Edge.printDot, h1]
  dsimp only
  split
  · rw [h2]
    dsimp only
    rw [inline_multiline_self (show ctx.l_s_m = ctx.l_s from by
      rw [hstd.1, hstd.2.2.1])]
    rfl
  · rfl
/-- The printed pieces of a statement list (each with its indent). -/
def stmtPieces (n step : Nat) (bond : String) : List Stmt → List String
  | [] => []
  | s :: r => String.mk (spacesC n ++ chunksFlat (stmtChunks n step bond s)) ::
      stmtPieces n step bond r

theorem stmts_join (n step : Nat) (bond : String) :
    ∀ (l : List Stmt), stmtsRtOk l = true → l ≠ [] →
    chunksFlat (stmtsChunks n step bond l) =
      '\n' :: (String.intercalate "\n" (stmtPieces n step bond l)).data := by
  intro l
  induction l with
  | nil => intro _ h; exact absurd rfl h
  | cons s r ih =>
    intro hl _
    rw [stmtsRtOk, Bool.and_eq_true] at hl
    cases r with
    | nil =>
      rw [stmtsChunks, stmtsChunks, List.append_nil,
        wsCons_flat _ _ (stmtChunks_ne_nil n step bond s hl.1)]
      rw [stmtPieces, stmtPieces, ic_singleton]
      simp
    | cons b t =>
      rw [stmtsChunks, chunksFlat_append,
        wsCons_flat _ _ (stmtChunks_ne_nil n step bond s hl.1)]
      rw [ih hl.2 (by simp)]
      rw [show stmtPieces n step bond (s :: b :: t) =
        String.mk (spacesC n ++ chunksFlat (stmtChunks n step bond s)) ::
        String.mk (spacesC n ++ chunksFlat (stmtChunks n step bond b)) ::
          stmtPieces n step bond t from rfl, ic_cons2]
      simp [String.data_append, show ("\n" : String).data = ['\n'] from rfl]
      rfl

mutual

theorem stmt_print_chunks : ∀ (s : Stmt) (ctx : PrinterContext), stdCtx ctx →
    Stmt.rtOk s = true →
    Stmt.print s ctx = some (String.mk (spacesC ctx.indent ++
      chunksFlat (stmtChunks ctx.indent ctx.indent_step
        (bondOf ctx.is_digraph) s)), ctx)
  | .Node nd, ctx => by
    intro hstd hs
    rw [show Stmt.rtOk (.Node nd) = (nd.id.rtOk && attrsRtOk nd.attributes) from rfl,
      Bool.and_eq_true] at hs
    rw [Stmt.print, node_print_chunks nd ctx hstd.2.2.2.2.1 hstd.2.2.2.2.2 hs.1,
      Option.map_some']
    refine congrArg some (congrArg (fun x => (x, ctx)) (String.ext ?_))
    rw [std_indentStr hstd]
    simp [String.data_append, stmtChunks, hstd.2.2.2.1]
  | .Attribute a, ctx => by
    intro hstd hs
    rw [show Stmt.rtOk (.Attribute a) = a.rtOk from rfl] at hs
    rw [Stmt.print, attr_print_chunks a ctx hstd.2.2.2.2.2]
    refine congrArg some (congrArg (fun x => (x, ctx)) (String.ext ?_))
    rw [std_indentStr hstd]
    simp [String.data_append, stmtChunks, hstd.2.2.2.1]
  | .GAttribute (.Graph l), ctx => by
    intro hstd hs
    rw [Stmt.print, ga_print_chunks (.Graph l) ctx hstd.2.2.2.2.1 hstd.2.2.2.2.2]
    dsimp only
    refine congrArg some (congrArg (fun x => (x, ctx)) (String.ext ?_))
    rw [std_indentStr hstd]
    simp [String.data_append, hstd.2.2.2.1,
      show stmtChunks ctx.indent ctx.indent_step (bondOf ctx.is_digraph)
        (.GAttribute (.Graph l)) = stmtChunks 0 0 "--" (.GAttribute (.Graph l))
        from rfl]
  | .GAttribute (.Node l), ctx => by
    intro hstd hs
    rw [Stmt.print, ga_print_chunks (.Node l) ctx hstd.2.2.2.2.1 hstd.2.2.2.2.2]
    dsimp only
    refine congrArg some (congrArg (fun x => (x, ctx)) (String.ext ?_))
    rw [std_indentStr hstd]
    simp [String.data_append, hstd.2.2.2.1,
      show stmtChunks ctx.indent ctx.indent_step (bondOf ctx.is_digraph)
        (.GAttribute (.Node l)) = stmtChunks 0 0 "--" (.GAttribute (.Node l))
        from rfl]
  | .GAttribute (.Edge l), ctx => by
    intro hstd hs
    rw [Stmt.print, ga_print_chunks (.Edge l) ctx hstd.2.2.2.2.1 hstd.2.2.2.2.2]
    dsimp only
    refine congrArg some (congrArg (fun x => (x, ctx)) (String.ext ?_))
    rw [std_indentStr hstd]
    simp [String.data_append, hstd.2.2.2.1,
      show stmtChunks ctx.indent ctx.indent_step (bondOf ctx.is_digraph)
        (.GAttribute (.Edge l)) = stmtChunks 0 0 "--" (.GAttribute (.Edge l))
        from rfl]
  | .Edge (.mk ty attrs), ctx => by
    intro hstd hs
    rw [show Stmt.rtOk (.Edge (.mk ty attrs)) =
      (edgeTyRtOk ty && attrsRtOk attrs) from rfl, Bool.and_eq_true] at hs
    rw [Stmt.print, edge_printDot_chunks ty attrs ctx hstd hs.1 hs.2]
    dsimp only
    refine congrArg some (congrArg (fun x => (x, ctx)) (String.ext ?_))
    rw [std_indentStr hstd]
    simp [String.data_append, hstd.2.2.2.1,
      show stmtChunks ctx.indent ctx.indent_step (bondOf ctx.is_digraph)
        (.Edge (.mk ty attrs)) =
        edgeChunks (bondOf ctx.is_digraph) ty attrs from rfl]
  | .Subgraph sg, ctx => by
    intro hstd hs
    rw [show Stmt.rtOk (.Subgraph sg) = sg.rtOk from rfl] at hs
    rw [Stmt.print, subgraph_print_chunks sg ctx hstd hs]
    dsimp only
    refine congrArg some (congrArg (fun x => (x, ctx)) (String.ext ?_))
    rw [std_indentStr hstd]
    simp [String.data_append, stmtChunks, hstd.2.2.2.1]
termination_by structural s => s

theorem subgraph_print_chunks : ∀ (sg : Subgraph) (ctx : PrinterContext),
    stdCtx ctx → Subgraph.rtOk sg = true →
    Subgraph.print sg ctx = some (String.mk
      (chunksFlat (subgraphChunks ctx.indent ctx.indent_step
        (bondOf ctx.is_digraph) sg)), ctx)
  | .mk id stmts, ctx => by
    intro hstd hs
    rw [show Subgraph.rtOk (.mk id stmts) = (id.rtOk && stmtsRtOk stmts) from rfl,
      Bool.and_eq_true] at hs
    obtain ⟨hstd1, hind, histep, hdig⟩ := std_grow hstd
    rw [Subgraph.print, printStmtList_chunks stmts ctx.indent_grow hstd1 hs.2]
    dsimp only
    rw [indent_grow_shrink, hind, histep, hdig, hstd1.1]
    refine congrArg some (congrArg (fun x => (x, ctx)) (String.ext ?_))
    rw [std_indentStr hstd, subgraphChunks]
    cases stmts with
    | nil =>
      rw [show stmtPieces (ctx.indent + ctx.indent_step) ctx.indent_step
        (bondOf ctx.is_digraph) [] = [] from rfl,
        show String.intercalate "\n" [] = "" from rfl]
      simp [String.data_append, chunksFlat, chunksFlat_append, Tok.text, Id.print,
        show closeWs ctx.indent [] = '\n' :: '\n' :: spacesC ctx.indent from rfl,
        show ("subgraph " : String).data =
          ['s', 'u', 'b', 'g', 'r', 'a', 'p', 'h', ' '] from rfl,
        show (" \x7b" : String).data = [' ', '\x7b'] from rfl,
        show ("\x7d" : String).data = ['\x7d'] from rfl,
        show ("\n" : String).data = ['\n'] from rfl,
        show ("" : String).data = [] from rfl,
        stmtsChunks]
    | cons s1 r1 =>
      simp [String.data_append, chunksFlat, chunksFlat_append, Tok.text, Id.print,
        stmts_join (ctx.indent + ctx.indent_step) ctx.indent_step
          (bondOf ctx.is_digraph) (s1 :: r1) hs.2 (by simp),
        show closeWs ctx.indent (s1 :: r1) = '\n' :: spacesC ctx.indent from rfl,
        show ("subgraph " : String).data =
          ['s', 'u', 'b', 'g', 'r', 'a', 'p', 'h', ' '] from rfl,
        show (" \x7b" : String).data = [' ', '\x7b'] from rfl,
        show ("\x7d" : String).data = ['\x7d'] from rfl,
        show ("\n" : String).data = ['\n'] from rfl]
termination_by structural sg => sg

theorem printStmtList_chunks : ∀ (l : List Stmt) (ctx : PrinterContext),
    stdCtx ctx → stmtsRtOk l = true →
    printStmtList l ctx = some (stmtPieces ctx.indent ctx.indent_step
      (bondOf ctx.is_digraph) l, ctx)
  | [], ctx => by
    intro hstd hl
    rw [printStmtList, stmtPieces]
  | s :: r, ctx => by
    intro hstd hl
    rw [stmtsRtOk, Bool.and_eq_true] at hl
    rw [printStmtList, stmt_print_chunks s ctx hstd hl.1]
    dsimp only
    rw [printStmtList_chunks r ctx hstd hl.2]
    dsimp only
    rw [stmtPieces]
termination_by structural l => l

end

theorem printGraph_chunks (g : Dot.Graph) (ctx : PrinterContext)
    (hstd : stdCtx ctx) (hg : Graph.rtOk g = true) :
    printGraph g ctx =
      some (String.mk (chunksFlat (graphChunks ctx.indent ctx.indent_step g))) := by
  obtain ⟨hstd0, hind, histep, hdig⟩ := std_grow hstd
  cases g with
  | Graph id strict stmts =>
    rw [show Graph.rtOk (.Graph id strict stmts) =
      (id.rtOk && stmtsRtOk stmts) from rfl, Bool.and_eq_true] at hg
    have hstd1 : stdCtx {ctx.indent_grow with is_digraph := false} := hstd0
    rw [printGraph, Graph.print, printStmts,
      printStmtList_chunks stmts _ hstd1 hg.2]
    dsimp only
    rw [hind, histep, hstd0.1]
    refine congrArg some (String.ext ?_)
    rw [graphChunks]
    cases stmts with
    | nil =>
      rw [show stmtPieces (ctx.indent + ctx.indent_step) ctx.indent_step
        (bondOf false) [] = [] from rfl,
        show String.intercalate "\n" [] = "" from rfl]
      cases strict with
      | false =>
        simp [String.data_append, chunksFlat, chunksFlat_append, Tok.text,
          Id.print, stmtsChunks,
          show graphCloseWs ([] : List Stmt) = ['\n', '\n'] from rfl,
          show ("graph " : String).data = ['g', 'r', 'a', 'p', 'h', ' '] from rfl,
          show (" \x7b" : String).data = [' ', '\x7b'] from rfl,
          show ("\x7d" : String).data = ['\x7d'] from rfl,
          show ("\n" : String).data = ['\n'] from rfl,
          show ("" : String).data = [] from rfl]
      | true =>
        simp [String.data_append, chunksFlat, chunksFlat_append, Tok.text,
          Id.print, stmtsChunks,
          show graphCloseWs ([] : List Stmt) = ['\n', '\n'] from rfl,
          show ("strict graph " : String).data =
            ['s', 't', 'r', 'i', 'c', 't', ' ', 'g', 'r', 'a', 'p', 'h', ' '] from rfl,
          show (" \x7b" : String).data = [' ', '\x7b'] from rfl,
          show ("\x7d" : String).data = ['\x7d'] from rfl,
          show ("\n" : String).data = ['\n'] from rfl,
          show ("" : String).data = [] from rfl]
    | cons s1 r1 =>
      have hsj := stmts_join (ctx.indent + ctx.indent_step) ctx.indent_step
        "--" (s1 :: r1) hg.2 (by simp)
      cases strict with
      | false =>
        simp [String.data_append, chunksFlat, chunksFlat_append, Tok.text,
          Id.print, hsj, bondOf,
          show graphCloseWs (s1 :: r1) = ['\n'] from rfl,
          show ("graph " : String).data = ['g', 'r', 'a', 'p', 'h', ' '] from rfl,
          show (" \x7b" : String).data = [' ', '\x7b'] from rfl,
          show ("\x7d" : String).data = ['\x7d'] from rfl,
          show ("\n" : String).data = ['\n'] from rfl]
      | true =>
        simp [String.data_append, chunksFlat, chunksFlat_append, Tok.text,
          Id.print, hsj, bondOf,
          show graphCloseWs (s1 :: r1) = ['\n'] from rfl,
          show ("strict graph " : String).data =
            ['s', 't', 'r', 'i', 'c', 't', ' ', 'g', 'r', 'a', 'p', 'h', ' '] from rfl,
          show (" \x7b" : String).data = [' ', '\x7b'] from rfl,
          show ("\x7d" : String).data = ['\x7d'] from rfl,
          show ("\n" : String).data = ['\n'] from rfl]
  | DiGraph id strict stmts =>
    rw [show Graph.rtOk (.DiGraph id strict stmts) =
      (id.rtOk && stmtsRtOk stmts) from rfl, Bool.and_eq_true] at hg
    have hstd1 : stdCtx {ctx.indent_grow with is_digraph := true} := hstd0
    rw [printGraph, Graph.print, printStmts,
      printStmtList_chunks stmts _ hstd1 hg.2]
    dsimp only
    rw [hind, histep, hstd0.1]
    refine congrArg some (String.ext ?_)
    rw [graphChunks]
    cases stmts with
    | nil =>
      rw [show stmtPieces (ctx.indent + ctx.indent_step) ctx.indent_step
        (bondOf true) [] = [] from rfl,
        show String.intercalate "\n" [] = "" from rfl]
      cases strict with
      | false =>
        simp [String.data_append, chunksFlat, chunksFlat_append, Tok.text,
          Id.print, stmtsChunks,
          show graphCloseWs ([] : List Stmt) = ['\n', '\n'] from rfl,
          show ("digraph " : String).data =
            ['d', 'i', 'g', 'r', 'a', 'p', 'h', ' '] from rfl,
          show (" \x7b" : String).data = [' ', '\x7b'] from rfl,
          show ("\x7d" : String).data = ['\x7d'] from rfl,
          show ("\n" : String).data = ['\n'] from rfl,
          show ("" : String).data = [] from rfl]
      | true =>
        simp [String.data_append, chunksFlat, chunksFlat_append, Tok.text,
          Id.print, stmtsChunks,
          show graphCloseWs ([] : List Stmt) = ['\n', '\n'] from rfl,
          show ("strict digraph " : String).data =
            ['s', 't', 'r', 'i', 'c', 't', ' ', 'd', 'i', 'g', 'r', 'a', 'p', 'h', ' '] from rfl,
          show (" \x7b" : String).data = [' ', '\x7b'] from rfl,
          show ("\x7d" : String).data = ['\x7d'] from rfl,
          show ("\n" : String).data = ['\n'] from rfl,
          show ("" : String).data = [] from rfl]
    | cons s1 r1 =>
      have hsj := stmts_join (ctx.indent + ctx.indent_step) ctx.indent_step
        "->" (s1 :: r1) hg.2 (by simp)
      cases strict with
      | false =>
        simp [String.data_append, chunksFlat, chunksFlat_append, Tok.text,
          Id.print, hsj, bondOf,
          show graphCloseWs (s1 :: r1) = ['\n'] from rfl,
          show ("digraph " : String).data =
            ['d', 'i', 'g', 'r', 'a', 'p', 'h', ' '] from rfl,
          show (" \x7b" : String).data = [' ', '\x7b'] from rfl,
          show ("\x7d" : String).data = ['\x7d'] from rfl,
          show ("\n" : String).data = ['\n'] from rfl]
      | true =>
        simp [String.data_append, chunksFlat, chunksFlat_append, Tok.text,
          Id.print, hsj, bondOf,
          show graphCloseWs (s1 :: r1) = ['\n'] from rfl,
          show ("strict digraph " : String).data =
            ['s', 't', 'r', 'i', 'c', 't', ' ', 'd', 'i', 'g', 'r', 'a', 'p', 'h', ' '] from rfl,
          show (" \x7b" : String).data = [' ', '\x7b'] from rfl,
          show ("\x7d" : String).data = ['\x7d'] from rfl,
          show ("\n" : String).data = ['\n'] from rfl]

/-! ## The parse side of the round-trip: the token parser folds the token
list of every chunk decomposition back into the original construct. -/

/-- What may follow a statement: a closing brace or another statement's
leading identifier (or the end of the body's token list). -/
def followOk (r : List Tok) : Prop :=
  ∀ t, r.head? = some t → t = .rbrace ∨ ∃ i, t = .idT i

theorem followOk_not (r : List Tok) (h : followOk r) (t : Tok)
    (ht : r.head? = some t) :
    t ≠ .colon ∧ t ≠ .lbrack ∧ t ≠ .eqT ∧ (∀ b, t ≠ .edgeop b) ∧
    t ≠ .comma ∧ t ≠ .semi := by
  rcases h t ht with rfl | ⟨i, rfl⟩
  · exact ⟨by simp, by simp, by simp, by simp, by simp, by simp⟩
  · exact ⟨by simp, by simp, by simp, by simp, by simp, by simp⟩

theorem nonKeyword_ne (s : String) (h : Id.nonKeyword (.Plain s) = true) :
    lowerStr s ≠ "graph" ∧ lowerStr s ≠ "digraph" ∧ lowerStr s ≠ "subgraph" ∧
    lowerStr s ≠ "strict" ∧ lowerStr s ≠ "node" ∧ lowerStr s ≠ "edge" := by
  rw [Id.nonKeyword, Bool.not_eq_true'] at h
  refine ⟨?_, ?_, ?_, ?_, ?_, ?_⟩ <;>
    (intro heq; rw [dotKeywords] at h; rw [heq] at h; simp at h)

theorem id_rtOk_nonKeyword (i : Id) (h : i.rtOk = true) :
    i.nonKeyword = true := by
  rw [Id.rtOk, Bool.and_eq_true] at h
  exact h.2

theorem parsePortTail_toks (p : Port) (rest : List Tok) (hp : p.rtOk = true)
    (hr : rest.head? ≠ some .colon) :
    parsePortTail (chunksToks (portTailChunks p) ++ rest) = .ok (p, rest) := by
  obtain ⟨pid, pc⟩ := p
  cases pid with
  | some i =>
    cases pc with
    | some c =>
      rw [Port.rtOk, Bool.and_eq_true] at hp
      have hmem : c ∈ compassTokens := by simpa using hp.2
      rw [show chunksToks (portTailChunks ⟨some i, some c⟩) ++ rest =
        .idT i :: .colon :: .idT (.Plain c) :: rest from rfl]
      rw [parsePortTail, parseIdTok]
      dsimp only
      rw [if_pos hmem]
      rfl
    | none =>
      rw [Port.rtOk, Bool.and_eq_true] at hp
      rw [show chunksToks (portTailChunks ⟨some i, none⟩) ++ rest =
        .idT i :: rest from rfl]
      rw [parsePortTail, parseIdTok]
      dsimp only
      have hredu : (match rest with
          | .colon :: .idT (.Plain s) :: r3 =>
            if s ∈ compassTokens then
              Except.ok (process_port i (some s), r3)
            else Except.error "expected a compass direction"
          | .colon :: _ => Except.error "expected a compass direction"
          | _ => Except.ok (process_port i none, rest)) =
          Except.ok (process_port i none, rest) := by
        cases rest with
        | nil => rfl
        | cons t r =>
          cases t with
          | colon => exact absurd rfl hr
          | idT j => rfl
          | lbrace => rfl
          | rbrace => rfl
          | lbrack => rfl
          | rbrack => rfl
          | eqT => rfl
          | comma => rfl
          | semi => rfl
          | edgeop b => rfl
      rw [hredu, process_port]
      cases i with
      | Plain s =>
        rw [Id.rtOk, Bool.and_eq_true] at hp
        have hnc : ¬(s ∈ compassTokens) := by
          have h2 := hp.2
          rw [Id.noCompass, Bool.not_eq_true'] at h2
          simpa using h2
        rw [parse_compass_manually, if_neg hnc]
      | Escaped s => rfl
      | Html s => rfl
      | Anonymous s => rfl
  | none =>
    cases pc with
    | some c =>
      rw [Port.rtOk] at hp
      have hmem : c ∈ compassTokens := by simpa using hp
      rw [show chunksToks (portTailChunks ⟨none, some c⟩) ++ rest =
        .idT (.Plain c) :: rest from rfl]
      rw [parsePortTail, parseIdTok]
      dsimp only
      have hredu : (match rest with
          | .colon :: .idT (.Plain s) :: r3 =>
            if s ∈ compassTokens then
              Except.ok (process_port (.Plain c) (some s), r3)
            else Except.error "expected a compass direction"
          | .colon :: _ => Except.error "expected a compass direction"
          | _ => Except.ok (process_port (.Plain c) none, rest)) =
          Except.ok (process_port (.Plain c) none, rest) := by
        cases rest with
        | nil => rfl
        | cons t r =>
          cases t with
          | colon => exact absurd rfl hr
          | idT j => rfl
          | lbrace => rfl
          | rbrace => rfl
          | lbrack => rfl
          | rbrack => rfl
          | eqT => rfl
          | comma => rfl
          | semi => rfl
          | edgeop b => rfl
      rw [hredu, process_port, parse_compass_manually, if_pos hmem]
      rw [Id.fmtDisplay]
    | none =>
      rw [Port.rtOk] at hp
      simp at hp

theorem parseNodeId_toks (nid : NodeId) (rest : List Tok)
    (hn : nid.rtOk = true) (hr : rest.head? ≠ some .colon) :
    parseNodeId (chunksToks (nodeIdChunks nid) ++ rest) = .ok (nid, rest) := by
  obtain ⟨i, pt⟩ := nid
  cases pt with
  | none =>
    rw [show chunksToks (nodeIdChunks ⟨i, none⟩) ++ rest = .idT i :: rest from rfl]
    rw [parseNodeId, parseIdTok]
    dsimp only
    cases rest with
    | nil => rfl
    | cons t r =>
      cases t with
      | colon => exact absurd rfl hr
      | idT j => rfl
      | lbrace => rfl
      | rbrace => rfl
      | lbrack => rfl
      | rbrack => rfl
      | eqT => rfl
      | comma => rfl
      | semi => rfl
      | edgeop b => rfl
  | some p =>
    rw [NodeId.rtOk, Bool.and_eq_true] at hn
    rw [show chunksToks (nodeIdChunks ⟨i, some p⟩) ++ rest =
      .idT i :: .colon :: (chunksToks (portTailChunks p) ++ rest) from by
        simp [chunksToks, nodeIdChunks]]
    rw [parseNodeId, parseIdTok]
    dsimp only
    rw [parsePortTail_toks p rest hn.2 hr]

theorem parseAttr_toks (a : Attribute) (rest : List Tok) :
    parseAttr (chunksToks (attrChunks a) ++ rest) = .ok (a, dropSeps rest) := by
  rw [show chunksToks (attrChunks a) ++ rest =
    .idT a.key :: .eqT :: .idT a.value :: rest from rfl]
  rw [parseAttr, parseIdTok]
  dsimp only
  rw [expectTok, if_pos rfl]
  dsimp only
  rw [parseIdTok]

theorem dropSeps_noop (r : List Tok)
    (h : ∀ t, r.head? = some t → t ≠ .comma ∧ t ≠ .semi) : dropSeps r = r := by
  cases r with
  | nil => rfl
  | cons t rest =>
    rw [dropSeps, if_neg]
    intro hor
    rcases hor with rfl | rfl
    · exact (h _ rfl).1 rfl
    · exact (h _ rfl).2 rfl

theorem attrsBodyToks_head (b : Attribute) (t : List Attribute) :
    (chunksToks (attrsBodyChunks (b :: t))).head? = some (.idT b.key) := by
  cases t with
  | nil => rfl
  | cons c r => rfl

theorem attrsBody_len (l : List Attribute) :
    l.length ≤ (chunksToks (attrsBodyChunks l)).length := by
  induction l with
  | nil => simp
  | cons a r ih =>
    cases r with
    | nil => simp [attrsBodyChunks, attrChunks, chunksToks]
    | cons b t =>
      rw [show attrsBodyChunks (a :: b :: t) =
        attrChunks a ++ ([], Tok.comma) :: attrsBodyChunks (b :: t) from rfl]
      simp only [chunksToks, List.length_map, List.length_append,
        List.length_cons] at ih ⊢
      simp only [attrChunks, List.length_cons, List.length_nil]
      omega

theorem parseAttrListBodyF_step (f : Nat) (i : Id) (ts : List Tok) :
    parseAttrListBodyF (f + 1) (.idT i :: ts) =
      match parseAttr (.idT i :: ts) with
      | .error e => .error e
      | .ok (a, r1) =>
        match parseAttrListBodyF f r1 with
        | .error e => .error e
        | .ok (rest, r2) => .ok (a :: rest, r2) := rfl

theorem parseAttrListBodyF_stop (f : Nat) (ts : List Tok)
    (h : ts.head? = some .rbrack) :
    parseAttrListBodyF (f + 1) ts = .ok ([], ts) := by
  cases ts with
  | nil => simp at h
  | cons t r =>
    rw [List.head?_cons, Option.some.injEq] at h
    subst h
    rfl

theorem parseAttrListBodyF_toks : ∀ (l : List Attribute) (f : Nat)
    (rest : List Tok), attrsRtOk l = true → l.length + 1 ≤ f →
    rest.head? = some .rbrack →
    parseAttrListBodyF f (chunksToks (attrsBodyChunks l) ++ rest) =
      .ok (l, rest) := by
  intro l
  induction l with
  | nil =>
    intro f rest hl hf hr
    cases f with
    | zero => omega
    | succ f =>
      rw [show chunksToks (attrsBodyChunks []) ++ rest = rest from rfl]
      exact parseAttrListBodyF_stop f rest hr
  | cons a r ih =>
    intro f rest hl hf hr
    rw [attrsRtOk, Bool.and_eq_true] at hl
    cases f with
    | zero => omega
    | succ f =>
      have hf2 : r.length + 1 ≤ f := by
        rw [List.length_cons] at hf
        omega
      cases r with
      | nil =>
        rw [show chunksToks (attrsBodyChunks [a]) ++ rest =
          .idT a.key :: (.eqT :: .idT a.value :: rest) from rfl]
        rw [parseAttrListBodyF_step]
        rw [show (Tok.idT a.key :: (Tok.eqT :: Tok.idT a.value :: rest) : List Tok) =
          chunksToks (attrChunks a) ++ rest from rfl, parseAttr_toks a rest]
        dsimp only
        rw [dropSeps_noop rest (by
          intro t2 ht2
          rw [hr, Option.some.injEq] at ht2
          subst ht2
          exact ⟨by simp, by simp⟩)]
        have hih := ih f rest rfl hf2 hr
        rw [show chunksToks (attrsBodyChunks []) ++ rest = rest from rfl] at hih
        rw [hih]
      | cons b t =>
        rw [show chunksToks (attrsBodyChunks (a :: b :: t)) ++ rest =
          .idT a.key :: (.eqT :: .idT a.value :: (.comma ::
            (chunksToks (attrsBodyChunks (b :: t)) ++ rest))) from by
          rw [show attrsBodyChunks (a :: b :: t) =
            attrChunks a ++ ([], Tok.comma) :: attrsBodyChunks (b :: t) from rfl]
          simp [chunksToks, attrChunks]]
        rw [parseAttrListBodyF_step]
        rw [show (Tok.idT a.key :: (Tok.eqT :: Tok.idT a.value :: (.comma ::
          (chunksToks (attrsBodyChunks (b :: t)) ++ rest))) : List Tok) =
          chunksToks (attrChunks a) ++ (.comma ::
            (chunksToks (attrsBodyChunks (b :: t)) ++ rest)) from rfl]
        rw [parseAttr_toks a _]
        dsimp only
        rw [show dropSeps (Tok.comma ::
          (chunksToks (attrsBodyChunks (b :: t)) ++ rest)) =
          dropSeps (chunksToks (attrsBodyChunks (b :: t)) ++ rest) from by
          rw [dropSeps, if_pos (Or.inl rfl)]]
        rw [dropSeps_noop _ (by
          intro t2 ht2
          have h0 := attrsBodyToks_head b t
          cases htt : chunksToks (attrsBodyChunks (b :: t)) with
          | nil => rw [htt] at h0; simp at h0
          | cons x xs =>
            rw [htt] at h0
            rw [List.head?_cons, Option.some.injEq] at h0
            subst h0
            rw [htt, List.cons_append, List.head?_cons, Option.some.injEq] at ht2
            subst ht2
            exact ⟨by simp, by simp⟩)]
        rw [ih f rest hl.2 hf2 hr]

theorem parseAttrListF_step (f : Nat) (r1 : List Tok) :
    parseAttrListF (f + 1) (.lbrack :: r1) =
      match parseAttrListBody r1 with
      | .error e => .error e
      | .ok (attrs, r2) =>
        match expectTok .rbrack r2 with
        | .error e => .error e
        | .ok r3 =>
          match r3 with
          | .lbrack :: _ =>
            match parseAttrListF f r3 with
            | .error e => .error e
            | .ok (more, r4) => .ok (attrs ++ more, r4)
          | _ => .ok (attrs, r3) := rfl

theorem parseAttrList_toks (l : List Attribute) (rest : List Tok)
    (hl : attrsRtOk l = true) (hne : l.isEmpty = false)
    (hr : rest.head? ≠ some .lbrack) :
    parseAttrList (chunksToks (attrsChunks l) ++ rest) = .ok (l, rest) := by
  have hsplit : chunksToks (attrsChunks l) ++ rest =
      .lbrack :: (chunksToks (attrsBodyChunks l) ++ (.rbrack :: rest)) := by
    rw [attrsChunks, if_neg (by simp [hne])]
    simp [chunksToks]
  rw [parseAttrList, hsplit, parseAttrListF_step]
  have hbody : parseAttrListBody (chunksToks (attrsBodyChunks l) ++ (.rbrack :: rest)) =
      .ok (l, .rbrack :: rest) := by
    rw [parseAttrListBody]
    refine parseAttrListBodyF_toks l _ (.rbrack :: rest) hl ?_ rfl
    have := attrsBody_len l
    simp only [List.length_append, List.length_cons]
    omega
  rw [hbody]
  dsimp only
  rw [expectTok, if_pos rfl]
  dsimp only
  cases rest with
  | nil => rfl
  | cons t r =>
    cases t with
    | lbrack => exact absurd rfl hr
    | idT i => rfl
    | lbrace => rfl
    | rbrace => rfl
    | rbrack => rfl
    | eqT => rfl
    | comma => rfl
    | semi => rfl
    | colon => rfl
    | edgeop b => rfl


/-! Fuel requirements of the fueled parsers on the round-trip fragment. -/

/-- Fuel needed by `parseStmt` for an edge statement of this shape. -/
def edgeTyFuel : EdgeTy → Nat
  | .Pair _ _ => 5
  | .Chain vs => vs.length + 3

mutual

/-- Fuel needed by `parseStmt` for this statement. -/
def Stmt.pFuel : Stmt → Nat
  | .Node _ => 2
  | .Attribute _ => 2
  | .GAttribute _ => 2
  | .Edge e => edgeTyFuel e.ty
  | .Subgraph sg => sg.pFuel + 2
termination_by structural s => s

/-- Fuel needed by `parseSubgraph` for this subgraph. -/
def Subgraph.pFuel : Subgraph → Nat
  | .mk _ stmts => stmtsFuel stmts + 1
termination_by structural sg => sg

/-- Fuel needed by `parseBody` for this statement list. -/
def stmtsFuel : List Stmt → Nat
  | [] => 1
  | s :: t => 1 + max s.pFuel (stmtsFuel t)
termination_by structural l => l

end

/-! Match-dispatch and step equations of the fueled parsers. -/

theorem parseStmt_default (f : Nat) (toks : List Tok)
    (h : ∀ s r, toks = .idT (.Plain s) :: .lbrack :: r →
      ¬(lowerStr s = "graph" ∨ lowerStr s = "node" ∨ lowerStr s = "edge")) :
    parseStmt (f + 1) toks =
      match parseVertex f toks with
      | .error e => .error e
      | .ok (v, r1) => parseStmtAfterVertex f v r1 := by
  cases toks with
  | nil => rfl
  | cons t1 r =>
    cases t1 with
    | idT i =>
      cases i with
      | Plain s =>
        cases r with
        | nil => rfl
        | cons t2 r2 =>
          cases t2 with
          | lbrack => rw [parseStmt, if_neg (h s r2 rfl)]
          | idT j => rfl
          | lbrace => rfl
          | rbrace => rfl
          | rbrack => rfl
          | eqT => rfl
          | comma => rfl
          | semi => rfl
          | colon => rfl
          | edgeop b => rfl
      | Escaped s => rfl
      | Html s => rfl
      | Anonymous s => rfl
    | lbrace => rfl
    | rbrace => rfl
    | lbrack => rfl
    | rbrack => rfl
    | eqT => rfl
    | comma => rfl
    | semi => rfl
    | colon => rfl
    | edgeop b => rfl

theorem parseVertex_nodeId (f : Nat) (toks : List Tok)
    (h : ∀ s r, toks = .idT (.Plain s) :: r → lowerStr s ≠ "subgraph") :
    parseVertex (f + 1) toks =
      match parseNodeId toks with
      | .error e => .error e
      | .ok (n, r) => .ok (.N n, r) := by
  cases toks with
  | nil => rfl
  | cons t1 r =>
    cases t1 with
    | idT i =>
      cases i with
      | Plain s => rw [parseVertex, if_neg (h s r rfl)]
      | Escaped s => rfl
      | Html s => rfl
      | Anonymous s => rfl
    | lbrace => rfl
    | rbrace => rfl
    | lbrack => rfl
    | rbrack => rfl
    | eqT => rfl
    | comma => rfl
    | semi => rfl
    | colon => rfl
    | edgeop b => rfl

theorem parseVertex_sg (f : Nat) (ts : List Tok) :
    parseVertex (f + 1) (.idT (.Plain "subgraph") :: ts) =
      match parseSubgraph f (.idT (.Plain "subgraph") :: ts) with
      | .error e => .error e
      | .ok (sg, r) => .ok (.S sg, r) := by
  rw [parseVertex, if_pos (by decide)]

theorem parseSubgraph_step (f : Nat) (i : Id) (r2 : List Tok) :
    parseSubgraph (f + 1) (.idT (.Plain "subgraph") :: .idT i :: .lbrace :: r2) =
      match parseBody f r2 with
      | .error e => .error e
      | .ok (stmts, r3) =>
        match expectTok .rbrace r3 with
        | .error e => .error e
        | .ok r4 => .ok (⟨i, stmts⟩, r4) := by
  rw [parseSubgraph, if_pos (by decide)]

theorem pSAV_edgeop (f : Nat) (v : Vertex) (b : String) (ts : List Tok) :
    parseStmtAfterVertex (f + 1) v (.edgeop b :: ts) =
      match parseEdgeRest f v (.edgeop b :: ts) with
      | .error e => .error e
      | .ok (e, r1) => .ok (.Edge e, r1) := rfl

theorem pSAV_S (f : Nat) (sg : Subgraph) (ts : List Tok)
    (h : ∀ b, ts.head? ≠ some (.edgeop b)) :
    parseStmtAfterVertex (f + 1) (.S sg) ts = .ok (.Subgraph sg, ts) := by
  cases ts with
  | nil => rfl
  | cons t r =>
    cases t with
    | edgeop b => exact absurd rfl (h b)
    | idT i => rfl
    | lbrace => rfl
    | rbrace => rfl
    | lbrack => rfl
    | rbrack => rfl
    | eqT => rfl
    | comma => rfl
    | semi => rfl
    | colon => rfl

theorem pSAV_N_eq (f : Nat) (i : Id) (r2 : List Tok) :
    parseStmtAfterVertex (f + 1) (.N ⟨i, none⟩) (.eqT :: r2) =
      match parseIdTok r2 with
      | .error e => .error e
      | .ok (val, r3) => .ok (.Attribute ⟨i, val⟩, r3) := rfl

theorem pSAV_N_lbrack (f : Nat) (nid : NodeId) (ts : List Tok) :
    parseStmtAfterVertex (f + 1) (.N nid) (.lbrack :: ts) =
      match parseAttrList (.lbrack :: ts) with
      | .error e => .error e
      | .ok (attrs, r2) => .ok (.Node ⟨nid, attrs⟩, r2) := rfl

theorem pSAV_N_plain (f : Nat) (nid : NodeId) (ts : List Tok)
    (h : followOk ts) :
    parseStmtAfterVertex (f + 1) (.N nid) ts = .ok (.Node ⟨nid, []⟩, ts) := by
  cases ts with
  | nil => rfl
  | cons t r =>
    rcases h t rfl with rfl | ⟨i, rfl⟩
    · rfl
    · rfl

theorem parseEdgeRest_step (f : Nat) (v : Vertex) (b : String) (ts : List Tok) :
    parseEdgeRest (f + 1) v (.edgeop b :: ts) =
      match parseEdgeTail f [v] (.edgeop b :: ts) with
      | .error e => .error e
      | .ok (vs, r2) =>
        match process_edge_stmt_ty vs with
        | some ty =>
          match r2 with
          | .lbrack :: _ =>
            match parseAttrList r2 with
            | .error e => .error e
            | .ok (attrs, r3) => .ok (⟨ty, attrs⟩, r3)
          | _ => .ok (⟨ty, []⟩, r2)
        | none =>
            .error "unreachable: an edge chain with fewer than two vertices" :=
  rfl

theorem parseBody_step (f : Nat) (i : Id) (ts : List Tok) :
    parseBody (f + 1) (.idT i :: ts) =
      match parseStmt f (.idT i :: ts) with
      | .error e => .error e
      | .ok (s, r1) =>
        match parseBody f (dropSeps r1) with
        | .error e => .error e
        | .ok (rest, r2) => .ok (s :: rest, r2) := rfl

theorem parseBody_stop (f : Nat) (ts : List Tok) :
    parseBody (f + 1) (.rbrace :: ts) = .ok ([], .rbrace :: ts) := rfl

theorem parseEdgeTail_step (f : Nat) (acc : List Vertex) (b : String)
    (ts : List Tok) :
    parseEdgeTail (f + 1) acc (.edgeop b :: ts) =
      match parseVertex f ts with
      | .error e => .error e
      | .ok (v, r2) => parseEdgeTail f (acc ++ [v]) r2 := rfl

theorem parseEdgeTail_stop (f : Nat) (acc : List Vertex) (ts : List Tok)
    (h : ∀ b, ts.head? ≠ some (.edgeop b)) :
    parseEdgeTail (f + 1) acc ts = .ok (acc, ts) := by
  cases ts with
  | nil => rfl
  | cons t r =>
    cases t with
    | edgeop b => exact absurd rfl (h b)
    | idT i => rfl
    | lbrace => rfl
    | rbrace => rfl
    | lbrack => rfl
    | rbrack => rfl
    | eqT => rfl
    | comma => rfl
    | semi => rfl
    | colon => rfl


/-! Standalone parse lemmas for node-id vertices and edge chains. -/

theorem nodeIdToks_head (nid : NodeId) (rest : List Tok) :
    ∃ T, chunksToks (nodeIdChunks nid) ++ rest = .idT nid.id :: T := ⟨_, rfl⟩

theorem nodeId_rtOk_id (nid : NodeId) (h : NodeId.rtOk nid = true) :
    nid.id.rtOk = true := by
  obtain ⟨i, pt⟩ := nid
  cases pt with
  | none => exact h
  | some p =>
    rw [NodeId.rtOk, Bool.and_eq_true] at h
    exact h.1

theorem parseVertexN_toks (f : Nat) (nid : NodeId) (rest : List Tok)
    (hn : NodeId.rtOk nid = true) (hr : rest.head? ≠ some .colon)
    (hf : 1 ≤ f) :
    parseVertex f (chunksToks (nodeIdChunks nid) ++ rest) = .ok (.N nid, rest) := by
  cases f with
  | zero => omega
  | succ f =>
    rw [parseVertex_nodeId f _ ?hkw]
    case hkw =>
      intro s r heq
      obtain ⟨T, hT⟩ := nodeIdToks_head nid rest
      rw [hT] at heq
      injection heq with h1 h2
      injection h1 with h1
      have hid := nodeId_rtOk_id nid hn
      rw [h1] at hid
      rw [Id.rtOk, Bool.and_eq_true] at hid
      exact (nonKeyword_ne s hid.2).2.2.1
    rw [parseNodeId_toks nid rest hn hr]

theorem chainToks_head (bond : String) (w : Vertex) (t2 : List Vertex)
    (X : List Tok) :
    (chunksToks (chainChunks bond (w :: t2)) ++ X).head? =
      some (.edgeop bond) := rfl

theorem parseEdgeTail_toks : ∀ (vs : List Vertex) (f : Nat)
    (acc : List Vertex) (bond : String) (rest : List Tok),
    vsNRtOk vs = true → rest.head? ≠ some .colon →
    (∀ b, rest.head? ≠ some (.edgeop b)) → vs.length + 1 ≤ f →
    parseEdgeTail f acc (chunksToks (chainChunks bond vs) ++ rest) =
      .ok (acc ++ vs, rest) := by
  intro vs
  induction vs with
  | nil =>
    intro f acc bond rest hv hc he hf
    cases f with
    | zero => omega
    | succ f =>
      rw [show chunksToks (chainChunks bond []) ++ rest = rest from rfl]
      rw [parseEdgeTail_stop f acc rest he]
      simp
  | cons v t ih =>
    intro f acc bond rest hv hc he hf
    cases v with
    | S sg =>
      rw [show vsNRtOk (.S sg :: t) = false from rfl] at hv
      simp at hv
    | N a =>
      rw [show vsNRtOk (.N a :: t) = (a.rtOk && vsNRtOk t) from rfl,
        Bool.and_eq_true] at hv
      cases f with
      | zero => omega
      | succ f =>
        have htoks : chunksToks (chainChunks bond (.N a :: t)) ++ rest =
            .edgeop bond :: (chunksToks (nodeIdChunks a) ++
              (chunksToks (chainChunks bond t) ++ rest)) := by
          rw [show chunksToks (chainChunks bond (.N a :: t)) =
            .edgeop bond ::
              chunksToks (wsCons [' '] (vChunks (.N a)) ++ chainChunks bond t)
            from rfl]
          rw [chunksToks_append, wsCons_toks]
          simp [vChunks]
        rw [htoks, parseEdgeTail_step]
        have hXc : (chunksToks (chainChunks bond t) ++ rest).head? ≠
            some .colon := by
          cases t with
          | nil =>
            rw [show chunksToks (chainChunks bond []) ++ rest = rest from rfl]
            exact hc
          | cons w t2 =>
            rw [chainToks_head]
            simp
        have hfa : 1 ≤ f := by
          rw [List.length_cons] at hf
          omega
        rw [parseVertexN_toks f a _ hv.1 hXc hfa]
        dsimp only
        refine (ih f (acc ++ [Vertex.N a]) bond rest hv.2 hc he
          (by rw [List.length_cons] at hf; omega)).trans ?_
        simp


/-! Fuel bounds: the fuel each parser needs is dominated by the number of
printed chunks (hence by the token count the wrapper provides). -/

theorem chunksToks_len (l : List Chunk) : (chunksToks l).length = l.length :=
  List.length_map _ _

theorem wsCons_len (w : List Char) (l : List Chunk) :
    (wsCons w l).length = l.length := by
  cases l with
  | nil => rfl
  | cons c r =>
    obtain ⟨ws, t⟩ := c
    rfl

theorem nodeIdChunks_len (nid : NodeId) : 1 ≤ (nodeIdChunks nid).length := by
  rw [nodeIdChunks]
  simp

theorem chainChunks_len : ∀ (vs : List Vertex) (bond : String),
    vsNRtOk vs = true → 2 * vs.length ≤ (chainChunks bond vs).length := by
  intro vs
  induction vs with
  | nil =>
    intro bond h
    simp
  | cons v t ih =>
    intro bond h
    cases v with
    | S sg =>
      rw [show vsNRtOk (.S sg :: t) = false from rfl] at h
      simp at h
    | N a =>
      rw [show vsNRtOk (.N a :: t) = (a.rtOk && vsNRtOk t) from rfl,
        Bool.and_eq_true] at h
      have h1 := ih bond h.2
      have h2 := nodeIdChunks_len a
      rw [show chainChunks bond (.N a :: t) =
        ([' '], .edgeop bond) ::
          (wsCons [' '] (vChunks (.N a)) ++ chainChunks bond t) from rfl]
      rw [show vChunks (.N a) = nodeIdChunks a from rfl]
      simp only [List.length_cons, List.length_append, wsCons_len]
      omega

mutual

theorem stmt_pFuel_le : ∀ (s : Stmt) (n step : Nat) (bond : String),
    Stmt.rtOk s = true →
    1 ≤ (stmtChunks n step bond s).length ∧
    Stmt.pFuel s ≤ (stmtChunks n step bond s).length + 2
  | .Node nd, n, step, bond => by
    intro hs
    rw [show Stmt.pFuel (.Node nd) = 2 from rfl, stmtChunks]
    rw [List.length_append]
    have := nodeIdChunks_len nd.id
    omega
  | .Attribute a, n, step, bond => by
    intro hs
    rw [show Stmt.pFuel (.Attribute a) = 2 from rfl, stmtChunks, attrChunks]
    simp
  | .GAttribute (.Graph l), n, step, bond => by
    intro hs
    rw [show Stmt.pFuel (.GAttribute (.Graph l)) = 2 from rfl, stmtChunks]
    rw [List.length_cons]
    omega
  | .GAttribute (.Node l), n, step, bond => by
    intro hs
    rw [show Stmt.pFuel (.GAttribute (.Node l)) = 2 from rfl, stmtChunks]
    rw [List.length_cons]
    omega
  | .GAttribute (.Edge l), n, step, bond => by
    intro hs
    rw [show Stmt.pFuel (.GAttribute (.Edge l)) = 2 from rfl, stmtChunks]
    rw [List.length_cons]
    omega
  | .Edge (.mk ty attrs), n, step, bond => by
    intro hs
    rw [show Stmt.rtOk (.Edge (.mk ty attrs)) =
      (edgeTyRtOk ty && attrsRtOk attrs) from rfl, Bool.and_eq_true] at hs
    rw [show Stmt.pFuel (.Edge (.mk ty attrs)) = edgeTyFuel ty from rfl]
    rw [show stmtChunks n step bond (.Edge (.mk ty attrs)) =
      edgeChunks bond ty attrs from rfl]
    cases ty with
    | Pair va vb =>
      cases va with
      | S sg =>
        rw [show edgeTyRtOk (.Pair (.S sg) vb) = false from rfl] at hs
        simp at hs
      | N a =>
        cases vb with
        | S sg =>
          rw [show edgeTyRtOk (.Pair (.N a) (.S sg)) = false from rfl] at hs
          simp at hs
        | N b =>
          rw [show edgeTyFuel (.Pair (.N a) (.N b)) = 5 from rfl, edgeChunks]
          rw [List.length_append, List.length_cons, List.length_append,
            wsCons_len]
          rw [show vChunks (.N a) = nodeIdChunks a from rfl,
            show vChunks (.N b) = nodeIdChunks b from rfl]
          have ha := nodeIdChunks_len a
          have hb := nodeIdChunks_len b
          omega
    | Chain vs =>
      rw [show edgeTyRtOk (.Chain vs) =
        (decide (3 ≤ vs.length) && vsNRtOk vs) from rfl,
        Bool.and_eq_true, decide_eq_true_eq] at hs
      obtain ⟨⟨hlen, hvs⟩, hattrs⟩ := hs
      cases vs with
      | nil => simp at hlen
      | cons h t =>
        cases h with
        | S sg =>
          rw [show vsNRtOk (.S sg :: t) = false from rfl] at hvs
          simp at hvs
        | N a =>
          rw [show vsNRtOk (.N a :: t) = (a.rtOk && vsNRtOk t) from rfl,
            Bool.and_eq_true] at hvs
          rw [show edgeTyFuel (.Chain (.N a :: t)) =
            (Vertex.N a :: t).length + 3 from rfl, edgeChunks]
          have hct := chainChunks_len t bond hvs.2
          have ha := nodeIdChunks_len a
          rw [show vChunks (.N a) = nodeIdChunks a from rfl]
          simp only [List.length_cons, List.length_append] at hlen ⊢
          omega
  | .Subgraph sg, n, step, bond => by
    intro hs
    rw [show Stmt.rtOk (.Subgraph sg) = sg.rtOk from rfl] at hs
    rw [show Stmt.pFuel (.Subgraph sg) = Subgraph.pFuel sg + 2 from rfl,
      stmtChunks]
    have hsub := subgraph_pFuel_le sg n step bond hs
    have hlen : 1 ≤ (subgraphChunks n step bond sg).length := by
      obtain ⟨id, stmts⟩ := sg
      rw [subgraphChunks]
      simp
    omega
termination_by structural s => s

theorem subgraph_pFuel_le : ∀ (sg : Subgraph) (n step : Nat) (bond : String),
    Subgraph.rtOk sg = true →
    Subgraph.pFuel sg ≤ (subgraphChunks n step bond sg).length
  | .mk id stmts, n, step, bond => by
    intro hs
    rw [show Subgraph.rtOk (.mk id stmts) = (id.rtOk && stmtsRtOk stmts)
      from rfl, Bool.and_eq_true] at hs
    rw [show Subgraph.pFuel (.mk id stmts) = stmtsFuel stmts + 1 from rfl,
      subgraphChunks]
    have := stmtsFuel_le stmts (n + step) step bond hs.2
    rw [List.length_cons, List.length_cons, List.length_cons,
      List.length_append, List.length_cons]
    omega
termination_by structural sg => sg

theorem stmtsFuel_le : ∀ (l : List Stmt) (n step : Nat) (bond : String),
    stmtsRtOk l = true →
    stmtsFuel l ≤ (stmtsChunks n step bond l).length + 3
  | [], n, step, bond => by
    intro hl
    rw [stmtsFuel, stmtsChunks]
    simp
  | s :: t, n, step, bond => by
    intro hl
    rw [stmtsRtOk, Bool.and_eq_true] at hl
    rw [show stmtsFuel (s :: t) = 1 + max s.pFuel (stmtsFuel t) from rfl,
      stmtsChunks]
    have hs := stmt_pFuel_le s n step bond hl.1
    have ht := stmtsFuel_le t n step bond hl.2
    rw [List.length_append, wsCons_len]
    omega
termination_by structural l => l

end


/-! Head shapes of printed statement token lists, and fuel floors. -/

theorem chunksToks_cons (c : Chunk) (l : List Chunk) :
    chunksToks (c :: l) = c.2 :: chunksToks l := rfl

theorem edgeAttrsToks (attrs : List Attribute) :
    chunksToks (if attrs.isEmpty then []
      else wsCons [' '] (attrsChunks attrs)) =
    chunksToks (attrsChunks attrs) := by
  cases attrs with
  | nil => rfl
  | cons x xs => rw [if_neg (by simp), wsCons_toks]

theorem stmt_pFuel_ge (s : Stmt) : 2 ≤ Stmt.pFuel s := by
  cases s with
  | Node nd => rw [show Stmt.pFuel (.Node nd) = 2 from rfl]
  | Attribute a => rw [show Stmt.pFuel (.Attribute a) = 2 from rfl]
  | GAttribute ga =>
    rw [show Stmt.pFuel (.GAttribute ga) = 2 from rfl]
  | Edge e =>
    obtain ⟨ty, attrs⟩ := e
    rw [show Stmt.pFuel (.Edge (.mk ty attrs)) = edgeTyFuel ty from rfl]
    cases ty with
    | Pair a b => rw [show edgeTyFuel (.Pair a b) = 5 from rfl]; omega
    | Chain vs =>
      rw [show edgeTyFuel (.Chain vs) = vs.length + 3 from rfl]
      omega
  | Subgraph sg =>
    rw [show Stmt.pFuel (.Subgraph sg) = Subgraph.pFuel sg + 2 from rfl]
    omega

theorem stmtsFuel_ge (l : List Stmt) : 1 ≤ stmtsFuel l := by
  cases l with
  | nil => rw [stmtsFuel]
  | cons s t =>
    rw [show stmtsFuel (s :: t) = 1 + max s.pFuel (stmtsFuel t) from rfl]
    omega

theorem subgraph_pFuel_ge (sg : Subgraph) : 2 ≤ Subgraph.pFuel sg := by
  obtain ⟨id, stmts⟩ := sg
  rw [show Subgraph.pFuel (.mk id stmts) = stmtsFuel stmts + 1 from rfl]
  have := stmtsFuel_ge stmts
  omega

theorem stmtToks_head : ∀ (s : Stmt) (n step : Nat) (bond : String),
    Stmt.rtOk s = true →
    ∃ i ts, chunksToks (stmtChunks n step bond s) = .idT i :: ts := by
  intro s n step bond hs
  cases s with
  | Node nd => exact ⟨nd.id.id, _, rfl⟩
  | Attribute a => exact ⟨a.key, _, rfl⟩
  | GAttribute ga =>
    cases ga with
    | Graph l => exact ⟨.Plain "graph", _, rfl⟩
    | Node l => exact ⟨.Plain "node", _, rfl⟩
    | Edge l => exact ⟨.Plain "edge", _, rfl⟩
  | Subgraph sg =>
    obtain ⟨id, stmts⟩ := sg
    exact ⟨.Plain "subgraph", _, rfl⟩
  | Edge e =>
    obtain ⟨ty, attrs⟩ := e
    rw [show Stmt.rtOk (.Edge (.mk ty attrs)) =
      (edgeTyRtOk ty && attrsRtOk attrs) from rfl, Bool.and_eq_true] at hs
    cases ty with
    | Pair va vb =>
      cases va with
      | S sg =>
        rw [show edgeTyRtOk (.Pair (.S sg) vb) = false from rfl] at hs
        simp at hs
      | N a => exact ⟨a.id, _, rfl⟩
    | Chain vs =>
      rw [show edgeTyRtOk (.Chain vs) =
        (decide (3 ≤ vs.length) && vsNRtOk vs) from rfl,
        Bool.and_eq_true, decide_eq_true_eq] at hs
      obtain ⟨⟨hlen, hvs⟩, _⟩ := hs
      cases vs with
      | nil => simp at hlen
      | cons h t =>
        cases h with
        | S sg =>
          rw [show vsNRtOk (.S sg :: t) = false from rfl] at hvs
          simp at hvs
        | N a => exact ⟨a.id, _, rfl⟩

theorem stmtsToks_split (s : Stmt) (t : List Stmt) (n step : Nat)
    (bond : String) (rest : List Tok) :
    chunksToks (stmtsChunks n step bond (s :: t)) ++ rest =
      chunksToks (stmtChunks n step bond s) ++
        (chunksToks (stmtsChunks n step bond t) ++ rest) := by
  rw [show stmtsChunks n step bond (s :: t) =
    wsCons ('\n' :: spacesC n) (stmtChunks n step bond s) ++
      stmtsChunks n step bond t from rfl, chunksToks_append, wsCons_toks,
    List.append_assoc]

theorem stmtsToks_follow (l : List Stmt) (n step : Nat) (bond : String)
    (rest : List Tok) (hl : stmtsRtOk l = true)
    (hr : rest.head? = some .rbrace) :
    followOk (chunksToks (stmtsChunks n step bond l) ++ rest) := by
  cases l with
  | nil =>
    intro t ht
    rw [show chunksToks (stmtsChunks n step bond []) ++ rest = rest from rfl,
      hr, Option.some.injEq] at ht
    exact Or.inl ht.symm
  | cons s t =>
    rw [stmtsRtOk, Bool.and_eq_true] at hl
    obtain ⟨i, ts, hts⟩ := stmtToks_head s n step bond hl.1
    intro t' ht'
    rw [stmtsToks_split, hts, List.cons_append, List.head?_cons,
      Option.some.injEq] at ht'
    exact Or.inr ⟨i, ht'.symm⟩


theorem attrsRestToks_head (attrs : List Attribute) (rest : List Tok)
    (hr : followOk rest) (t : Tok)
    (ht : (chunksToks (attrsChunks attrs) ++ rest).head? = some t) :
    t = .lbrack ∨ t = .rbrace ∨ ∃ i, t = .idT i := by
  cases attrs with
  | nil =>
    rw [show chunksToks (attrsChunks ([] : List Attribute)) ++ rest = rest
      from rfl] at ht
    rcases hr t ht with h | h
    · exact Or.inr (Or.inl h)
    · exact Or.inr (Or.inr h)
  | cons a1 l1 =>
    rw [show chunksToks (attrsChunks (a1 :: l1)) ++ rest =
      .lbrack :: (chunksToks (attrsBodyChunks (a1 :: l1) ++
        [([], Tok.rbrack)]) ++ rest) from rfl,
      List.head?_cons, Option.some.injEq] at ht
    exact Or.inl ht.symm

mutual

theorem parseStmt_toks : ∀ (f : Nat) (s : Stmt) (n step : Nat)
    (bond : String) (rest : List Tok), Stmt.rtOk s = true → followOk rest →
    Stmt.pFuel s ≤ f →
    parseStmt f (chunksToks (stmtChunks n step bond s) ++ rest) = .ok (s, rest)
  | 0, s, n, step, bond, rest => by
    intro hs hr hf
    have := stmt_pFuel_ge s
    omega
  | f + 1, s, n, step, bond, rest => by
    intro hs hr hf
    cases s with
    | Node nd =>
      obtain ⟨nid, attrs⟩ := nd
      rw [show Stmt.rtOk (.Node (.mk nid attrs)) =
        (nid.rtOk && attrsRtOk attrs) from rfl, Bool.and_eq_true] at hs
      rw [show Stmt.pFuel (.Node (.mk nid attrs)) = 2 from rfl] at hf
      have hsplit :
          chunksToks (stmtChunks n step bond (.Node (.mk nid attrs))) ++ rest =
          chunksToks (nodeIdChunks nid) ++
            (chunksToks (attrsChunks attrs) ++ rest) := by
        rw [show stmtChunks n step bond (.Node (.mk nid attrs)) =
          nodeIdChunks nid ++ attrsChunks attrs from rfl, chunksToks_append,
          List.append_assoc]
      rw [hsplit, parseStmt_default f _ ?nkw]
      case nkw =>
        intro s' r' heq
        obtain ⟨T, hT⟩ :=
          nodeIdToks_head nid (chunksToks (attrsChunks attrs) ++ rest)
        rw [hT] at heq
        injection heq with h1 h2
        injection h1 with h1
        have hid := nodeId_rtOk_id nid hs.1
        rw [h1] at hid
        rw [Id.rtOk, Bool.and_eq_true] at hid
        have h6 := nonKeyword_ne s' hid.2
        intro hor
        rcases hor with h | h | h
        · exact h6.1 h
        · exact h6.2.2.2.2.1 h
        · exact h6.2.2.2.2.2 h
      have hcol : (chunksToks (attrsChunks attrs) ++ rest).head? ≠
          some .colon := by
        intro hcontr
        rcases attrsRestToks_head attrs rest hr _ hcontr with h | h | ⟨i, h⟩ <;>
          simp at h
      rw [parseVertexN_toks f nid _ hs.1 hcol (by omega)]
      dsimp only
      cases f with
      | zero => omega
      | succ g =>
        cases attrs with
        | nil =>
          rw [show chunksToks (attrsChunks ([] : List Attribute)) ++ rest =
            rest from rfl]
          rw [pSAV_N_plain g nid rest hr]
        | cons a1 l1 =>
          rw [show chunksToks (attrsChunks (a1 :: l1)) ++ rest =
            .lbrack :: (chunksToks (attrsBodyChunks (a1 :: l1) ++
              [([], Tok.rbrack)]) ++ rest) from rfl]
          rw [pSAV_N_lbrack g nid _]
          rw [show (Tok.lbrack :: (chunksToks (attrsBodyChunks (a1 :: l1) ++
              [([], Tok.rbrack)]) ++ rest) : List Tok) =
            chunksToks (attrsChunks (a1 :: l1)) ++ rest from rfl]
          rw [parseAttrList_toks (a1 :: l1) rest hs.2 (by simp) ?nlb]
          case nlb =>
            intro hcontr
            rcases hr _ hcontr with h | ⟨i, h⟩ <;> simp at h
    | Attribute a =>
      obtain ⟨k, v⟩ := a
      rw [show Stmt.rtOk (.Attribute (.mk k v)) = (k.rtOk && v.rtOk) from rfl,
        Bool.and_eq_true] at hs
      rw [show Stmt.pFuel (.Attribute (.mk k v)) = 2 from rfl] at hf
      rw [show chunksToks (stmtChunks n step bond (.Attribute (.mk k v))) ++
        rest = .idT k :: .eqT :: .idT v :: rest from rfl]
      rw [parseStmt_default f _ ?akw]
      case akw =>
        intro s' r' heq
        injection heq with h1 h2
        injection h2 with h21 h22
        exact absurd h21 (by simp)
      cases f with
      | zero => omega
      | succ g =>
        rw [parseVertex_nodeId g _ ?askw]
        case askw =>
          intro s' r' heq
          injection heq with h1 h2
          injection h1 with h1
          have hkk : Id.rtOk (.Plain s') = true := h1 ▸ hs.1
          rw [Id.rtOk, Bool.and_eq_true] at hkk
          exact (nonKeyword_ne s' hkk.2).2.2.1
        rw [show (Tok.idT k :: Tok.eqT :: Tok.idT v :: rest : List Tok) =
          chunksToks (nodeIdChunks (.mk k none)) ++
            (.eqT :: .idT v :: rest) from rfl]
        rw [parseNodeId_toks (.mk k none) _
          (show NodeId.rtOk (.mk k none) = true from hs.1) (by simp)]
        dsimp only
        rw [pSAV_N_eq g k (.idT v :: rest)]
        rw [show parseIdTok (Tok.idT v :: rest) = .ok (v, rest) from rfl]
    | GAttribute ga =>
      rw [show Stmt.pFuel (.GAttribute ga) = 2 from rfl] at hf
      cases ga with
      | Graph l =>
        rw [show Stmt.rtOk (.GAttribute (.Graph l)) =
          (!l.isEmpty && attrsRtOk l) from rfl, Bool.and_eq_true,
          Bool.not_eq_true'] at hs
        cases l with
        | nil => simp at hs
        | cons a1 l1 =>
          rw [show chunksToks (stmtChunks n step bond
              (.GAttribute (.Graph (a1 :: l1)))) ++ rest =
            .idT (.Plain "graph") :: .lbrack ::
              (chunksToks (attrsBodyChunks (a1 :: l1) ++
                [([], Tok.rbrack)]) ++ rest) from rfl]
          rw [parseStmt,
            if_pos (Or.inl (show lowerStr "graph" = "graph" from by decide))]
          rw [show (Tok.idT (Id.Plain "graph") :: Tok.lbrack ::
              (chunksToks (attrsBodyChunks (a1 :: l1) ++
                [([], Tok.rbrack)]) ++ rest) : List Tok).tail =
            chunksToks (attrsChunks (a1 :: l1)) ++ rest from rfl]
          rw [parseAttrList_toks (a1 :: l1) rest hs.2 (by simp) ?glb]
          case glb =>
            intro hcontr
            rcases hr _ hcontr with h | ⟨i, h⟩ <;> simp at h
          dsimp only
          rw [show GraphAttributes.new "graph" (a1 :: l1) =
            some (.Graph (a1 :: l1)) from by
              rw [GraphAttributes.new,
                if_pos (show lowerStr "graph" = "graph" from by decide)]]
      | Node l =>
        rw [show Stmt.rtOk (.GAttribute (.Node l)) =
          (!l.isEmpty && attrsRtOk l) from rfl, Bool.and_eq_true,
          Bool.not_eq_true'] at hs
        cases l with
        | nil => simp at hs
        | cons a1 l1 =>
          rw [show chunksToks (stmtChunks n step bond
              (.GAttribute (.Node (a1 :: l1)))) ++ rest =
            .idT (.Plain "node") :: .lbrack ::
              (chunksToks (attrsBodyChunks (a1 :: l1) ++
                [([], Tok.rbrack)]) ++ rest) from rfl]
          rw [parseStmt, if_pos (Or.inr (Or.inl
            (show lowerStr "node" = "node" from by decide)))]
          rw [show (Tok.idT (Id.Plain "node") :: Tok.lbrack ::
              (chunksToks (attrsBodyChunks (a1 :: l1) ++
                [([], Tok.rbrack)]) ++ rest) : List Tok).tail =
            chunksToks (attrsChunks (a1 :: l1)) ++ rest from rfl]
          rw [parseAttrList_toks (a1 :: l1) rest hs.2 (by simp) ?nolb]
          case nolb =>
            intro hcontr
            rcases hr _ hcontr with h | ⟨i, h⟩ <;> simp at h
          dsimp only
          rw [show GraphAttributes.new "node" (a1 :: l1) =
            some (.Node (a1 :: l1)) from by
              rw [GraphAttributes.new,
                if_neg (show ¬(lowerStr "node" = "graph") from by decide),
                if_pos (show lowerStr "node" = "node" from by decide)]]
      | Edge l =>
        rw [show Stmt.rtOk (.GAttribute (.Edge l)) =
          (!l.isEmpty && attrsRtOk l) from rfl, Bool.and_eq_true,
          Bool.not_eq_true'] at hs
        cases l with
        | nil => simp at hs
        | cons a1 l1 =>
          rw [show chunksToks (stmtChunks n step bond
              (.GAttribute (.Edge (a1 :: l1)))) ++ rest =
            .idT (.Plain "edge") :: .lbrack ::
              (chunksToks (attrsBodyChunks (a1 :: l1) ++
                [([], Tok.rbrack)]) ++ rest) from rfl]
          rw [parseStmt, if_pos (Or.inr (Or.inr
            (show lowerStr "edge" = "edge" from by decide)))]
          rw [show (Tok.idT (Id.Plain "edge") :: Tok.lbrack ::
              (chunksToks (attrsBodyChunks (a1 :: l1) ++
                [([], Tok.rbrack)]) ++ rest) : List Tok).tail =
            chunksToks (attrsChunks (a1 :: l1)) ++ rest from rfl]
          rw [parseAttrList_toks (a1 :: l1) rest hs.2 (by simp) ?edlb]
          case edlb =>
            intro hcontr
            rcases hr _ hcontr with h | ⟨i, h⟩ <;> simp at h
          dsimp only
          rw [show GraphAttributes.new "edge" (a1 :: l1) =
            some (.Edge (a1 :: l1)) from by
              rw [GraphAttributes.new,
                if_neg (show ¬(lowerStr "edge" = "graph") from by decide),
                if_neg (show ¬(lowerStr "edge" = "node") from by decide),
                if_pos (show lowerStr "edge" = "edge" from by decide)]]
    | Edge e =>
      obtain ⟨ty, attrs⟩ := e
      rw [show Stmt.rtOk (.Edge (.mk ty attrs)) =
        (edgeTyRtOk ty && attrsRtOk attrs) from rfl, Bool.and_eq_true] at hs
      rw [show Stmt.pFuel (.Edge (.mk ty attrs)) = edgeTyFuel ty from rfl] at hf
      have hXcol : (chunksToks (attrsChunks attrs) ++ rest).head? ≠
          some .colon := by
        intro hcontr
        rcases attrsRestToks_head attrs rest hr _ hcontr with h | h | ⟨i, h⟩ <;>
          simp at h
      have hXeop : ∀ b, (chunksToks (attrsChunks attrs) ++ rest).head? ≠
          some (.edgeop b) := by
        intro b hcontr
        rcases attrsRestToks_head attrs rest hr _ hcontr with h | h | ⟨i, h⟩ <;>
          simp at h
      cases ty with
      | Pair va vb =>
        cases va with
        | S sg =>
          rw [show edgeTyRtOk (.Pair (.S sg) vb) = false from rfl] at hs
          simp at hs
        | N a =>
          cases vb with
          | S sg =>
            rw [show edgeTyRtOk (.Pair (.N a) (.S sg)) = false from rfl] at hs
            simp at hs
          | N b =>
            rw [show edgeTyRtOk (.Pair (.N a) (.N b)) = (a.rtOk && b.rtOk)
              from rfl, Bool.and_eq_true] at hs
            rw [show edgeTyFuel (.Pair (.N a) (.N b)) = 5 from rfl] at hf
            have hsplit : chunksToks (stmtChunks n step bond
                (.Edge (.mk (.Pair (.N a) (.N b)) attrs))) ++ rest =
                chunksToks (nodeIdChunks a) ++ (.edgeop bond ::
                  (chunksToks (nodeIdChunks b) ++
                    (chunksToks (attrsChunks attrs) ++ rest))) := by
              rw [show stmtChunks n step bond
                  (.Edge (.mk (.Pair (.N a) (.N b)) attrs)) =
                edgeChunks bond (.Pair (.N a) (.N b)) attrs from rfl,
                edgeChunks, chunksToks_append, chunksToks_cons,
                chunksToks_append, wsCons_toks, edgeAttrsToks]
              rw [show vChunks (.N a) = nodeIdChunks a from rfl,
                show vChunks (.N b) = nodeIdChunks b from rfl]
              simp [List.append_assoc]
            rw [hsplit, parseStmt_default f _ ?pkw]
            case pkw =>
              intro s' r' heq
              obtain ⟨T, hT⟩ := nodeIdToks_head a (.edgeop bond ::
                (chunksToks (nodeIdChunks b) ++
                  (chunksToks (attrsChunks attrs) ++ rest)))
              rw [hT] at heq
              injection heq with h1 h2
              injection h1 with h1
              have hid := nodeId_rtOk_id a hs.1.1
              rw [h1] at hid
              rw [Id.rtOk, Bool.and_eq_true] at hid
              have h6 := nonKeyword_ne s' hid.2
              intro hor
              rcases hor with h | h | h
              · exact h6.1 h
              · exact h6.2.2.2.2.1 h
              · exact h6.2.2.2.2.2 h
            rw [parseVertexN_toks f a _ hs.1.1 (by simp) (by omega)]
            dsimp only
            cases f with
            | zero => omega
            | succ g =>
              rw [pSAV_edgeop g]
              cases g with
              | zero => omega
              | succ g2 =>
                rw [parseEdgeRest_step g2]
                have hchain : (Tok.edgeop bond ::
                    (chunksToks (nodeIdChunks b) ++
                      (chunksToks (attrsChunks attrs) ++ rest)) : List Tok) =
                    chunksToks (chainChunks bond [Vertex.N b]) ++
                      (chunksToks (attrsChunks attrs) ++ rest) := by
                  rw [show chainChunks bond [Vertex.N b] =
                    ([' '], Tok.edgeop bond) ::
                      (wsCons [' '] (vChunks (.N b)) ++ chainChunks bond [])
                    from rfl, chunksToks_cons, chunksToks_append, wsCons_toks]
                  rw [show vChunks (.N b) = nodeIdChunks b from rfl]
                  simp [show chunksToks (chainChunks bond ([] : List Vertex)) =
                    ([] : List Tok) from rfl]
                rw [hchain]
                rw [parseEdgeTail_toks [Vertex.N b] g2 [Vertex.N a] bond _
                  (show vsNRtOk [Vertex.N b] = true from by
                    rw [show vsNRtOk [Vertex.N b] = (b.rtOk && true) from rfl,
                      hs.1.2]
                    rfl)
                  hXcol hXeop
                  (by simp only [List.length_cons, List.length_nil]; omega)]
                dsimp only
                rw [show ([Vertex.N a] ++ [Vertex.N b] : List Vertex) =
                  [Vertex.N a, Vertex.N b] from rfl]
                rw [show process_edge_stmt_ty [Vertex.N a, Vertex.N b] =
                  some (.Pair (.N a) (.N b)) from rfl]
                dsimp only
                cases attrs with
                | nil =>
                  rw [show chunksToks (attrsChunks ([] : List Attribute)) ++
                    rest = rest from rfl]
                  cases rest with
                  | nil => rfl
                  | cons t r =>
                    rcases hr t rfl with rfl | ⟨i, rfl⟩
                    · rfl
                    · rfl
                | cons a1 l1 =>
                  rw [show chunksToks (attrsChunks (a1 :: l1)) ++ rest =
                    .lbrack :: (chunksToks (attrsBodyChunks (a1 :: l1) ++
                      [([], Tok.rbrack)]) ++ rest) from rfl]
                  dsimp only
                  rw [show (Tok.lbrack ::
                      (chunksToks (attrsBodyChunks (a1 :: l1) ++
                        [([], Tok.rbrack)]) ++ rest) : List Tok) =
                    chunksToks (attrsChunks (a1 :: l1)) ++ rest from rfl]
                  rw [parseAttrList_toks (a1 :: l1) rest hs.2 (by simp) ?plb]
                  case plb =>
                    intro hcontr
                    rcases hr _ hcontr with h | ⟨i, h⟩ <;> simp at h
      | Chain vs =>
        rw [show edgeTyRtOk (.Chain vs) =
          (decide (3 ≤ vs.length) && vsNRtOk vs) from rfl,
          Bool.and_eq_true, decide_eq_true_eq] at hs
        obtain ⟨⟨hlen, hvs⟩, hattrs⟩ := hs
        cases vs with
        | nil => simp at hlen
        | cons h0 t =>
          cases h0 with
          | S sg =>
            rw [show vsNRtOk (.S sg :: t) = false from rfl] at hvs
            simp at hvs
          | N a =>
            rw [show vsNRtOk (.N a :: t) = (a.rtOk && vsNRtOk t) from rfl,
              Bool.and_eq_true] at hvs
            cases t with
            | nil => simp at hlen
            | cons w t2 =>
              simp only [List.length_cons] at hlen
              rw [show edgeTyFuel (.Chain (Vertex.N a :: w :: t2)) =
                (Vertex.N a :: w :: t2).length + 3 from rfl,
                List.length_cons, List.length_cons] at hf
              have hsplit : chunksToks (stmtChunks n step bond
                  (.Edge (.mk (.Chain (Vertex.N a :: w :: t2)) attrs))) ++
                    rest =
                  chunksToks (nodeIdChunks a) ++
                    (chunksToks (chainChunks bond (w :: t2)) ++
                      (chunksToks (attrsChunks attrs) ++ rest)) := by
                rw [show stmtChunks n step bond
                    (.Edge (.mk (.Chain (Vertex.N a :: w :: t2)) attrs)) =
                  edgeChunks bond (.Chain (Vertex.N a :: w :: t2)) attrs
                  from rfl, edgeChunks, chunksToks_append, chunksToks_append]
                rw [show vChunks (.N a) = nodeIdChunks a from rfl]
                simp [List.append_assoc]
              rw [hsplit, parseStmt_default f _ ?ckw]
              case ckw =>
                intro s' r' heq
                obtain ⟨T, hT⟩ := nodeIdToks_head a
                  (chunksToks (chainChunks bond (w :: t2)) ++
                    (chunksToks (attrsChunks attrs) ++ rest))
                rw [hT] at heq
                injection heq with h1 h2
                injection h1 with h1
                have hid := nodeId_rtOk_id a hvs.1
                rw [h1] at hid
                rw [Id.rtOk, Bool.and_eq_true] at hid
                have h6 := nonKeyword_ne s' hid.2
                intro hor
                rcases hor with h | h | h
                · exact h6.1 h
                · exact h6.2.2.2.2.1 h
                · exact h6.2.2.2.2.2 h
              have hcol2 : (chunksToks (chainChunks bond (w :: t2)) ++
                  (chunksToks (attrsChunks attrs) ++ rest)).head? ≠
                  some .colon := by
                rw [chainToks_head]
                simp
              rw [parseVertexN_toks f a _ hvs.1 hcol2 (by omega)]
              dsimp only
              have hcons : chunksToks (chainChunks bond (w :: t2)) ++
                  (chunksToks (attrsChunks attrs) ++ rest) =
                  .edgeop bond ::
                    (chunksToks (wsCons [' '] (vChunks w) ++
                      chainChunks bond t2) ++
                      (chunksToks (attrsChunks attrs) ++ rest)) := rfl
              cases f with
              | zero => omega
              | succ g =>
                rw [hcons, pSAV_edgeop g]
                cases g with
                | zero => omega
                | succ g2 =>
                  rw [parseEdgeRest_step g2, ← hcons]
                  rw [parseEdgeTail_toks (w :: t2) g2 [Vertex.N a] bond _
                    hvs.2 hXcol hXeop (by rw [List.length_cons]; omega)]
                  dsimp only
                  rw [show ([Vertex.N a] ++ (w :: t2) : List Vertex) =
                    Vertex.N a :: w :: t2 from rfl]
                  rw [process_edge_stmt_ty, if_pos (by
                    rw [List.length_cons, List.length_cons]
                    omega)]
                  dsimp only
                  cases attrs with
                  | nil =>
                    rw [show chunksToks (attrsChunks ([] : List Attribute)) ++
                      rest = rest from rfl]
                    cases rest with
                    | nil => rfl
                    | cons t3 r =>
                      rcases hr t3 rfl with rfl | ⟨i, rfl⟩
                      · rfl
                      · rfl
                  | cons a1 l1 =>
                    rw [show chunksToks (attrsChunks (a1 :: l1)) ++ rest =
                      .lbrack :: (chunksToks (attrsBodyChunks (a1 :: l1) ++
                        [([], Tok.rbrack)]) ++ rest) from rfl]
                    dsimp only
                    rw [show (Tok.lbrack ::
                        (chunksToks (attrsBodyChunks (a1 :: l1) ++
                          [([], Tok.rbrack)]) ++ rest) : List Tok) =
                      chunksToks (attrsChunks (a1 :: l1)) ++ rest from rfl]
                    rw [parseAttrList_toks (a1 :: l1) rest hattrs
                      (by simp) ?clb]
                    case clb =>
                      intro hcontr
                      rcases hr _ hcontr with h | ⟨i, h⟩ <;> simp at h
    | Subgraph sg =>
      rw [show Stmt.rtOk (.Subgraph sg) = Subgraph.rtOk sg from rfl] at hs
      rw [show Stmt.pFuel (.Subgraph sg) = Subgraph.pFuel sg + 2 from rfl] at hf
      rw [show chunksToks (stmtChunks n step bond (.Subgraph sg)) ++ rest =
        chunksToks (subgraphChunks n step bond sg) ++ rest from rfl]
      rw [parseStmt_default f _ ?sgkw]
      case sgkw =>
        intro s' r' heq
        obtain ⟨sid, stmts⟩ := sg
        rw [show chunksToks (subgraphChunks n step bond (.mk sid stmts)) ++
          rest = .idT (.Plain "subgraph") :: (.idT sid :: .lbrace ::
            (chunksToks (stmtsChunks (n + step) step bond stmts ++
              [(closeWs n stmts, Tok.rbrace)]) ++ rest)) from rfl] at heq
        injection heq with h1 h2
        injection h2 with h21 h22
        exact absurd h21 (by simp)
      rw [parseVertexS_toks f sg n step bond rest hs (by omega)]
      dsimp only
      cases f with
      | zero => omega
      | succ g =>
        rw [pSAV_S g sg rest ?sgeop]
        case sgeop =>
          intro b hcontr
          rcases hr _ hcontr with h | ⟨i, h⟩ <;> simp at h
termination_by structural f => f

theorem parseVertexS_toks : ∀ (f : Nat) (sg : Subgraph) (n step : Nat)
    (bond : String) (rest : List Tok), Subgraph.rtOk sg = true →
    Subgraph.pFuel sg + 1 ≤ f →
    parseVertex f (chunksToks (subgraphChunks n step bond sg) ++ rest) =
      .ok (.S sg, rest)
  | 0, sg, n, step, bond, rest => by
    intro hs hf
    omega
  | f + 1, sg, n, step, bond, rest => by
    intro hs hf
    obtain ⟨sid, stmts⟩ := sg
    have hshape : chunksToks (subgraphChunks n step bond (.mk sid stmts)) ++
        rest = .idT (.Plain "subgraph") :: (.idT sid :: .lbrace ::
          (chunksToks (stmtsChunks (n + step) step bond stmts ++
            [(closeWs n stmts, Tok.rbrace)]) ++ rest)) := rfl
    rw [hshape, parseVertex_sg f _, ← hshape]
    rw [parseSubgraph_toks f (.mk sid stmts) n step bond rest hs (by omega)]
termination_by structural f => f

theorem parseSubgraph_toks : ∀ (f : Nat) (sg : Subgraph) (n step : Nat)
    (bond : String) (rest : List Tok), Subgraph.rtOk sg = true →
    Subgraph.pFuel sg ≤ f →
    parseSubgraph f (chunksToks (subgraphChunks n step bond sg) ++ rest) =
      .ok (sg, rest)
  | 0, sg, n, step, bond, rest => by
    intro hs hf
    have := subgraph_pFuel_ge sg
    omega
  | f + 1, sg, n, step, bond, rest => by
    intro hs hf
    obtain ⟨sid, stmts⟩ := sg
    rw [show Subgraph.rtOk (.mk sid stmts) = (sid.rtOk && stmtsRtOk stmts)
      from rfl, Bool.and_eq_true] at hs
    rw [show Subgraph.pFuel (.mk sid stmts) = stmtsFuel stmts + 1 from rfl]
      at hf
    have hbody : chunksToks (stmtsChunks (n + step) step bond stmts ++
        [(closeWs n stmts, Tok.rbrace)]) ++ rest =
        chunksToks (stmtsChunks (n + step) step bond stmts) ++
          (.rbrace :: rest) := by
      rw [chunksToks_append, List.append_assoc]
      rfl
    rw [show chunksToks (subgraphChunks n step bond (.mk sid stmts)) ++ rest =
      .idT (.Plain "subgraph") :: .idT sid :: .lbrace ::
        (chunksToks (stmtsChunks (n + step) step bond stmts ++
          [(closeWs n stmts, Tok.rbrace)]) ++ rest) from rfl]
    rw [parseSubgraph_step f sid _, hbody]
    rw [parseBody_toks f stmts (n + step) step bond (.rbrace :: rest) hs.2
      rfl (by omega)]
    dsimp only
    rw [expectTok, if_pos rfl]
termination_by structural f => f

theorem parseBody_toks : ∀ (f : Nat) (l : List Stmt) (n step : Nat)
    (bond : String) (rest : List Tok), stmtsRtOk l = true →
    rest.head? = some .rbrace → stmtsFuel l ≤ f →
    parseBody f (chunksToks (stmtsChunks n step bond l) ++ rest) = .ok (l, rest)
  | 0, l, n, step, bond, rest => by
    intro hl hr hf
    have := stmtsFuel_ge l
    omega
  | f + 1, l, n, step, bond, rest => by
    intro hl hr hf
    cases l with
    | nil =>
      cases rest with
      | nil => simp at hr
      | cons t r =>
        rw [List.head?_cons, Option.some.injEq] at hr
        subst hr
        rw [show chunksToks (stmtsChunks n step bond []) ++
          (Tok.rbrace :: r) = .rbrace :: r from rfl]
        exact parseBody_stop f r
    | cons s t =>
      rw [stmtsRtOk, Bool.and_eq_true] at hl
      rw [show stmtsFuel (s :: t) = 1 + max s.pFuel (stmtsFuel t) from rfl]
        at hf
      obtain ⟨i, ts, hts⟩ := stmtToks_head s n step bond hl.1
      rw [stmtsToks_split, hts, List.cons_append, parseBody_step f i _]
      rw [show (Tok.idT i :: (ts ++ (chunksToks (stmtsChunks n step bond t) ++
          rest)) : List Tok) =
        chunksToks (stmtChunks n step bond s) ++
          (chunksToks (stmtsChunks n step bond t) ++ rest) from by
        rw [hts, List.cons_append]]
      have hfol : followOk (chunksToks (stmtsChunks n step bond t) ++ rest) :=
        stmtsToks_follow t n step bond rest hl.2 hr
      rw [parseStmt_toks f s n step bond _ hl.1 hfol (by omega)]
      dsimp only
      rw [dropSeps_noop _ (fun t' ht' =>
        ⟨(followOk_not _ hfol t' ht').2.2.2.2.1,
         (followOk_not _ hfol t' ht').2.2.2.2.2⟩)]
      rw [parseBody_toks f t n step bond rest hl.2 hr (by omega)]
termination_by structural f => f

end


/-! The top level: `parseGraphToks` and `parse` on a printed graph. -/

/-- Fuel `parseGraphToks` hands to `parseBody` for this graph. -/
def Graph.gFuel : Dot.Graph → Nat
  | .Graph _ _ stmts => stmtsFuel stmts
  | .DiGraph _ _ stmts => stmtsFuel stmts

theorem parseGraphToks_graph (f : Nat) (i : Id) (r4 : List Tok) :
    parseGraphToks f (.idT (.Plain "graph") :: .idT i :: .lbrace :: r4) =
      match parseBody f r4 with
      | .error e => .error e
      | .ok (stmts, r5) =>
        match expectTok .rbrace r5 with
        | .error e => .error e
        | .ok r6 =>
          if r6.isEmpty then .ok (.Graph i false stmts)
          else .error "expected the end of the input" := rfl

theorem parseGraphToks_digraph (f : Nat) (i : Id) (r4 : List Tok) :
    parseGraphToks f (.idT (.Plain "digraph") :: .idT i :: .lbrace :: r4) =
      match parseBody f r4 with
      | .error e => .error e
      | .ok (stmts, r5) =>
        match expectTok .rbrace r5 with
        | .error e => .error e
        | .ok r6 =>
          if r6.isEmpty then .ok (.DiGraph i false stmts)
          else .error "expected the end of the input" := rfl

theorem parseGraphToks_strict_graph (f : Nat) (i : Id) (r4 : List Tok) :
    parseGraphToks f (.idT (.Plain "strict") :: .idT (.Plain "graph") ::
        .idT i :: .lbrace :: r4) =
      match parseBody f r4 with
      | .error e => .error e
      | .ok (stmts, r5) =>
        match expectTok .rbrace r5 with
        | .error e => .error e
        | .ok r6 =>
          if r6.isEmpty then .ok (.Graph i true stmts)
          else .error "expected the end of the input" := rfl

theorem parseGraphToks_strict_digraph (f : Nat) (i : Id) (r4 : List Tok) :
    parseGraphToks f (.idT (.Plain "strict") :: .idT (.Plain "digraph") ::
        .idT i :: .lbrace :: r4) =
      match parseBody f r4 with
      | .error e => .error e
      | .ok (stmts, r5) =>
        match expectTok .rbrace r5 with
        | .error e => .error e
        | .ok r6 =>
          if r6.isEmpty then .ok (.DiGraph i true stmts)
          else .error "expected the end of the input" := rfl

theorem parseGraphToks_toks (g : Dot.Graph) (n step f : Nat)
    (hg : Graph.rtOk g = true) (hf : Graph.gFuel g ≤ f) :
    parseGraphToks f (chunksToks (graphChunks n step g)) = .ok g := by
  cases g with
  | Graph id strict stmts =>
    rw [show Graph.rtOk (.Graph id strict stmts) =
      (id.rtOk && stmtsRtOk stmts) from rfl, Bool.and_eq_true] at hg
    rw [show Graph.gFuel (.Graph id strict stmts) = stmtsFuel stmts
      from rfl] at hf
    cases strict with
    | false =>
      rw [show chunksToks (graphChunks n step (.Graph id false stmts)) =
        .idT (.Plain "graph") :: .idT id :: .lbrace ::
          chunksToks (stmtsChunks (n + step) step "--" stmts ++
            [(graphCloseWs stmts, Tok.rbrace)]) from rfl]
      rw [show chunksToks (stmtsChunks (n + step) step "--" stmts ++
          [(graphCloseWs stmts, Tok.rbrace)]) =
        chunksToks (stmtsChunks (n + step) step "--" stmts) ++
          (.rbrace :: []) from by rw [chunksToks_append]; rfl]
      rw [parseGraphToks_graph f id _]
      rw [parseBody_toks f stmts (n + step) step "--" (.rbrace :: [])
        hg.2 rfl hf]
      dsimp only
      rw [expectTok, if_pos rfl]
      rfl
    | true =>
      rw [show chunksToks (graphChunks n step (.Graph id true stmts)) =
        .idT (.Plain "strict") :: .idT (.Plain "graph") :: .idT id ::
          .lbrace :: chunksToks (stmtsChunks (n + step) step "--" stmts ++
            [(graphCloseWs stmts, Tok.rbrace)]) from rfl]
      rw [show chunksToks (stmtsChunks (n + step) step "--" stmts ++
          [(graphCloseWs stmts, Tok.rbrace)]) =
        chunksToks (stmtsChunks (n + step) step "--" stmts) ++
          (.rbrace :: []) from by rw [chunksToks_append]; rfl]
      rw [parseGraphToks_strict_graph f id _]
      rw [parseBody_toks f stmts (n + step) step "--" (.rbrace :: [])
        hg.2 rfl hf]
      dsimp only
      rw [expectTok, if_pos rfl]
      rfl
  | DiGraph id strict stmts =>
    rw [show Graph.rtOk (.DiGraph id strict stmts) =
      (id.rtOk && stmtsRtOk stmts) from rfl, Bool.and_eq_true] at hg
    rw [show Graph.gFuel (.DiGraph id strict stmts) = stmtsFuel stmts
      from rfl] at hf
    cases strict with
    | false =>
      rw [show chunksToks (graphChunks n step (.DiGraph id false stmts)) =
        .idT (.Plain "digraph") :: .idT id :: .lbrace ::
          chunksToks (stmtsChunks (n + step) step "->" stmts ++
            [(graphCloseWs stmts, Tok.rbrace)]) from rfl]
      rw [show chunksToks (stmtsChunks (n + step) step "->" stmts ++
          [(graphCloseWs stmts, Tok.rbrace)]) =
        chunksToks (stmtsChunks (n + step) step "->" stmts) ++
          (.rbrace :: []) from by rw [chunksToks_append]; rfl]
      rw [parseGraphToks_digraph f id _]
      rw [parseBody_toks f stmts (n + step) step "->" (.rbrace :: [])
        hg.2 rfl hf]
      dsimp only
      rw [expectTok, if_pos rfl]
      rfl
    | true =>
      rw [show chunksToks (graphChunks n step (.DiGraph id true stmts)) =
        .idT (.Plain "strict") :: .idT (.Plain "digraph") :: .idT id ::
          .lbrace :: chunksToks (stmtsChunks (n + step) step "->" stmts ++
            [(graphCloseWs stmts, Tok.rbrace)]) from rfl]
      rw [show chunksToks (stmtsChunks (n + step) step "->" stmts ++
          [(graphCloseWs stmts, Tok.rbrace)]) =
        chunksToks (stmtsChunks (n + step) step "->" stmts) ++
          (.rbrace :: []) from by rw [chunksToks_append]; rfl]
      rw [parseGraphToks_strict_digraph f id _]
      rw [parseBody_toks f stmts (n + step) step "->" (.rbrace :: [])
        hg.2 rfl hf]
      dsimp only
      rw [expectTok, if_pos rfl]
      rfl

theorem graph_gFuel_le (g : Dot.Graph) (n step : Nat)
    (hg : Graph.rtOk g = true) :
    Graph.gFuel g ≤ (chunksToks (graphChunks n step g)).length + 1 := by
  cases g with
  | Graph id strict stmts =>
    rw [show Graph.rtOk (.Graph id strict stmts) =
      (id.rtOk && stmtsRtOk stmts) from rfl, Bool.and_eq_true] at hg
    rw [show Graph.gFuel (.Graph id strict stmts) = stmtsFuel stmts from rfl]
    have := stmtsFuel_le stmts (n + step) step "--" hg.2
    rw [chunksToks_len]
    rw [graphChunks]
    cases strict <;>
      simp only [if_true, if_false, Bool.false_eq_true, List.length_append,
        List.length_cons, List.length_nil] <;> omega
  | DiGraph id strict stmts =>
    rw [show Graph.rtOk (.DiGraph id strict stmts) =
      (id.rtOk && stmtsRtOk stmts) from rfl, Bool.and_eq_true] at hg
    rw [show Graph.gFuel (.DiGraph id strict stmts) = stmtsFuel stmts from rfl]
    have := stmtsFuel_le stmts (n + step) step "->" hg.2
    rw [chunksToks_len]
    rw [graphChunks]
    cases strict <;>
      simp only [if_true, if_false, Bool.false_eq_true, List.length_append,
        List.length_cons, List.length_nil] <;> omega

theorem parse_graphChunks (g : Dot.Graph) (n step : Nat)
    (hg : Graph.rtOk g = true) :
    parse (String.mk (chunksFlat (graphChunks n step g))) = .ok g := by
  rw [parse]
  rw [show (String.mk (chunksFlat (graphChunks n step g))).toList =
    chunksFlat (graphChunks n step g) from rfl]
  rw [tokenize_chunks _ (graphChunks_ok g n step hg)]
  dsimp only
  exact parseGraphToks_toks g n step _ hg
    (graph_gFuel_le g n step hg)


/-- C1 (amended): "Printing a graph and re-parsing the output returns the
same graph" holds on the round-trip fragment `Graph.rtOk`: every id is
lexically valid and not a keyword, every port is disambiguated (a lone
plain port id must not spell a compass token and compass components are
among the ten tokens), attribute-statement lists are nonempty, `Chain`
edges have at least three vertices, and edge endpoints are node ids (not
subgraphs). On this fragment, printing with the default `DotPrinter`
context and re-parsing succeeds and returns the graph unchanged; outside
it the original claim fails (see the counterexample). -/
theorem claim_C1 (g : Dot.Graph) (h : Graph.rtOk g = true) :
    roundTrip g = some (.ok g) := by
  rw [roundTrip, printGraph_chunks g PrinterContext.default
    ⟨rfl, rfl, rfl, rfl, rfl, rfl⟩ h]
  rw [show (some (String.mk (chunksFlat (graphChunks
      PrinterContext.default.indent PrinterContext.default.indent_step
      g)))).map parse =
    some (parse (String.mk (chunksFlat (graphChunks
      PrinterContext.default.indent PrinterContext.default.indent_step g))))
    from rfl]
  rw [parse_graphChunks g _ _ h]

/-- Witness for the amended C1: a concrete strict digraph with a node
statement carrying an attribute and a pair edge lies in the fragment, and
the theorem applies to it. -/
theorem claim_C1_witness :
    Graph.rtOk (.DiGraph (.Plain "g") true
      [.Node ⟨⟨.Plain "a", none⟩, [⟨.Plain "color", .Plain "red"⟩]⟩,
       .Edge (.mk (.Pair (.N ⟨.Plain "a", none⟩)
         (.N ⟨.Plain "b", some ⟨none, some "ne"⟩⟩)) [])]) = true ∧
    roundTrip (.DiGraph (.Plain "g") true
      [.Node ⟨⟨.Plain "a", none⟩, [⟨.Plain "color", .Plain "red"⟩]⟩,
       .Edge (.mk (.Pair (.N ⟨.Plain "a", none⟩)
         (.N ⟨.Plain "b", some ⟨none, some "ne"⟩⟩)) [])]) =
      some (.ok (.DiGraph (.Plain "g") true
      [.Node ⟨⟨.Plain "a", none⟩, [⟨.Plain "color", .Plain "red"⟩]⟩,
       .Edge (.mk (.Pair (.N ⟨.Plain "a", none⟩)
         (.N ⟨.Plain "b", some ⟨none, some "ne"⟩⟩)) [])])) :=
  ⟨by decide, claim_C1 _ (by decide)⟩

end Dot
